import Mathlib

/-!
Verification of the dictionary-based tokenizer core: the compressed sorted
prefix trie (src/dict/mod.rs) and the maximal-matching segmenter
(src/tokenizer/th/mod.rs).

Strings are modelled as lists of Unicode characters; all offsets and lengths
are measured in UTF-8 bytes, exactly as in the source.  The source wraps the
child vector of a mutable trie node in an Option that is Some for every node
the builder ever creates (creation sites use Some(vec![]), splits rebuild it,
and the sealing conversion maps None to the empty vector); the model
represents that layer by the list itself.
-/

namespace Tok

/-- Character list standing for a Rust str / String. -/
abbrev Str := List Char

/-- UTF-8 encoded length of one character, mirroring char::len_utf8. -/
def charLen (c : Char) : Nat :=
  if c.toNat < 0x80 then 1
  else if c.toNat < 0x800 then 2
  else if c.toNat < 0x10000 then 3
  else 4

/-- UTF-8 byte length of a string, mirroring str::len. -/
def byteLen : Str → Nat
  | [] => 0
  | c :: t => charLen c + byteLen t

/-- Check that a byte offset is a character boundary of the string
(0 and byteLen are boundaries; Rust str slicing panics off-boundary). -/
def isBoundary : Str → Nat → Bool
  | _, 0 => true
  | [], _ + 1 => false
  | c :: t, k + 1 =>
    if k + 1 < charLen c then false else isBoundary t (k + 1 - charLen c)

/-- Drop the first k bytes of a string (callers only use boundary offsets). -/
def dropB : Str → Nat → Str
  | s, 0 => s
  | [], _ + 1 => []
  | c :: t, k + 1 => dropB t (k + 1 - charLen c)

/-- Take the first k bytes of a string (callers only use boundary offsets). -/
def takeB : Str → Nat → Str
  | _, 0 => []
  | [], _ + 1 => []
  | c :: t, k + 1 =>
    if k + 1 < charLen c then [] else c :: takeB t (k + 1 - charLen c)

/-- Byte sub-slice s[a..b], mirroring Rust and used at boundary offsets. -/
def sliceB (s : Str) (a b : Nat) : Str := takeB (dropB s a) (b - a)

/-- Checked byte sub-slice: fails exactly when Rust s[a..b] would panic. -/
def sliceChk (s : Str) (a b : Nat) : Option Str :=
  if a ≤ b ∧ isBoundary s a ∧ isBoundary s b then some (sliceB s a b) else none

/-- Checked suffix s[a..], mirroring the runtime boundary check of the slice. -/
def suffixChk (s : Str) (a : Nat) : Option Str :=
  if isBoundary s a then some (dropB s a) else none

/-- Length in bytes of the common character-wise prefix of two strings,
mirroring the zip loop inside find_longest_prefix. -/
def commonPreB : Str → Str → Nat
  | a :: ta, b :: tb => if a = b then charLen a + commonPreB ta tb else 0
  | _, _ => 0

/-- Rust Option of char comparison nv > cv (None is smaller than Some). -/
def optCharGt : Option Char → Option Char → Bool
  | some a, some b => decide (b < a)
  | some _, none => true
  | none, _ => false

/-- Mutable trie node (struct Node in src/dict/mod.rs). -/
inductive Node where
  | mk (childs : List Node) (terminal : Bool) (value : Str)

def Node.childs : Node → List Node
  | .mk c _ _ => c

def Node.terminal : Node → Bool
  | .mk _ t _ => t

def Node.value : Node → Str
  | .mk _ _ v => v

/-- Loop body of find_longest_prefix: scan the sorted sibling list keeping the
index of the longest common-prefix match; break early at the first node whose
first character exceeds the first character of value while nothing matched. -/
def findLongestGo (value : Str) : List Node → Nat → Nat → Nat → Nat × Nat
  | [], _, index, longest => (index, longest)
  | node :: rest, i, index, longest =>
    let n := commonPreB node.value value
    if n > longest then
      findLongestGo value rest (i + 1) i n
    else if optCharGt node.value.head? value.head? && longest == 0 then
      (i, longest)
    else
      findLongestGo value rest (i + 1) index longest

/-- Port of find_longest_prefix: index of the node sharing the longest common
prefix with value and that length in bytes (the index is the length of the
list and the length 0 when nothing matches). -/
def findLongestPrefixLen (nodes : List Node) (value : Str) : Nat × Nat :=
  findLongestGo value nodes 0 nodes.length 0

/-- Fuel-driven port of add_node: insert value into the sorted sibling list,
splitting or recursing according to the longest-common-prefix case analysis.
The byte length of the value strictly decreases at each recursive call, so
any fuel above it gives the behaviour of the source. -/
def addNodeF : Nat → List Node → Str → List Node
  | 0, nodes, _ => nodes
  | fuel + 1, nodes, value =>
    let i := (findLongestPrefixLen nodes value).1
    let len := (findLongestPrefixLen nodes value).2
    if len = 0 then
      nodes.insertIdx i (Node.mk [] true value)
    else
      match nodes.get? i with
      | none => nodes
      | some node =>
        if len = byteLen node.value then
          if len = byteLen value then
            nodes.set i (Node.mk node.childs true node.value)
          else
            nodes.set i (Node.mk (addNodeF fuel node.childs (dropB value len))
              node.terminal node.value)
        else
          if len ≥ byteLen value then
            nodes.set i (Node.mk [Node.mk node.childs node.terminal (dropB node.value len)]
              true (takeB node.value len))
          else
            nodes.set i (Node.mk
              (addNodeF fuel [Node.mk node.childs node.terminal (dropB node.value len)]
                (dropB value len))
              false (takeB node.value len))

/-- Port of add_node at a fuel that the recursion never exhausts. -/
def addNode (nodes : List Node) (value : Str) : List Node :=
  addNodeF (byteLen value + 1) nodes value

/-- Build the mutable trie root from a word list (Dict::new then Dict::add
over the sequence, as the From conversions for Tokenizer do). -/
def buildRoot (words : List Str) : List Node :=
  words.foldl addNode []

/-- Sealed trie node (struct SizedNode in src/dict/mod.rs). -/
inductive SizedNode where
  | mk (childs : List SizedNode) (terminal : Bool) (value : Str)

def SizedNode.childs : SizedNode → List SizedNode
  | .mk c _ _ => c

def SizedNode.terminal : SizedNode → Bool
  | .mk _ t _ => t

def SizedNode.value : SizedNode → Str
  | .mk _ _ v => v

mutual

/-- Structural conversion of a mutable node into a sealed node
(impl From of Node for SizedNode). -/
def toSized : Node → SizedNode
  | .mk cs t v => .mk (toSizedList cs) t v

/-- Conversion of every node of a child list. -/
def toSizedList : List Node → List SizedNode
  | [] => []
  | n :: rest => toSized n :: toSizedList rest

end

/-- Seal the mutable root into the immutable root
(impl From of Dict for SizedDict). -/
def sealRoot (nodes : List Node) : List SizedNode := nodes.map toSized

/-- Port of childs_matched: the children whose label is a prefix of value,
paired with the remaining unmatched part. -/
def childsMatched (nodes : List SizedNode) (value : Str) : List (SizedNode × Str) :=
  nodes.filterMap fun n =>
    if n.value.isPrefixOf value then some (n, dropB value (byteLen n.value)) else none

mutual

/-- Node count of a sealed subtree, used as termination measure. -/
def snSize : SizedNode → Nat
  | .mk cs _ _ => 1 + snListSize cs

/-- Node count of a sealed sibling list. -/
def snListSize : List SizedNode → Nat
  | [] => 0
  | n :: t => snSize n + snListSize t

end

/-- Entries to push on the evaluation queue while processing one frontier
entry of terminals_prefix: children of matched nodes with a nonempty tail. -/
def tpEnq (offset : Nat) (matched : List (SizedNode × Str)) :
    List (List SizedNode × Str × Nat) :=
  matched.filterMap fun m =>
    if 0 < m.1.childs.length ∧ 0 < m.2.length then
      some (m.1.childs, m.2, offset + byteLen m.1.value)
    else none

/-- Termination measure of terminals_prefix: total weight of the node lists
still on the evaluation queue. -/
def tpWeight (queue : List (List SizedNode × Str × Nat)) : Nat :=
  (queue.map fun e => 2 * snListSize e.1 + 1).sum

/-- Fuel-driven breadth-order loop of terminals_prefix over the evaluation
queue: each entry holds a sibling list, the remaining value and the byte
offset already consumed; matched terminal children emit their end offset and
children of matched nodes are enqueued.  The queue weight strictly decreases
at each iteration, so any fuel above it gives the behaviour of the source. -/
def tpGoF : Nat → List (List SizedNode × Str × Nat) → List Nat
  | 0, _ => []
  | _ + 1, [] => []
  | fuel + 1, (nodes, value, offset) :: rest =>
    ((childsMatched nodes value).filterMap fun m =>
      if m.1.terminal then some (offset + byteLen m.1.value) else none)
      ++ tpGoF fuel (rest ++ tpEnq offset (childsMatched nodes value))

/-- Breadth-order loop of terminals_prefix at a fuel that the recursion never
exhausts. -/
def tpGo (queue : List (List SizedNode × Str × Nat)) : List Nat :=
  tpGoF (tpWeight queue + 1) queue

/-- Port of terminals_prefix: end offsets in value of every dictionary word
that starts at the given byte offset, with the entry slice checked like the
Rust slice operation. -/
def terminalsPrefixAt (nodes : List SizedNode) (value : Str) (offset : Nat) :
    Option (List Nat) :=
  (suffixChk value offset).map fun suffix => tpGo [(nodes, suffix, offset)]

/-- Loop of the segmenter's consume_unknown: advance one character at a time
from the already consumed byte count, probing the prefix query at each new
offset, stopping at the first offset whose query is non-empty. -/
def cuGo (nodes : List SizedNode) (value : Str) : Str → Nat → Option (Nat × List Nat)
  | [], consumed => some (consumed, [])
  | c :: rest, consumed =>
    let consumed2 := consumed + charLen c
    match terminalsPrefixAt nodes value consumed2 with
    | Option.none => Option.none
    | Option.some rs =>
      if 0 < rs.length then some (consumed2, rs) else cuGo nodes value rest consumed2

/-- Port of consume_unknown in maximal_matching: returns the unknown word
boundary together with the query results collected at that boundary. -/
def consumeUnknownChk (nodes : List SizedNode) (value : Str) (offset : Nat) :
    Option (Nat × List Nat) :=
  match suffixChk value offset with
  | Option.none => Option.none
  | Option.some suffix => cuGo nodes value suffix offset

/-- Worklist record of the segmenter: [previous pointer, vertex offset,
unknown bytes count]. -/
structure QE where
  back : Nat
  off : Nat
  unk : Nat
deriving Repr, DecidableEq

/-- Vertex states of the word graph (enum VertexState). -/
inductive VertexState where
  | None
  | Cache (v : List Nat)
  | Some (v : List Nat)
deriving Repr, DecidableEq

/-- Failure channel of the model, naming each Rust operation that can panic
plus fuel exhaustion standing for divergence of the source loops. -/
inductive Panic where
  | queueIdx
  | vertexIdx
  | sliceFail
  | loopFuel
  | walkFuel
deriving Repr, DecidableEq

/-- State of the main search loop of maximal_matching. -/
structure MMState where
  vertices : List VertexState
  queue : List QE
  i : Nat
  notEnded : Bool
deriving Repr, DecidableEq

/-- Push prefix of a branch list: all elements up to and including the first
one reaching the end of the text, with a flag telling whether the end was
reached (the source pushes inside a for loop and breaks at the end). -/
def takeUntilGe (n : Nat) : List Nat → List Nat × Bool
  | [] => ([], false)
  | v :: t =>
    if v ≥ n then ([v], true)
    else
      let r := takeUntilGe n t
      (v :: r.1, r.2)

/-- Outcome of one iteration of the main loop: continue, or leave the loop
through the trailing-unknown break (which skips the final i increment). -/
inductive StepOut where
  | goOn (s : MMState)
  | stopped (s : MMState)

/-- One iteration of the main while loop of maximal_matching. -/
def step (dict : List SizedNode) (text : Str) (s : MMState) : Except Panic StepOut :=
  let n := byteLen text
  match s.queue.get? s.i with
  | Option.none => .error .queueIdx
  | Option.some q =>
    match s.vertices.get? q.off with
    | Option.none => .error .vertexIdx
    | Option.some vst =>
      match vst with
      | .None =>
        match terminalsPrefixAt dict text q.off with
        | Option.none => .error .sliceFail
        | Option.some branches =>
          if 0 < branches.length then
            let tu := takeUntilGe n branches
            .ok (.goOn { vertices := s.vertices.set q.off (.Some tu.1),
                         queue := s.queue ++ tu.1.map fun v => ⟨s.i, v, q.unk⟩,
                         i := s.i + 1,
                         notEnded := !tu.2 })
          else
            match consumeUnknownChk dict text q.off with
            | Option.none => .error .sliceFail
            | Option.some cu =>
              let cur := cu.1
              let queue2 := s.queue ++ [⟨s.i, cur, q.unk + (cur - q.off)⟩]
              let verts2 := s.vertices.set q.off (.Some [cur])
              if cur ≥ n then
                .ok (.stopped { vertices := verts2, queue := queue2,
                                i := s.i, notEnded := s.notEnded })
              else
                .ok (.goOn { vertices := verts2.set cur (.Cache cu.2),
                             queue := queue2, i := s.i + 1, notEnded := s.notEnded })
      | .Cache cs =>
        let tu := takeUntilGe n cs
        .ok (.goOn { vertices := s.vertices.set q.off (.Some cs),
                     queue := s.queue ++ tu.1.map fun v => ⟨s.i, v, q.unk⟩,
                     i := s.i + 1,
                     notEnded := !tu.2 })
      | .Some _ => .ok (.goOn { s with i := s.i + 1 })

/-- Main while loop driven by fuel; the fuel is large enough that exhaustion
is unreachable, which is proved separately. -/
def runLoop (dict : List SizedNode) (text : Str) (fuel : Nat) (s : MMState) :
    Except Panic MMState :=
  if s.notEnded = false then .ok s
  else
    match fuel with
    | 0 => .error .loopFuel
    | fuel' + 1 =>
      match step dict text s with
      | .error e => .error e
      | .ok (.goOn s2) => runLoop dict text fuel' s2
      | .ok (.stopped s2) => .ok s2

/-- Finalization pass: scan the rest of the worklist for a record whose
vertex has an edge reaching the end and carries fewer unknown bytes than the
last record; the last qualifying index wins, mirroring repeated overwrites of
the back pointer of the last record. -/
def finGo (n : Nat) (vertices : List VertexState) (queue : List QE) (lastUnk : Nat) :
    Nat → Nat → Option Nat → Except Panic (Option Nat)
  | 0, _, best => .ok best
  | rem + 1, j, best =>
    if j < queue.length - 1 then
      match queue.get? j with
      | Option.none => .error .queueIdx
      | Option.some e =>
        match vertices.get? e.off with
        | Option.none => .error .vertexIdx
        | Option.some vst =>
          let best2 : Option Nat :=
            match vst with
            | .Some vs =>
              if (vs.any fun v => n ≤ v) && decide (e.unk < lastUnk) then some j else best
            | _ => best
          finGo n vertices queue lastUnk rem (j + 1) best2
    else .ok best

/-- Path reconstruction: walk the back pointers from the last record,
emitting byte slices of the text; fuel stands for the unbounded source loop. -/
def walkBack (text : Str) (queue : List QE) (fuel : Nat) (i : Nat) (lastOff : Nat)
    (acc : List Str) : Except Panic (List Str) :=
  if i = 0 then
    match sliceChk text 0 lastOff with
    | Option.none => .error .sliceFail
    | Option.some t => .ok (t :: acc)
  else
    match fuel with
    | 0 => .error .walkFuel
    | fuel' + 1 =>
      match queue.get? i with
      | Option.none => .error .queueIdx
      | Option.some e =>
        match sliceChk text e.off lastOff with
        | Option.none => .error .sliceFail
        | Option.some t => walkBack text queue fuel' e.back e.off (t :: acc)

/-- Fuel bound for the main loop, dominating its termination measure. -/
def mmFuel (n : Nat) : Nat := n * ((2 * n + 2) * (2 * n + 2)) + 2

/-- Initial search state of maximal_matching: one Unvisited vertex per byte
of the text and the single worklist record [0, 0, 0]. -/
def mmInit (text : Str) : MMState :=
  ⟨List.replicate (byteLen text) .None, [⟨0, 0, 0⟩], 0, true⟩

/-- Port of maximal_matching (continued below): breadth-order search over the
word graph followed by the finalization pass and path reconstruction. -/
def maximalMatching (dict : List SizedNode) (text : Str) : Except Panic (List Str) :=
  let n := byteLen text
  match runLoop dict text (mmFuel n) (mmInit text) with
  | .error e => .error e
  | .ok s1 =>
    match s1.queue.getLast? with
    | Option.none => .error .queueIdx
    | Option.some lastE =>
      match finGo n s1.vertices s1.queue lastE.unk s1.queue.length s1.i Option.none with
      | .error e => .error e
      | .ok best =>
        let start : Nat :=
          match best with
          | Option.some j => j
          | Option.none => lastE.back
        walkBack text s1.queue s1.queue.length start lastE.off []

/-- Unicode White_Space test, mirroring char::is_whitespace. -/
def isWS (c : Char) : Bool :=
  [0x09, 0x0A, 0x0B, 0x0C, 0x0D, 0x20, 0x85, 0xA0, 0x1680,
   0x2000, 0x2001, 0x2002, 0x2003, 0x2004, 0x2005, 0x2006, 0x2007,
   0x2008, 0x2009, 0x200A, 0x2028, 0x2029, 0x202F, 0x205F, 0x3000].contains c.toNat

/-- Loop of the whitespace pre-pass: cur is the reversed run of
non-whitespace characters currently being accumulated. -/
def splitWSGo : Str → Str → List Str
  | [], cur => if cur = [] then [] else [cur.reverse]
  | c :: t, cur =>
    if isWS c then
      if cur = [] then splitWSGo t [] else cur.reverse :: splitWSGo t []
    else
      splitWSGo t (c :: cur)

/-- Whitespace pre-pass, mirroring str::split_whitespace: maximal non-empty
runs of non-whitespace characters. -/
def splitWS (s : Str) : List Str := splitWSGo s []

/-- Port of Tokenizer::tokenize for the Thai tokenizer: split on whitespace,
segment each chunk, and concatenate the token streams. -/
def tokenize (dict : List SizedNode) (value : Str) : Except Panic (List Str) :=
  match (splitWS value).mapM (maximalMatching dict) with
  | .error e => .error e
  | .ok tss => .ok tss.flatten

/-- Iterate the main loop body a fixed number of times from a given state,
used to observe intermediate search states. -/
def stepsN (dict : List SizedNode) (text : Str) : Nat → MMState → Except Panic MMState
  | 0, s => .ok s
  | k + 1, s =>
    match step dict text s with
    | .error e => .error e
    | .ok (.goOn s2) => stepsN dict text k s2
    | .ok (.stopped s2) => .ok s2

/-- Known-word edge of the segmentation word graph: a dictionary entry spans
from u to v in the text. -/
def isKnownEdge (dict : List SizedNode) (text : Str) (u v : Nat) : Bool :=
  match terminalsPrefixAt dict text u with
  | Option.some rs => rs.contains v
  | Option.none => false

/-- Unknown edge of the segmentation word graph: no dictionary entry starts
at u and the unknown-isolation policy started at u stops exactly at v. -/
def isUnknownEdge (dict : List SizedNode) (text : Str) (u v : Nat) : Bool :=
  match terminalsPrefixAt dict text u with
  | Option.some rs =>
    rs.isEmpty &&
      (match consumeUnknownChk dict text u with
       | Option.some cu => cu.1 == v
       | Option.none => false)
  | Option.none => false

/-- Valid segmentation path from vertex u through the given vertices to the
end of the text, every edge being a dictionary entry or an isolation span. -/
def pathValid (dict : List SizedNode) (text : Str) : Nat → List Nat → Bool
  | u, [] => u == byteLen text
  | u, v :: rest =>
    (decide (u < v) && (isKnownEdge dict text u v || isUnknownEdge dict text u v)) &&
      pathValid dict text v rest

/-- Total bytes carried by unknown edges along a segmentation path. -/
def pathUnknownBytes (dict : List SizedNode) (text : Str) : Nat → List Nat → Nat
  | _, [] => 0
  | u, v :: rest =>
    (if isUnknownEdge dict text u v then v - u else 0) + pathUnknownBytes dict text v rest

/-- State carried by either loop outcome. -/
def StepOut.state : StepOut → MMState
  | .goOn s => s
  | .stopped s => s

/-- First byte of the UTF-8 encoding of a character. -/
def utf8FirstByte (c : Char) : Nat :=
  if c.toNat < 0x80 then c.toNat
  else if c.toNat < 0x800 then 0xC0 + c.toNat / 0x40
  else if c.toNat < 0x10000 then 0xE0 + c.toNat / 0x1000
  else 0xF0 + c.toNat / 0x40000

/-- Sibling order: the label of a starts with a strictly smaller character
than the label of b, in the Option ordering the source comparator uses. -/
def firstLt (a b : Node) : Prop := optCharGt b.value.head? a.value.head? = true

mutual

/-- Well-formed trie node: non-empty label and well-formed children. -/
inductive WfNode : Node → Prop where
  | intro : ∀ (cs : List Node) (t : Bool) (v : Str), v ≠ [] → WfForest cs →
      WfNode (Node.mk cs t v)

/-- Well-formed sibling list: every node well-formed and the labels pairwise
strictly increasing in their first character. -/
inductive WfForest : List Node → Prop where
  | nil : WfForest []
  | cons : ∀ (n : Node) (rest : List Node), WfNode n → WfForest rest →
      (∀ m ∈ rest, firstLt n m) → WfForest (n :: rest)

end

/-- Sibling order on sealed nodes. -/
def firstLtS (a b : SizedNode) : Prop := optCharGt b.value.head? a.value.head? = true

mutual

/-- Well-formed sealed node: non-empty label and well-formed children. -/
inductive WfSNode : SizedNode → Prop where
  | intro : ∀ (cs : List SizedNode) (t : Bool) (v : Str), v ≠ [] → WfSForest cs →
      WfSNode (SizedNode.mk cs t v)

/-- Well-formed sealed sibling list. -/
inductive WfSForest : List SizedNode → Prop where
  | nil : WfSForest []
  | cons : ∀ (n : SizedNode) (rest : List SizedNode), WfSNode n → WfSForest rest →
      (∀ m ∈ rest, firstLtS n m) → WfSForest (n :: rest)

end

/-- Membership of a word in the mutable trie: some root-to-node path of
concatenated labels equals the word and the final node is terminal. -/
inductive MContains : List Node → Str → Prop where
  | here : ∀ (n : Node) (ns : List Node), n ∈ ns → n.terminal = true →
      MContains ns n.value
  | there : ∀ (n : Node) (ns : List Node) (rest : Str), n ∈ ns → rest ≠ [] →
      MContains n.childs rest → MContains ns (n.value ++ rest)

/-- Membership of a word in the sealed trie. -/
inductive ContainsWord : List SizedNode → Str → Prop where
  | here : ∀ (n : SizedNode) (ns : List SizedNode), n ∈ ns → n.terminal = true →
      ContainsWord ns n.value
  | there : ∀ (n : SizedNode) (ns : List SizedNode) (rest : Str), n ∈ ns → rest ≠ [] →
      ContainsWord n.childs rest → ContainsWord ns (n.value ++ rest)

/-- Indicator of the Unvisited vertex state. -/
def vstNone : VertexState → Nat
  | .None => 1
  | _ => 0

/-- Indicator of the Cached vertex state. -/
def vstCache : VertexState → Nat
  | .Cache _ => 1
  | _ => 0

/-- Number of Unvisited vertices. -/
def cN (l : List VertexState) : Nat := (l.map vstNone).sum

/-- Number of Cached vertices. -/
def cC (l : List VertexState) : Nat := (l.map vstCache).sum

/-- Back-pointer sanity of the worklist: every record sits at a boundary
offset within the text and points strictly back to a record with a strictly
smaller offset. -/
def QChain (text : Str) (queue : List QE) : Prop :=
  ∀ j e, queue.get? j = some e →
    isBoundary text e.off = true ∧ e.off ≤ byteLen text ∧ e.back ≤ j ∧
    (0 < j → e.back < j ∧ ∃ pe, queue.get? e.back = some pe ∧ pe.off < e.off)

/-- Loop invariant of the segmenter search. -/
structure MMInv (text : Str) (s : MMState) : Prop where
  vlen : s.vertices.length = byteLen text
  qne : 0 < s.queue.length
  q0 : s.queue.get? 0 = some ⟨0, 0, 0⟩
  ile : s.i ≤ s.queue.length
  chain : QChain text s.queue
  offlt : s.notEnded = true → ∀ j e, s.queue.get? j = some e → e.off < byteLen text
  gen : s.notEnded = true → ∀ j, j < s.i → ∀ e, s.queue.get? j = some e →
    ∃ k e2, s.queue.get? k = some e2 ∧ e.off < e2.off
  expanded : s.notEnded = true → ∀ o vs, s.vertices.get? o = some (.Some vs) →
    ∃ k e2, s.queue.get? k = some e2 ∧ o < e2.off
  cache : ∀ o cs, s.vertices.get? o = some (.Cache cs) → cs ≠ [] ∧
    List.Chain' (fun a b => a < b) cs ∧
    ∀ v ∈ cs, o < v ∧ v ≤ byteLen text ∧ isBoundary text v = true

/-- Exit conditions of the search loop, feeding the finalization pass and
the path reconstruction. -/
structure MMEnd (text : Str) (s : MMState) : Prop where
  vlen : s.vertices.length = byteLen text
  q2 : 2 ≤ s.queue.length
  q0 : s.queue.get? 0 = some ⟨0, 0, 0⟩
  chain : QChain text s.queue
  last : ∃ lastE, s.queue.get? (s.queue.length - 1) = some lastE ∧
    lastE.off = byteLen text
  small : ∀ j e, j < s.queue.length - 1 → s.queue.get? j = some e →
    e.off < byteLen text

/-- Coefficient of the loop termination measure. -/
def mmA (text : Str) : Nat := 2 * byteLen text + 2

/-- Termination measure of the search loop: lexicographic count of Unvisited
vertices, Cached vertices and remaining worklist records, packed into one
number. -/
def mmMeasure (text : Str) (s : MMState) : Nat :=
  cN s.vertices * (mmA text * mmA text) + cC s.vertices * mmA text +
    (s.queue.length - s.i)

theorem charLen_pos (c : Char) : 0 < charLen c := by
  unfold charLen
  split
  · exact Nat.one_pos
  split
  · exact Nat.zero_lt_two
  split
  · exact Nat.zero_lt_succ 2
  · exact Nat.zero_lt_succ 3

theorem byteLen_append (a b : Str) : byteLen (a ++ b) = byteLen a + byteLen b := by
  induction a with
  | nil => simp [byteLen]
  | cons c t ih => simp [byteLen, ih, Nat.add_assoc]

theorem byteLen_pos {s : Str} (h : s ≠ []) : 0 < byteLen s := by
  cases s with
  | nil => exact absurd rfl h
  | cons c t => exact Nat.lt_of_lt_of_le (charLen_pos c) (Nat.le_add_right _ _)

theorem byteLen_eq_zero {s : Str} (h : byteLen s = 0) : s = [] := by
  cases s with
  | nil => rfl
  | cons c t =>
    exfalso
    have := charLen_pos c
    simp [byteLen] at h
    omega

theorem byteLen_dropB_le (s : Str) (k : Nat) : byteLen (dropB s k) ≤ byteLen s := by
  induction s generalizing k with
  | nil => cases k <;> simp [dropB]
  | cons c t ih =>
    cases k with
    | zero => simp [dropB]
    | succ m =>
      calc byteLen (dropB t (m + 1 - charLen c)) ≤ byteLen t := ih _
        _ ≤ byteLen (c :: t) := by simp only [byteLen]; omega

theorem byteLen_dropB_lt (s : Str) (k : Nat) (hs : s ≠ []) (hk : 0 < k) :
    byteLen (dropB s k) < byteLen s := by
  cases s with
  | nil => exact absurd rfl hs
  | cons c t =>
    cases k with
    | zero => omega
    | succ m =>
      have h1 : byteLen (dropB t (m + 1 - charLen c)) ≤ byteLen t := byteLen_dropB_le t _
      have h2 := charLen_pos c
      simp only [dropB, byteLen]
      omega

theorem commonPreB_nil_right (a : Str) : commonPreB a [] = 0 := by
  cases a <;> rfl

theorem findLongestGo_nil_fst (nodes : List Node) (i idx : Nat) :
    (findLongestGo [] nodes i idx 0).2 = 0 := by
  induction nodes generalizing i idx with
  | nil => rfl
  | cons node rest ih =>
    simp only [findLongestGo, commonPreB_nil_right]
    split
    · omega
    · split
      · rfl
      · exact ih _ _

theorem findLongestPrefixLen_nil (nodes : List Node) :
    (findLongestPrefixLen nodes []).2 = 0 := findLongestGo_nil_fst nodes 0 nodes.length

theorem value_ne_nil_of_flp {nodes : List Node} {value : Str}
    (h : (findLongestPrefixLen nodes value).2 ≠ 0) : value ≠ [] := by
  intro hv
  subst hv
  exact h (findLongestPrefixLen_nil nodes)

theorem addNodeF_irrel (f1 : Nat) : ∀ (f2 : Nat) (nodes : List Node) (value : Str),
    byteLen value < f1 → byteLen value < f2 →
    addNodeF f1 nodes value = addNodeF f2 nodes value := by
  induction f1 with
  | zero => intro f2 nodes value h1 h2; omega
  | succ g ih =>
    intro f2 nodes value h1 h2
    cases f2 with
    | zero => omega
    | succ h =>
      simp only [addNodeF]
      by_cases hlen : (findLongestPrefixLen nodes value).2 = 0
      · simp [hlen]
      · have hdrop : byteLen (dropB value (findLongestPrefixLen nodes value).2) <
            byteLen value :=
          byteLen_dropB_lt value _ (value_ne_nil_of_flp hlen) (Nat.pos_of_ne_zero hlen)
        simp only [if_neg hlen]
        cases hget : nodes.get? (findLongestPrefixLen nodes value).1 with
        | none => rfl
        | some node =>
          simp only []
          rw [ih h node.childs (dropB value (findLongestPrefixLen nodes value).2)
            (by omega) (by omega),
            ih h [Node.mk node.childs node.terminal
              (dropB node.value (findLongestPrefixLen nodes value).2)]
              (dropB value (findLongestPrefixLen nodes value).2) (by omega) (by omega)]

theorem sum_filterMap_le {α β : Type} (l : List α) (f : α → Option β) (w : β → Nat)
    (wa : α → Nat) (h : ∀ a b, f a = some b → w b ≤ wa a) :
    ((l.filterMap f).map w).sum ≤ (l.map wa).sum := by
  induction l with
  | nil => simp
  | cons a t ih =>
    cases hf : f a with
    | none =>
      simp only [List.filterMap_cons, hf, List.map_cons, List.sum_cons]
      omega
    | some b =>
      have hb := h a b hf
      simp only [List.filterMap_cons, hf, List.map_cons, List.sum_cons]
      omega

theorem snSize_eq (n : SizedNode) : snSize n = 1 + snListSize n.childs := by
  cases n with
  | mk cs b v => rfl

theorem childsWeight_le (nodes : List SizedNode) :
    ((nodes.map fun n => 2 * snListSize n.childs + 1).sum) ≤ 2 * snListSize nodes := by
  induction nodes with
  | nil => simp [snListSize]
  | cons n t ih =>
    have hn := snSize_eq n
    simp only [List.map_cons, List.sum_cons, snListSize]
    omega

theorem tpEnq_weight_lt (offset : Nat) (nodes : List SizedNode) (value : Str) :
    ((tpEnq offset (childsMatched nodes value)).map fun e => 2 * snListSize e.1 + 1).sum <
      2 * snListSize nodes + 1 := by
  have h1 : (((tpEnq offset (childsMatched nodes value)).map
      fun e => 2 * snListSize e.1 + 1).sum) ≤
      ((childsMatched nodes value).map fun m => 2 * snListSize m.1.childs + 1).sum := by
    apply sum_filterMap_le
    intro a b hab
    split at hab
    · cases hab; rfl
    · cases hab
  have h2 : (((childsMatched nodes value).map fun m => 2 * snListSize m.1.childs + 1).sum) ≤
      ((nodes.map fun n => 2 * snListSize n.childs + 1).sum) := by
    unfold childsMatched
    apply sum_filterMap_le
    intro a b hab
    split at hab
    · cases hab; rfl
    · cases hab
  have h3 := childsWeight_le nodes
  omega

theorem tpWeight_step (nodes : List SizedNode) (value : Str) (offset : Nat)
    (rest : List (List SizedNode × Str × Nat)) :
    tpWeight (rest ++ tpEnq offset (childsMatched nodes value)) <
      tpWeight ((nodes, value, offset) :: rest) := by
  unfold tpWeight
  simp only [List.map_append, List.sum_append, List.map_cons, List.sum_cons]
  have h1 := tpEnq_weight_lt offset nodes value
  omega

theorem tpGoF_irrel (f1 : Nat) : ∀ (f2 : Nat) (queue : List (List SizedNode × Str × Nat)),
    tpWeight queue < f1 → tpWeight queue < f2 → tpGoF f1 queue = tpGoF f2 queue := by
  induction f1 with
  | zero => intro f2 queue h1 h2; omega
  | succ g ih =>
    intro f2 queue h1 h2
    cases f2 with
    | zero => omega
    | succ h =>
      cases queue with
      | nil => rfl
      | cons e rest =>
        obtain ⟨nodes, value, offset⟩ := e
        simp only [tpGoF]
        have hs := tpWeight_step nodes value offset rest
        rw [ih h (rest ++ tpEnq offset (childsMatched nodes value)) (by omega) (by omega)]

theorem tpGo_nil : tpGo [] = [] := rfl

theorem tpGo_cons (nodes : List SizedNode) (value : Str) (offset : Nat)
    (rest : List (List SizedNode × Str × Nat)) :
    tpGo ((nodes, value, offset) :: rest) =
      ((childsMatched nodes value).filterMap fun m =>
        if m.1.terminal then some (offset + byteLen m.1.value) else none)
        ++ tpGo (rest ++ tpEnq offset (childsMatched nodes value)) := by
  have hs := tpWeight_step nodes value offset rest
  unfold tpGo
  simp only [tpGoF]
  rw [tpGoF_irrel (tpWeight ((nodes, value, offset) :: rest))
    (tpWeight (rest ++ tpEnq offset (childsMatched nodes value)) + 1)
    (rest ++ tpEnq offset (childsMatched nodes value)) (by omega) (by omega)]

/-- C1: the claim that maximal_matching minimizes (total unknown bytes,
number of edges) lexicographically fails on the code.  With the dictionary
containing the words a and ab and the chunk abb, the code returns the
segmentation a, bb corresponding to the path 0-1-3 with 2 unknown bytes,
while the valid segmentation ab, b along the path 0-2-3 (known edge ab, then
the isolation span b) carries only 1 unknown byte. -/
theorem c1_unknown_bytes_not_minimal :
    maximalMatching (sealRoot (buildRoot [['a'], ['a', 'b']])) ['a', 'b', 'b'] =
      .ok [['a'], ['b', 'b']] ∧
    [['a'], ['b', 'b']] =
      [sliceB ['a', 'b', 'b'] 0 1, sliceB ['a', 'b', 'b'] 1 3] ∧
    pathValid (sealRoot (buildRoot [['a'], ['a', 'b']])) ['a', 'b', 'b'] 0 [1, 3] = true ∧
    pathUnknownBytes (sealRoot (buildRoot [['a'], ['a', 'b']])) ['a', 'b', 'b'] 0 [1, 3] = 2 ∧
    pathValid (sealRoot (buildRoot [['a'], ['a', 'b']])) ['a', 'b', 'b'] 0 [2, 3] = true ∧
    pathUnknownBytes (sealRoot (buildRoot [['a'], ['a', 'b']])) ['a', 'b', 'b'] 0 [2, 3] = 1 :=
  ⟨rfl, rfl, rfl, rfl, rfl, rfl⟩

/-- C4: the claim that no vertex state ever regresses fails on the code.
With dictionary abc, abcdefg, d, hi, jk and chunk abcdefghijk, vertex 7 is
Expanded with offsets [9] after three iterations of the search loop, and the
fourth iteration (expanding vertex 4, whose unknown isolation stops at
offset 7) overwrites it back to Cached. -/
theorem c4_expanded_overwritten_to_cached :
    (stepsN (sealRoot (buildRoot [['a','b','c'], ['a','b','c','d','e','f','g'],
        ['d'], ['h','i'], ['j','k']]))
      ['a','b','c','d','e','f','g','h','i','j','k'] 3
      (mmInit ['a','b','c','d','e','f','g','h','i','j','k'])).map
        (fun s => s.vertices.get? 7) = .ok (some (.Some [9])) ∧
    (stepsN (sealRoot (buildRoot [['a','b','c'], ['a','b','c','d','e','f','g'],
        ['d'], ['h','i'], ['j','k']]))
      ['a','b','c','d','e','f','g','h','i','j','k'] 4
      (mmInit ['a','b','c','d','e','f','g','h','i','j','k'])).map
        (fun s => s.vertices.get? 7) = .ok (some (.Cache [9])) :=
  ⟨rfl, rfl⟩

theorem isBoundary_zero (s : Str) : isBoundary s 0 = true := by
  cases s <;> rfl

theorem dropB_zero (s : Str) : dropB s 0 = s := by
  cases s <;> rfl

theorem takeB_zero (s : Str) : takeB s 0 = [] := by
  cases s <;> rfl

theorem isBoundary_cons_pos {k : Nat} (c : Char) (t : Str) (hk : 0 < k) :
    isBoundary (c :: t) k =
      if k < charLen c then false else isBoundary t (k - charLen c) := by
  cases k with
  | zero => omega
  | succ m => rfl

theorem dropB_cons_pos {k : Nat} (c : Char) (t : Str) (hk : 0 < k) :
    dropB (c :: t) k = dropB t (k - charLen c) := by
  cases k with
  | zero => omega
  | succ m => rfl

theorem takeB_cons_pos {k : Nat} (c : Char) (t : Str) (hk : 0 < k) :
    takeB (c :: t) k =
      if k < charLen c then [] else c :: takeB t (k - charLen c) := by
  cases k with
  | zero => omega
  | succ m => rfl

theorem isBoundary_byteLen (s : Str) : isBoundary s (byteLen s) = true := by
  induction s with
  | nil => rfl
  | cons c t ih =>
    have hc := charLen_pos c
    have hpos : 0 < byteLen (c :: t) := byteLen_pos (by simp)
    rw [isBoundary_cons_pos c t hpos]
    have h1 : ¬ byteLen (c :: t) < charLen c := by
      simp only [byteLen]
      omega
    rw [if_neg h1]
    have h2 : byteLen (c :: t) - charLen c = byteLen t := by
      simp only [byteLen]
      omega
    rw [h2]
    exact ih

theorem isBoundary_le {s : Str} {k : Nat} (h : isBoundary s k = true) :
    k ≤ byteLen s := by
  induction s generalizing k with
  | nil =>
    cases k with
    | zero => exact Nat.le_refl 0
    | succ m => simp [isBoundary] at h
  | cons c t ih =>
    cases k with
    | zero => exact Nat.zero_le _
    | succ m =>
      rw [isBoundary_cons_pos c t (Nat.succ_pos m)] at h
      by_cases hlt : m + 1 < charLen c
      · rw [if_pos hlt] at h
        cases h
      · rw [if_neg hlt] at h
        have := ih h
        simp only [byteLen]
        omega

theorem byteLen_dropB_boundary {s : Str} {k : Nat} (h : isBoundary s k = true) :
    byteLen (dropB s k) = byteLen s - k := by
  induction s generalizing k with
  | nil =>
    cases k with
    | zero => rfl
    | succ m => simp [isBoundary] at h
  | cons c t ih =>
    cases k with
    | zero => simp [dropB]
    | succ m =>
      rw [isBoundary_cons_pos c t (Nat.succ_pos m)] at h
      by_cases hlt : m + 1 < charLen c
      · rw [if_pos hlt] at h
        cases h
      · rw [if_neg hlt] at h
        rw [dropB_cons_pos c t (Nat.succ_pos m)]
        rw [ih h]
        simp only [byteLen]
        omega

theorem boundary_step {s : Str} {k : Nat} {c : Char} {rest : Str}
    (h : isBoundary s k = true) (hd : dropB s k = c :: rest) :
    isBoundary s (k + charLen c) = true ∧ dropB s (k + charLen c) = rest := by
  induction s generalizing k with
  | nil =>
    cases k with
    | zero => simp [dropB] at hd
    | succ m => simp [isBoundary] at h
  | cons c0 t ih =>
    cases k with
    | zero =>
      simp only [dropB] at hd
      cases hd
      have hc := charLen_pos c
      constructor
      · rw [Nat.zero_add, isBoundary_cons_pos c rest hc, if_neg (Nat.lt_irrefl _),
          Nat.sub_self]
        exact isBoundary_zero rest
      · rw [Nat.zero_add, dropB_cons_pos c rest hc, Nat.sub_self]
        exact dropB_zero rest
    | succ m =>
      rw [isBoundary_cons_pos c0 t (Nat.succ_pos m)] at h
      by_cases hlt : m + 1 < charLen c0
      · rw [if_pos hlt] at h
        cases h
      · rw [if_neg hlt] at h
        rw [dropB_cons_pos c0 t (Nat.succ_pos m)] at hd
        obtain ⟨ih1, ih2⟩ := ih h hd
        have hc := charLen_pos c
        have harith : m + 1 + charLen c - charLen c0 = m + 1 - charLen c0 + charLen c := by
          omega
        constructor
        · rw [isBoundary_cons_pos c0 t (by omega), if_neg (by omega), harith]
          exact ih1
        · rw [dropB_cons_pos c0 t (by omega), harith]
          exact ih2

theorem no_boundary_between {s : Str} {k : Nat} {c : Char} {rest : Str}
    (h : isBoundary s k = true) (hd : dropB s k = c :: rest) :
    ∀ w, k < w → w < k + charLen c → isBoundary s w = false := by
  induction s generalizing k with
  | nil =>
    cases k with
    | zero => simp [dropB] at hd
    | succ m => simp [isBoundary] at h
  | cons c0 t ih =>
    cases k with
    | zero =>
      simp only [dropB] at hd
      cases hd
      intro w hw1 hw2
      rw [isBoundary_cons_pos c rest hw1, if_pos (by omega)]
    | succ m =>
      rw [isBoundary_cons_pos c0 t (Nat.succ_pos m)] at h
      by_cases hlt : m + 1 < charLen c0
      · rw [if_pos hlt] at h
        cases h
      · rw [if_neg hlt] at h
        rw [dropB_cons_pos c0 t (Nat.succ_pos m)] at hd
        intro w hw1 hw2
        have hc0 : 0 < charLen c0 := charLen_pos c0
        rw [isBoundary_cons_pos c0 t (by omega), if_neg (by omega)]
        have := ih h hd (w - charLen c0) (by omega) (by omega)
        exact this

theorem terminalsPrefixAt_of_boundary {dict : List SizedNode} {s : Str} {k : Nat}
    (h : isBoundary s k = true) :
    terminalsPrefixAt dict s k = some (tpGo [(dict, dropB s k, k)]) := by
  unfold terminalsPrefixAt suffixChk
  rw [h]
  rfl

theorem dropB_ne_nil_of_lt {s : Str} {k : Nat} (h : isBoundary s k = true)
    (hk : k < byteLen s) : dropB s k ≠ [] := by
  intro hnil
  have := byteLen_dropB_boundary h
  rw [hnil] at this
  simp [byteLen] at this
  omega

theorem step_queue_err (dict : List SizedNode) (text : Str) (s : MMState)
    (hq : s.queue.get? s.i = none) : step dict text s = .error .queueIdx := by
  unfold step
  rw [hq]

theorem step_vertex_err (dict : List SizedNode) (text : Str) (s : MMState) (q : QE)
    (hq : s.queue.get? s.i = some q) (hv : s.vertices.get? q.off = none) :
    step dict text s = .error .vertexIdx := by
  unfold step
  rw [hq]
  dsimp only
  rw [hv]

theorem step_none_known (dict : List SizedNode) (text : Str) (s : MMState) (q : QE)
    (branches : List Nat) (hq : s.queue.get? s.i = some q)
    (hv : s.vertices.get? q.off = some VertexState.None)
    (htp : terminalsPrefixAt dict text q.off = some branches)
    (hbr : branches ≠ []) :
    step dict text s = .ok (.goOn
      ⟨s.vertices.set q.off (.Some (takeUntilGe (byteLen text) branches).1),
       s.queue ++ (takeUntilGe (byteLen text) branches).1.map fun v => ⟨s.i, v, q.unk⟩,
       s.i + 1,
       !(takeUntilGe (byteLen text) branches).2⟩) := by
  unfold step
  rw [hq]
  dsimp only
  rw [hv]
  dsimp only
  rw [htp]
  dsimp only
  rw [if_pos (by cases branches with
    | nil => exact absurd rfl hbr
    | cons x xs => simp)]

theorem step_none_unknown (dict : List SizedNode) (text : Str) (s : MMState) (q : QE)
    (p : Nat) (rs : List Nat) (hq : s.queue.get? s.i = some q)
    (hv : s.vertices.get? q.off = some VertexState.None)
    (htp : terminalsPrefixAt dict text q.off = some [])
    (hcu : consumeUnknownChk dict text q.off = some (p, rs)) :
    step dict text s =
      if p ≥ byteLen text then
        .ok (.stopped ⟨s.vertices.set q.off (.Some [p]),
          s.queue ++ [⟨s.i, p, q.unk + (p - q.off)⟩], s.i, s.notEnded⟩)
      else
        .ok (.goOn ⟨(s.vertices.set q.off (.Some [p])).set p (.Cache rs),
          s.queue ++ [⟨s.i, p, q.unk + (p - q.off)⟩], s.i + 1, s.notEnded⟩) := by
  unfold step
  rw [hq]
  dsimp only
  rw [hv]
  dsimp only
  rw [htp]
  dsimp only
  rw [if_neg (by simp), hcu]

theorem step_cache (dict : List SizedNode) (text : Str) (s : MMState) (q : QE)
    (cs : List Nat) (hq : s.queue.get? s.i = some q)
    (hv : s.vertices.get? q.off = some (VertexState.Cache cs)) :
    step dict text s = .ok (.goOn
      ⟨s.vertices.set q.off (.Some cs),
       s.queue ++ (takeUntilGe (byteLen text) cs).1.map fun v => ⟨s.i, v, q.unk⟩,
       s.i + 1,
       !(takeUntilGe (byteLen text) cs).2⟩) := by
  unfold step
  rw [hq]
  dsimp only
  rw [hv]

theorem step_expanded (dict : List SizedNode) (text : Str) (s : MMState) (q : QE)
    (vs : List Nat) (hq : s.queue.get? s.i = some q)
    (hv : s.vertices.get? q.off = some (VertexState.Some vs)) :
    step dict text s = .ok (.goOn { s with i := s.i + 1 }) := by
  unfold step
  rw [hq]
  dsimp only
  rw [hv]

theorem cuGo_spec (dict : List SizedNode) (text : Str) :
    ∀ (suffix : Str) (consumed : Nat),
    isBoundary text consumed = true →
    dropB text consumed = suffix →
    ∃ p rs, cuGo dict text suffix consumed = some (p, rs) ∧
      consumed ≤ p ∧ isBoundary text p = true ∧
      (suffix ≠ [] → consumed < p) ∧
      (rs ≠ [] → terminalsPrefixAt dict text p = some rs) ∧
      (rs = [] → p = byteLen text) ∧
      (∀ w, consumed < w → w < p → isBoundary text w = true →
        terminalsPrefixAt dict text w = some []) := by
  intro suffix
  induction suffix with
  | nil =>
    intro consumed hb hd
    refine ⟨consumed, [], rfl, Nat.le_refl _, hb, ?_, ?_, ?_, ?_⟩
    · intro hne
      exact absurd rfl hne
    · intro hne
      exact absurd rfl hne
    · intro _
      have h1 := byteLen_dropB_boundary hb
      rw [hd] at h1
      have h2 := isBoundary_le hb
      simp only [byteLen] at h1
      omega
    · intro w hw1 hw2
      omega
  | cons c rest ih =>
    intro consumed hb hd
    obtain ⟨hb2, hd2⟩ := boundary_step hb hd
    have hc := charLen_pos c
    simp only [cuGo]
    rw [terminalsPrefixAt_of_boundary hb2]
    dsimp only
    by_cases hrs : 0 < (tpGo [(dict, dropB text (consumed + charLen c),
        consumed + charLen c)]).length
    · rw [if_pos hrs]
      refine ⟨consumed + charLen c,
        tpGo [(dict, dropB text (consumed + charLen c), consumed + charLen c)],
        rfl, by omega, hb2, fun _ => by omega, ?_, ?_, ?_⟩
      · intro _
        exact terminalsPrefixAt_of_boundary hb2
      · intro hnil
        rw [hnil] at hrs
        simp at hrs
      · intro w hw1 hw2 hwb
        have hfalse := no_boundary_between hb hd w hw1 hw2
        rw [hwb] at hfalse
        cases hfalse
    · rw [if_neg hrs]
      have hrsnil : tpGo [(dict, dropB text (consumed + charLen c),
          consumed + charLen c)] = [] := by
        cases htp : tpGo [(dict, dropB text (consumed + charLen c),
            consumed + charLen c)] with
        | nil => rfl
        | cons x xs =>
          rw [htp] at hrs
          simp at hrs
      obtain ⟨p, rs, hcu, hle, hbp, _hne, hrs1, hrs2, hmin⟩ :=
        ih (consumed + charLen c) hb2 hd2
      refine ⟨p, rs, hcu, by omega, hbp, fun _ => by omega, hrs1, hrs2, ?_⟩
      intro w hw1 hw2 hwb
      by_cases hwlt : w < consumed + charLen c
      · have hfalse := no_boundary_between hb hd w hw1 hwlt
        rw [hwb] at hfalse
        cases hfalse
      · by_cases hweq : w = consumed + charLen c
        · subst hweq
          rw [terminalsPrefixAt_of_boundary hb2, hrsnil]
        · exact hmin w (by omega) hw2 hwb

/-- C7: consume_unknown stops at the smallest character boundary p strictly
after the start offset u at which the prefix-terminal query is non-empty, or
at the end of the text when no such boundary exists, and the worklist record
the segmenter appends for the unknown edge carries exactly p - u unknown
bytes on top of the unknown count of the record being expanded. -/
theorem c7_consume_unknown_minimal (dict : List SizedNode) (text : Str) (u : Nat)
    (hb : isBoundary text u = true) (hu : u < byteLen text) :
    ∃ p rs, consumeUnknownChk dict text u = some (p, rs) ∧
      u < p ∧ p ≤ byteLen text ∧ isBoundary text p = true ∧
      (rs ≠ [] → terminalsPrefixAt dict text p = some rs) ∧
      (rs = [] → p = byteLen text) ∧
      (∀ w, u < w → w < p → isBoundary text w = true →
        terminalsPrefixAt dict text w = some []) ∧
      (∀ (s : MMState) (q : QE), s.queue.get? s.i = some q → q.off = u →
        s.vertices.get? u = some VertexState.None →
        terminalsPrefixAt dict text u = some [] →
        ∃ out, step dict text s = .ok out ∧
          out.state.queue = s.queue ++ [⟨s.i, p, q.unk + (p - u)⟩]) := by
  obtain ⟨p, rs, hcu, hle, hbp, hne, hrs1, hrs2, hmin⟩ :=
    cuGo_spec dict text (dropB text u) u hb rfl
  have hsufne : dropB text u ≠ [] := dropB_ne_nil_of_lt hb hu
  have hcu2 : consumeUnknownChk dict text u = some (p, rs) := by
    unfold consumeUnknownChk suffixChk
    rw [hb]
    exact hcu
  have hup : u < p := hne hsufne
  refine ⟨p, rs, hcu2, hup, isBoundary_le hbp, hbp, hrs1, hrs2, hmin, ?_⟩
  intro s q hq hoff hv htp
  subst hoff
  have hstep := step_none_unknown dict text s q p rs hq hv htp hcu2
  by_cases hpn : p ≥ byteLen text
  · rw [if_pos hpn] at hstep
    exact ⟨_, hstep, rfl⟩
  · rw [if_neg hpn] at hstep
    exact ⟨_, hstep, rfl⟩

/-- Witness for C7 at the dictionary containing a and ab, the chunk abb and
the start offset 1, where isolation stops at the end of the text. -/
theorem c7_consume_unknown_minimal_witness :
    isBoundary (['a', 'b', 'b'] : Str) 1 = true ∧ 1 < byteLen ['a', 'b', 'b'] ∧
    (∃ p rs, consumeUnknownChk (sealRoot (buildRoot [['a'], ['a', 'b']]))
        ['a', 'b', 'b'] 1 = some (p, rs) ∧
      1 < p ∧ p ≤ byteLen ['a', 'b', 'b'] ∧ isBoundary ['a', 'b', 'b'] p = true ∧
      (rs ≠ [] → terminalsPrefixAt (sealRoot (buildRoot [['a'], ['a', 'b']]))
        ['a', 'b', 'b'] p = some rs) ∧
      (rs = [] → p = byteLen ['a', 'b', 'b']) ∧
      (∀ w, 1 < w → w < p → isBoundary ['a', 'b', 'b'] w = true →
        terminalsPrefixAt (sealRoot (buildRoot [['a'], ['a', 'b']]))
          ['a', 'b', 'b'] w = some []) ∧
      (∀ (s : MMState) (q : QE), s.queue.get? s.i = some q → q.off = 1 →
        s.vertices.get? 1 = some VertexState.None →
        terminalsPrefixAt (sealRoot (buildRoot [['a'], ['a', 'b']]))
          ['a', 'b', 'b'] 1 = some [] →
        ∃ out, step (sealRoot (buildRoot [['a'], ['a', 'b']])) ['a', 'b', 'b'] s =
            .ok out ∧
          out.state.queue = s.queue ++ [⟨s.i, p, q.unk + (p - 1)⟩])) :=
  ⟨rfl, by decide,
    c7_consume_unknown_minimal (sealRoot (buildRoot [['a'], ['a', 'b']]))
      ['a', 'b', 'b'] 1 rfl (by decide)⟩

theorem splitWSGo_mem_ne_nil (s : Str) :
    ∀ (cur : Str) (ch : Str), ch ∈ splitWSGo s cur → ch ≠ [] := by
  induction s with
  | nil =>
    intro cur ch hch
    simp only [splitWSGo] at hch
    by_cases hcur : cur = []
    · rw [if_pos hcur] at hch
      cases hch
    · rw [if_neg hcur] at hch
      simp only [List.mem_singleton] at hch
      subst hch
      simp [hcur]
  | cons c t ih =>
    intro cur ch hch
    simp only [splitWSGo] at hch
    by_cases hws : isWS c
    · rw [if_pos hws] at hch
      by_cases hcur : cur = []
      · rw [if_pos hcur] at hch
        exact ih [] ch hch
      · rw [if_neg hcur] at hch
        rcases List.mem_cons.mp hch with h1 | h2
        · subst h1
          simp [hcur]
        · exact ih [] ch h2
    · rw [if_neg hws] at hch
      exact ih (c :: cur) ch hch

theorem splitWSGo_all_ws (s : Str) (hws : ∀ c ∈ s, isWS c = true) :
    splitWSGo s [] = [] := by
  induction s with
  | nil => rfl
  | cons c t ih =>
    simp only [splitWSGo, hws c (List.mem_cons_self c t), if_true, if_pos rfl]
    exact ih fun x hx => hws x (List.mem_cons_of_mem c hx)

/-- C10: on input containing no non-whitespace character (the empty string
included) tokenize returns the empty token sequence, and the whitespace
pre-pass only ever produces non-empty chunks, so the per-chunk segmenter is
never invoked on an empty chunk. -/
theorem c10_whitespace_tokenize_empty (dict : List SizedNode) (s : Str) :
    ((∀ c ∈ s, isWS c = true) → tokenize dict s = .ok []) ∧
    (∀ ch ∈ splitWS s, ch ≠ []) := by
  constructor
  · intro hws
    unfold tokenize splitWS
    rw [splitWSGo_all_ws s hws]
    rfl
  · intro ch hch
    exact splitWSGo_mem_ne_nil s [] ch hch

/-- Witness for C10 at the empty dictionary and a one-blank input. -/
theorem c10_whitespace_tokenize_empty_witness :
    (∀ c ∈ ([' '] : Str), isWS c = true) ∧ tokenize [] [' '] = .ok [] ∧
    (∀ ch ∈ splitWS ([' '] : Str), ch ≠ []) :=
  ⟨by decide, (c10_whitespace_tokenize_empty [] [' ']).1 (by decide),
    (c10_whitespace_tokenize_empty [] [' ']).2⟩

theorem dropB_append (p s : Str) : dropB (p ++ s) (byteLen p) = s := by
  induction p with
  | nil => simp [byteLen, dropB_zero]
  | cons c t ih =>
    have hc := charLen_pos c
    have hpos : 0 < byteLen (c :: t) := byteLen_pos (by simp)
    rw [List.cons_append, dropB_cons_pos c (t ++ s) hpos]
    have h2 : byteLen (c :: t) - charLen c = byteLen t := by
      simp only [byteLen]
      omega
    rw [h2]
    exact ih

theorem takeB_append (p s : Str) : takeB (p ++ s) (byteLen p) = p := by
  induction p with
  | nil => simp [byteLen, takeB_zero]
  | cons c t ih =>
    have hc := charLen_pos c
    have hpos : 0 < byteLen (c :: t) := byteLen_pos (by simp)
    rw [List.cons_append, takeB_cons_pos c (t ++ s) hpos]
    have h1 : ¬ byteLen (c :: t) < charLen c := by
      simp only [byteLen]
      have := byteLen_dropB_le t 0
      omega
    rw [if_neg h1]
    have h2 : byteLen (c :: t) - charLen c = byteLen t := by
      simp only [byteLen]
      omega
    rw [h2, ih]

theorem commonPreB_decomp (a b : Str) :
    ∃ p a2 b2, a = p ++ a2 ∧ b = p ++ b2 ∧ commonPreB a b = byteLen p ∧
      (∀ x y, a2.head? = some x → b2.head? = some y → x ≠ y) := by
  induction a generalizing b with
  | nil =>
    refine ⟨[], [], b, rfl, rfl, ?_, ?_⟩
    · rfl
    · intro x y hx
      simp at hx
  | cons ca ta ih =>
    cases b with
    | nil =>
      refine ⟨[], ca :: ta, [], rfl, rfl, rfl, ?_⟩
      intro x y _ hy
      simp at hy
    | cons cb tb =>
      by_cases hc : ca = cb
      · subst hc
        obtain ⟨p, a2, b2, ha, hb, hlen, hhd⟩ := ih tb
        refine ⟨ca :: p, a2, b2, by rw [List.cons_append, ha],
          by rw [List.cons_append, hb], ?_, hhd⟩
        simp [commonPreB, byteLen, hlen]
      · refine ⟨[], ca :: ta, cb :: tb, rfl, rfl, ?_, ?_⟩
        · simp [commonPreB, hc, byteLen]
        · intro x y hx hy
          simp only [List.head?] at hx hy
          cases hx
          cases hy
          exact hc

theorem commonPreB_pos_head {a b : Str} (h : 0 < commonPreB a b) :
    ∃ c ta tb, a = c :: ta ∧ b = c :: tb := by
  cases a with
  | nil => simp [commonPreB] at h
  | cons ca ta =>
    cases b with
    | nil => rw [commonPreB_nil_right] at h; omega
    | cons cb tb =>
      by_cases hc : ca = cb
      · exact ⟨ca, ta, tb, rfl, by rw [hc]⟩
      · simp [commonPreB, hc] at h

theorem commonPreB_zero_of_head_ne {ca cb : Char} {ta tb : Str} (h : ca ≠ cb) :
    commonPreB (ca :: ta) (cb :: tb) = 0 := by
  simp [commonPreB, h]

theorem WfNode.value_ne_nil {n : Node} (h : WfNode n) : n.value ≠ [] := by
  cases h with
  | intro cs t v hv hcs => exact hv

theorem WfNode.childs_wf {n : Node} (h : WfNode n) : WfForest n.childs := by
  cases h with
  | intro cs t v hv hcs => exact hcs

theorem WfForest.mem_wf {ns : List Node} (h : WfForest ns) :
    ∀ n ∈ ns, WfNode n := by
  induction ns with
  | nil => intro n hn; cases hn
  | cons m rest ih =>
    cases h with
    | cons _ _ hm hrest hlt =>
      intro n hn
      rcases List.mem_cons.mp hn with h1 | h2
      · subst h1; exact hm
      · exact ih hrest n h2

theorem WfForest.tail_wf {m : Node} {ns : List Node} (h : WfForest (m :: ns)) :
    WfForest ns := by
  cases h with
  | cons _ _ _ hrest _ => exact hrest

theorem WfForest.head_wf {m : Node} {ns : List Node} (h : WfForest (m :: ns)) :
    WfNode m := by
  cases h with
  | cons _ _ hm _ _ => exact hm

theorem WfForest.head_lt {m : Node} {ns : List Node} (h : WfForest (m :: ns)) :
    ∀ x ∈ ns, firstLt m x := by
  cases h with
  | cons _ _ _ _ hlt => exact hlt

theorem findLongestGo_ge (value : Str) :
    ∀ (ns : List Node) (i idx l : Nat), l ≤ (findLongestGo value ns i idx l).2 := by
  intro ns
  induction ns with
  | nil => intro i idx l; exact Nat.le_refl l
  | cons n rest ih =>
    intro i idx l
    simp only [findLongestGo]
    by_cases hm : commonPreB n.value value > l
    · rw [if_pos hm]
      exact Nat.le_trans (Nat.le_of_lt hm) (ih _ _ _)
    · rw [if_neg hm]
      by_cases hbr : (optCharGt n.value.head? value.head? && l == 0) = true
      · rw [if_pos hbr]
      · rw [if_neg hbr]
        exact ih _ _ _

theorem findLongestGo_zero_decomp (value : Str) :
    ∀ (ns : List Node) (i0 idx r : Nat),
    findLongestGo value ns i0 idx 0 = (r, 0) →
    ((r = idx ∧ ∀ n ∈ ns, commonPreB n.value value = 0 ∧
        optCharGt n.value.head? value.head? = false) ∨
     (∃ pre n0 post, ns = pre ++ n0 :: post ∧ r = i0 + pre.length ∧
       (∀ n ∈ pre, commonPreB n.value value = 0 ∧
         optCharGt n.value.head? value.head? = false) ∧
       optCharGt n0.value.head? value.head? = true)) := by
  intro ns
  induction ns with
  | nil =>
    intro i0 idx r h
    simp only [findLongestGo] at h
    cases h
    exact Or.inl ⟨rfl, fun n hn => absurd hn (List.not_mem_nil n)⟩
  | cons n rest ih =>
    intro i0 idx r h
    simp only [findLongestGo] at h
    by_cases hm : commonPreB n.value value > 0
    · rw [if_pos hm] at h
      have := findLongestGo_ge value rest (i0 + 1) i0 (commonPreB n.value value)
      rw [h] at this
      omega
    · rw [if_neg hm] at h
      have hm0 : commonPreB n.value value = 0 := by omega
      by_cases hbr : (optCharGt n.value.head? value.head? && (0 : Nat) == 0) = true
      · rw [if_pos hbr] at h
        have hri : r = i0 := by
          cases h
          rfl
        have hgt : optCharGt n.value.head? value.head? = true := by
          cases hg : optCharGt n.value.head? value.head?
          · rw [hg] at hbr
            simp at hbr
          · rfl
        right
        exact ⟨[], n, rest, rfl, by simp [hri],
          fun m hm2 => absurd hm2 (List.not_mem_nil m), hgt⟩
      · rw [if_neg hbr] at h
        have hgf : optCharGt n.value.head? value.head? = false := by
          cases hg : optCharGt n.value.head? value.head?
          · rfl
          · exfalso
            apply hbr
            rw [hg]
            simp
        rcases ih (i0 + 1) idx r h with ⟨hr, hallf⟩ | ⟨pre, n0, post, hns, hr, hpref, hgt⟩
        · left
          refine ⟨hr, ?_⟩
          intro m hm2
          rcases List.mem_cons.mp hm2 with h1 | h2
          · subst h1
            exact ⟨hm0, hgf⟩
          · exact hallf m h2
        · right
          refine ⟨n :: pre, n0, post, by rw [hns, List.cons_append], ?_, ?_, hgt⟩
          · simp only [List.length_cons]
            omega
          · intro m hm2
            rcases List.mem_cons.mp hm2 with h1 | h2
            · subst h1
              exact ⟨hm0, hgf⟩
            · exact hpref m h2

theorem findLongestGo_pos_node (value : Str) (nodes : List Node) :
    ∀ (ns : List Node) (i0 idx l r1 r2 : Nat),
    (∀ k, ns.get? k = nodes.get? (i0 + k)) →
    (l = 0 ∨ ∃ node, nodes.get? idx = some node ∧ commonPreB node.value value = l) →
    findLongestGo value ns i0 idx l = (r1, r2) →
    (r2 = 0 ∨ ∃ node, nodes.get? r1 = some node ∧ commonPreB node.value value = r2) := by
  intro ns
  induction ns with
  | nil =>
    intro i0 idx l r1 r2 _ hinv h
    simp only [findLongestGo] at h
    cases h
    exact hinv
  | cons n rest ih =>
    intro i0 idx l r1 r2 htrack hinv h
    simp only [findLongestGo] at h
    have htrack0 : nodes.get? i0 = some n := by
      have h0 := htrack 0
      simp only [List.get?_cons_zero, Nat.add_zero] at h0
      exact h0.symm
    have htrackr : ∀ k, rest.get? k = nodes.get? (i0 + 1 + k) := by
      intro k
      have := htrack (k + 1)
      simp only [List.get?_cons_succ] at this
      rw [this]
      congr 1
      omega
    by_cases hm : commonPreB n.value value > l
    · rw [if_pos hm] at h
      exact ih (i0 + 1) i0 (commonPreB n.value value) r1 r2 htrackr
        (Or.inr ⟨n, htrack0, rfl⟩) h
    · rw [if_neg hm] at h
      by_cases hbr : (optCharGt n.value.head? value.head? && l == 0) = true
      · rw [if_pos hbr] at h
        cases h
        left
        have hl0 : (l == 0) = true := by
          cases hl : (l == 0)
          · rw [hl] at hbr
            simp at hbr
          · rfl
        simp at hl0
        exact hl0
      · rw [if_neg hbr] at h
        exact ih (i0 + 1) idx l r1 r2 htrackr hinv h

theorem flp_pos_node {nodes : List Node} {value : Str} {i len : Nat}
    (hflp : findLongestPrefixLen nodes value = (i, len)) (hlen : len ≠ 0) :
    ∃ node, nodes.get? i = some node ∧ commonPreB node.value value = len := by
  have := findLongestGo_pos_node value nodes nodes 0 nodes.length 0 i len
    (fun k => by simp) (Or.inl rfl) hflp
  rcases this with h | h
  · exact absurd h hlen
  · exact h

theorem char_lt_of_not_gt {x y : Char} (hne : x ≠ y) (h : ¬ y < x) : x < y := by
  rcases lt_trichotomy x y with h1 | h1 | h1
  · exact h1
  · exact absurd h1 hne
  · exact absurd h1 h

theorem WfForest_set {ns : List Node} :
    ∀ (i : Nat) {node new : Node}, WfForest ns → ns.get? i = some node →
    WfNode new → new.value.head? = node.value.head? → WfForest (ns.set i new) := by
  induction ns with
  | nil =>
    intro i node new _ hget
    simp at hget
  | cons n rest ih =>
    intro i node new hwf hget hnew hhd
    cases i with
    | zero =>
      simp only [List.get?_cons_zero] at hget
      cases hget
      simp only [List.set_cons_zero]
      refine WfForest.cons new rest hnew hwf.tail_wf ?_
      intro m hm
      have := hwf.head_lt m hm
      unfold firstLt at this ⊢
      rw [hhd]
      exact this
    | succ j =>
      simp only [List.get?_cons_succ] at hget
      simp only [List.set_cons_succ]
      refine WfForest.cons n (rest.set j new) hwf.head_wf
        (ih j hwf.tail_wf hget hnew hhd) ?_
      intro m hm
      rcases List.mem_or_eq_of_mem_set hm with h1 | h1
      · exact hwf.head_lt m h1
      · subst h1
        have hmem : node ∈ rest := by
          have := List.get?_mem hget
          exact this
        have := hwf.head_lt node hmem
        unfold firstLt at this ⊢
        rw [hhd]
        exact this

theorem WfForest_insertIdx {new : Node} (hnew : WfNode new) :
    ∀ (ns : List Node) (i : Nat), WfForest ns → i ≤ ns.length →
    (∀ j m, j < i → ns.get? j = some m → firstLt m new) →
    (∀ j m, i ≤ j → ns.get? j = some m → firstLt new m) →
    WfForest (ns.insertIdx i new) := by
  intro ns
  induction ns with
  | nil =>
    intro i hwf hi _ _
    have hi0 : i = 0 := Nat.le_zero.mp (by simpa using hi)
    subst hi0
    exact WfForest.cons new [] hnew WfForest.nil (fun m hm => absurd hm (List.not_mem_nil m))
  | cons n rest ih =>
    intro i hwf hi hpre hpost
    cases i with
    | zero =>
      simp only [List.insertIdx_zero]
      refine WfForest.cons new (n :: rest) hnew hwf ?_
      intro m hm
      obtain ⟨j, hj⟩ := List.get?_of_mem hm
      exact hpost j m (Nat.zero_le j) hj
    | succ k =>
      simp only [List.insertIdx_succ_cons]
      refine WfForest.cons n (rest.insertIdx k new) hwf.head_wf
        (ih k hwf.tail_wf (by simp at hi; omega) ?_ ?_) ?_
      · intro j m hj hg
        exact hpre (j + 1) m (by omega) (by simpa using hg)
      · intro j m hj hg
        exact hpost (j + 1) m (by omega) (by simpa using hg)
      · intro m hm
        rcases (List.mem_insertIdx (by simp at hi; omega)).mp hm with h1 | h1
        · subst h1
          exact hpre 0 n (Nat.succ_pos k) rfl
        · exact hwf.head_lt m h1

theorem WfForest_append_lt {pre : List Node} {n0 : Node} {post : List Node}
    (h : WfForest (pre ++ n0 :: post)) : ∀ m ∈ post, firstLt n0 m := by
  induction pre with
  | nil => exact h.head_lt
  | cons x xs ih => exact ih h.tail_wf

theorem commonPreB_head_ne {mc vc : Char} {mt vt : Str}
    (h0 : commonPreB (mc :: mt) (vc :: vt) = 0) : mc ≠ vc := by
  intro heq
  subst heq
  have heval : commonPreB (mc :: mt) (mc :: vt) = charLen mc + commonPreB mt vt := by
    simp [commonPreB]
  rw [heval] at h0
  have := charLen_pos mc
  omega

theorem flp_zero_facts {nodes : List Node} {value : Str} {i : Nat}
    (hval : value ≠ []) (hwf : WfForest nodes)
    (hflp : findLongestPrefixLen nodes value = (i, 0)) :
    i ≤ nodes.length ∧
    (∀ j m, j < i → nodes.get? j = some m → firstLt m (Node.mk [] true value)) ∧
    (∀ j m, i ≤ j → nodes.get? j = some m → firstLt (Node.mk [] true value) m) := by
  cases value with
  | nil => exact absurd rfl hval
  | cons vc vt =>
    have hdec := findLongestGo_zero_decomp (vc :: vt) nodes 0 nodes.length i hflp
    have hfact : ∀ m ∈ nodes, commonPreB m.value (vc :: vt) = 0 →
        optCharGt m.value.head? (List.head? (vc :: vt)) = false →
        firstLt m (Node.mk [] true (vc :: vt)) := by
      intro m hmem h0 hgf
      have hm := hwf.mem_wf m hmem
      cases hmv : m.value with
      | nil => exact absurd hmv hm.value_ne_nil
      | cons mc mt =>
        rw [hmv] at h0
        have hne := commonPreB_head_ne h0
        rw [hmv] at hgf
        simp only [List.head?, optCharGt] at hgf
        have hnlt : ¬ vc < mc := by
          intro hlt
          rw [decide_eq_true hlt] at hgf
          cases hgf
        have hlt := char_lt_of_not_gt hne hnlt
        unfold firstLt
        rw [hmv]
        show optCharGt (some vc) (some mc) = true
        simp only [optCharGt]
        exact decide_eq_true hlt
    rcases hdec with ⟨hr, hall⟩ | ⟨pre, n0, post, hns, hr, hpref, hgt⟩
    · subst hr
      refine ⟨Nat.le_refl _, ?_, ?_⟩
      · intro j m hj hg
        have hmem := List.get?_mem hg
        obtain ⟨h0, hgf⟩ := hall m hmem
        exact hfact m hmem h0 hgf
      · intro j m hj hg
        rw [List.get?_eq_none.mpr hj] at hg
        cases hg
    · subst hns
      have hrlen : i = pre.length := by
        rw [hr]
        omega
      subst hrlen
      refine ⟨by simp, ?_, ?_⟩
      · intro j m hj hg
        rw [List.get?_append hj] at hg
        have hmem := List.get?_mem hg
        obtain ⟨h0, hgf⟩ := hpref m hmem
        exact hfact m (by simp [List.mem_append, hmem]) h0 hgf
      · intro j m hj hg
        have hprobe : (Node.mk [] true (vc :: vt)).value.head? = some vc := rfl
        by_cases hje : j = pre.length
        · subst hje
          rw [List.get?_append_right (Nat.le_refl _)] at hg
          simp only [Nat.sub_self, List.get?_cons_zero] at hg
          cases hg
          unfold firstLt
          rw [hprobe]
          exact hgt
        · have hjgt : pre.length < j := by omega
          rw [List.get?_append_right (Nat.le_of_lt hjgt)] at hg
          have hpos : 0 < j - pre.length := by omega
          cases hsub : j - pre.length with
          | zero => omega
          | succ k =>
            rw [hsub, List.get?_cons_succ] at hg
            have hmem := List.get?_mem hg
            have hlt1 := WfForest_append_lt hwf m hmem
            have hmn := hwf.mem_wf m (by simp [List.mem_append, List.mem_cons, hmem])
            have hn0 := hwf.mem_wf n0 (by simp)
            cases hmv : m.value with
            | nil => exact absurd hmv hmn.value_ne_nil
            | cons mc mt =>
              cases hnv : n0.value with
              | nil => exact absurd hnv hn0.value_ne_nil
              | cons nc nt =>
                unfold firstLt at hlt1 ⊢
                rw [hmv, hnv] at hlt1
                rw [hprobe, hmv]
                rw [hnv] at hgt
                simp only [List.head?, optCharGt] at hlt1 hgt ⊢
                have h1 : nc < mc := of_decide_eq_true hlt1
                have h2 : vc < nc := of_decide_eq_true hgt
                exact decide_eq_true (lt_trans h2 h1)

theorem commonPreB_le_right (a b : Str) : commonPreB a b ≤ byteLen b := by
  obtain ⟨p, a2, b2, _ha, hb, hlen, _⟩ := commonPreB_decomp a b
  rw [hlen, hb, byteLen_append]
  omega

theorem commonPreB_le_left (a b : Str) : commonPreB a b ≤ byteLen a := by
  obtain ⟨p, a2, b2, ha, _hb, hlen, _⟩ := commonPreB_decomp a b
  rw [hlen, ha, byteLen_append]
  omega

theorem addNode_eq (nodes : List Node) (value : Str) :
    addNode nodes value =
    if (findLongestPrefixLen nodes value).2 = 0 then
      nodes.insertIdx (findLongestPrefixLen nodes value).1 (Node.mk [] true value)
    else
      match nodes.get? (findLongestPrefixLen nodes value).1 with
      | none => nodes
      | some node =>
        if (findLongestPrefixLen nodes value).2 = byteLen node.value then
          if (findLongestPrefixLen nodes value).2 = byteLen value then
            nodes.set (findLongestPrefixLen nodes value).1
              (Node.mk node.childs true node.value)
          else
            nodes.set (findLongestPrefixLen nodes value).1
              (Node.mk
                (addNode node.childs (dropB value (findLongestPrefixLen nodes value).2))
                node.terminal node.value)
        else
          if (findLongestPrefixLen nodes value).2 ≥ byteLen value then
            nodes.set (findLongestPrefixLen nodes value).1
              (Node.mk [Node.mk node.childs node.terminal
                  (dropB node.value (findLongestPrefixLen nodes value).2)]
                true (takeB node.value (findLongestPrefixLen nodes value).2))
          else
            nodes.set (findLongestPrefixLen nodes value).1
              (Node.mk (addNode
                  [Node.mk node.childs node.terminal
                    (dropB node.value (findLongestPrefixLen nodes value).2)]
                  (dropB value (findLongestPrefixLen nodes value).2))
                false (takeB node.value (findLongestPrefixLen nodes value).2)) := by
  conv =>
    lhs
    unfold addNode
  simp only [addNodeF]
  by_cases hlen : (findLongestPrefixLen nodes value).2 = 0
  · rw [if_pos hlen, if_pos hlen]
  · rw [if_neg hlen, if_neg hlen]
    have hdrop : byteLen (dropB value (findLongestPrefixLen nodes value).2) <
        byteLen value :=
      byteLen_dropB_lt value _ (value_ne_nil_of_flp hlen) (Nat.pos_of_ne_zero hlen)
    cases hget : nodes.get? (findLongestPrefixLen nodes value).1 with
    | none => rfl
    | some node =>
      dsimp only
      have hrec : addNodeF (byteLen value) node.childs
          (dropB value (findLongestPrefixLen nodes value).2) =
          addNode node.childs (dropB value (findLongestPrefixLen nodes value).2) := by
        unfold addNode
        exact addNodeF_irrel _ _ _ _ (by omega) (by omega)
      have hrec2 : addNodeF (byteLen value)
          [Node.mk node.childs node.terminal
            (dropB node.value (findLongestPrefixLen nodes value).2)]
          (dropB value (findLongestPrefixLen nodes value).2) =
          addNode
            [Node.mk node.childs node.terminal
              (dropB node.value (findLongestPrefixLen nodes value).2)]
            (dropB value (findLongestPrefixLen nodes value).2) := by
        unfold addNode
        exact addNodeF_irrel _ _ _ _ (by omega) (by omega)
      rw [hrec, hrec2]

theorem head?_append_of_ne_nil {p : Str} (x : Str) (hp : p ≠ []) :
    (p ++ x).head? = p.head? := by
  cases p with
  | nil => exact absurd rfl hp
  | cons a t => rfl

theorem addNode_wf : ∀ (b : Nat) (nodes : List Node) (value : Str),
    byteLen value ≤ b → value ≠ [] → WfForest nodes → WfForest (addNode nodes value) := by
  intro b
  induction b with
  | zero =>
    intro nodes value hb hval _
    have := byteLen_pos hval
    omega
  | succ b ih =>
    intro nodes value hb hval hwf
    rw [addNode_eq]
    by_cases hlen : (findLongestPrefixLen nodes value).2 = 0
    · rw [if_pos hlen]
      have hflp0 : findLongestPrefixLen nodes value =
          ((findLongestPrefixLen nodes value).1, 0) := by
        rw [← hlen]
      obtain ⟨hile, hA, hB⟩ := flp_zero_facts hval hwf hflp0
      exact WfForest_insertIdx
        (WfNode.intro [] true value hval WfForest.nil) nodes _ hwf hile hA hB
    · rw [if_neg hlen]
      obtain ⟨node, hget, hcp⟩ := @flp_pos_node nodes value
        (findLongestPrefixLen nodes value).1
        (findLongestPrefixLen nodes value).2 rfl hlen
      rw [hget]
      dsimp only
      have hnwf := hwf.mem_wf node (List.get?_mem hget)
      have hcwf := hnwf.childs_wf
      obtain ⟨p, nrem, vrem, hnv, hvv, hplen, hhd⟩ := commonPreB_decomp node.value value
      have hlenp : (findLongestPrefixLen nodes value).2 = byteLen p := by
        rw [← hcp, hplen]
      have hppos : 0 < byteLen p := by
        rw [← hlenp]
        exact Nat.pos_of_ne_zero hlen
      have hpne : p ≠ [] := by
        intro hnil
        rw [hnil] at hppos
        simp [byteLen] at hppos
      have hdv : dropB value (findLongestPrefixLen nodes value).2 = vrem := by
        rw [hlenp, hvv]
        exact dropB_append p vrem
      have hdn : dropB node.value (findLongestPrefixLen nodes value).2 = nrem := by
        rw [hlenp, hnv]
        exact dropB_append p nrem
      have htn : takeB node.value (findLongestPrefixLen nodes value).2 = p := by
        rw [hlenp, hnv]
        exact takeB_append p nrem
      have hbn : byteLen node.value = byteLen p + byteLen nrem := by
        rw [hnv, byteLen_append]
      have hbv : byteLen value = byteLen p + byteLen vrem := by
        rw [hvv, byteLen_append]
      have hheadn : node.value.head? = p.head? := by
        rw [hnv]
        exact head?_append_of_ne_nil nrem hpne
      by_cases heq1 : (findLongestPrefixLen nodes value).2 = byteLen node.value
      · rw [if_pos heq1]
        have hnrem : nrem = [] := byteLen_eq_zero (by omega)
        by_cases heq2 : (findLongestPrefixLen nodes value).2 = byteLen value
        · rw [if_pos heq2]
          exact WfForest_set _ hwf hget
            (WfNode.intro node.childs true node.value hnwf.value_ne_nil hcwf) rfl
        · rw [if_neg heq2]
          have hvrem : vrem ≠ [] := by
            intro hnil
            rw [hnil] at hbv
            simp only [byteLen] at hbv
            omega
          have hvlt : byteLen vrem ≤ b := by omega
          rw [hdv]
          exact WfForest_set _ hwf hget
            (WfNode.intro _ node.terminal node.value hnwf.value_ne_nil
              (ih node.childs vrem hvlt hvrem hcwf)) rfl
      · rw [if_neg heq1]
        have hnrem : nrem ≠ [] := by
          intro hnil
          rw [hnil] at hbn
          simp only [byteLen] at hbn
          have := commonPreB_le_left node.value value
          omega
        have hchildwf : WfNode (Node.mk node.childs node.terminal nrem) :=
          WfNode.intro node.childs node.terminal nrem hnrem hcwf
        have hheadnew : p.head? = node.value.head? := hheadn.symm
        by_cases heq2 : (findLongestPrefixLen nodes value).2 ≥ byteLen value
        · rw [if_pos heq2]
          rw [hdn, htn]
          refine WfForest_set _ hwf hget ?_ hheadnew
          exact WfNode.intro [Node.mk node.childs node.terminal nrem] true p hpne
            (WfForest.cons _ [] hchildwf WfForest.nil
              (fun m hm => absurd hm (List.not_mem_nil m)))
        · rw [if_neg heq2]
          rw [hdn, hdv, htn]
          have hvrem : vrem ≠ [] := by
            intro hnil
            rw [hnil] at hbv
            simp only [byteLen] at hbv
            omega
          have hvlt : byteLen vrem ≤ b := by omega
          refine WfForest_set _ hwf hget ?_ hheadnew
          refine WfNode.intro _ false p hpne ?_
          exact ih [Node.mk node.childs node.terminal nrem] vrem hvlt hvrem
            (WfForest.cons _ [] hchildwf WfForest.nil
              (fun m hm => absurd hm (List.not_mem_nil m)))

/-- Well-formedness of every trie built by inserting non-empty words. -/
theorem buildRoot_wf (words : List Str) (h : ∀ w ∈ words, w ≠ []) :
    WfForest (buildRoot words) := by
  suffices hgen : ∀ (ws : List Str) (acc : List Node), (∀ w ∈ ws, w ≠ []) →
      WfForest acc → WfForest (ws.foldl addNode acc) by
    exact hgen words [] h WfForest.nil
  intro ws
  induction ws with
  | nil => intro acc _ hacc; exact hacc
  | cons w rest ih =>
    intro acc hws hacc
    simp only [List.foldl_cons]
    exact ih (addNode acc w)
      (fun x hx => hws x (List.mem_cons_of_mem w hx))
      (addNode_wf (byteLen w) acc w (Nat.le_refl _)
        (hws w (List.mem_cons_self w rest)) hacc)

/-- C5: the byte-level form of the sortedness claim is false.  Inserting the
words e-acute (U+00E9) then e-grave (U+00E8) leaves two root siblings whose
labels both start with UTF-8 first byte 0xC3, so the children are neither
pairwise distinct nor strictly ascending in their first byte. -/
theorem c5_first_byte_counterexample :
    (buildRoot [[Char.ofNat 0xE9], [Char.ofNat 0xE8]]).map
        (fun n => n.value.head?.map utf8FirstByte) = [some 0xC3, some 0xC3] ∧
    ¬ List.Pairwise (fun a b => a ≠ b)
        ((buildRoot [[Char.ofNat 0xE9], [Char.ofNat 0xE8]]).map
          (fun n => n.value.head?.map utf8FirstByte)) ∧
    ¬ List.Chain' (fun a b => ∃ x y, a = some x ∧ b = some y ∧ x < y)
        ((buildRoot [[Char.ofNat 0xE9], [Char.ofNat 0xE8]]).map
          (fun n => n.value.head?.map utf8FirstByte)) := by
  refine ⟨rfl, ?_, ?_⟩
  · intro h
    have h01 := List.rel_of_pairwise_cons h (List.mem_singleton.mpr rfl)
    exact h01 rfl
  · intro h
    have h01 := List.chain'_cons.mp h
    obtain ⟨x, y, hx, hy, hlt⟩ := h01.1
    cases hx
    cases hy
    exact absurd hlt (lt_irrefl _)

/-- C5 (amended): after any finite sequence of insertions of non-empty words
the trie is well-formed: at every level the sibling labels are non-empty and
strictly increasing in their first character, hence pairwise distinct in
their first character.  The first bytes are then non-decreasing but, as the
counterexample shows, not always strictly increasing. -/
theorem c5_siblings_sorted_by_first_char (words : List Str)
    (h : ∀ w ∈ words, w ≠ []) : WfForest (buildRoot words) :=
  buildRoot_wf words h

/-- Witness for the amended C5 at a two-word dictionary. -/
theorem c5_siblings_sorted_by_first_char_witness :
    (∀ w ∈ ([['b'], ['a', 'b']] : List Str), w ≠ []) ∧
    WfForest (buildRoot [['b'], ['a', 'b']]) :=
  ⟨by decide, c5_siblings_sorted_by_first_char [['b'], ['a', 'b']] (by decide)⟩

theorem WfSNode.sval_ne_nil {n : SizedNode} (h : WfSNode n) : n.value ≠ [] := by
  cases h with
  | intro cs t v hv hcs => exact hv

theorem WfSNode.schilds_wf {n : SizedNode} (h : WfSNode n) : WfSForest n.childs := by
  cases h with
  | intro cs t v hv hcs => exact hcs

theorem WfSForest.smem_wf {ns : List SizedNode} (h : WfSForest ns) :
    ∀ n ∈ ns, WfSNode n := by
  induction ns with
  | nil => intro n hn; cases hn
  | cons m rest ih =>
    cases h with
    | cons _ _ hm hrest hlt =>
      intro n hn
      rcases List.mem_cons.mp hn with h1 | h2
      · subst h1; exact hm
      · exact ih hrest n h2

theorem WfSForest.stail_wf {m : SizedNode} {ns : List SizedNode}
    (h : WfSForest (m :: ns)) : WfSForest ns := by
  cases h with
  | cons _ _ _ hrest _ => exact hrest

theorem WfSForest.shead_wf {m : SizedNode} {ns : List SizedNode}
    (h : WfSForest (m :: ns)) : WfSNode m := by
  cases h with
  | cons _ _ hm _ _ => exact hm

theorem WfSForest.shead_lt {m : SizedNode} {ns : List SizedNode}
    (h : WfSForest (m :: ns)) : ∀ x ∈ ns, firstLtS m x := by
  cases h with
  | cons _ _ _ _ hlt => exact hlt

theorem toSized_value (n : Node) : (toSized n).value = n.value := by
  cases n with
  | mk cs t v => rfl

theorem toSized_terminal (n : Node) : (toSized n).terminal = n.terminal := by
  cases n with
  | mk cs t v => rfl

theorem toSized_childs (n : Node) : (toSized n).childs = toSizedList n.childs := by
  cases n with
  | mk cs t v => rfl

theorem toSizedList_eq_map (ns : List Node) : toSizedList ns = ns.map toSized := by
  induction ns with
  | nil => rfl
  | cons n rest ih =>
    simp only [toSizedList, List.map_cons, ih]

mutual

theorem toSized_wf : ∀ {n : Node}, WfNode n → WfSNode (toSized n)
  | .mk cs t v, h => by
    cases h with
    | intro _ _ _ hv hcs =>
      exact WfSNode.intro (toSizedList cs) t v hv (toSizedList_wf hcs)

theorem toSizedList_wf : ∀ {ns : List Node}, WfForest ns → WfSForest (toSizedList ns)
  | [], _ => WfSForest.nil
  | n :: rest, h => by
    cases h with
    | cons _ _ hn hrest hlt =>
      refine WfSForest.cons (toSized n) (toSizedList rest) (toSized_wf hn)
        (toSizedList_wf hrest) ?_
      intro m hm
      rw [toSizedList_eq_map] at hm
      obtain ⟨m0, hm0, rfl⟩ := List.mem_map.mp hm
      have := hlt m0 hm0
      unfold firstLt at this
      unfold firstLtS
      rw [toSized_value, toSized_value]
      exact this

end

/-- Well-formedness of the sealed trie built from non-empty words. -/
theorem sealRoot_wf (words : List Str) (h : ∀ w ∈ words, w ≠ []) :
    WfSForest (sealRoot (buildRoot words)) := by
  have := toSizedList_wf (buildRoot_wf words h)
  rw [toSizedList_eq_map] at this
  exact this

theorem MContains.toSized {ns : List Node} {w : Str} (h : MContains ns w) :
    ContainsWord (ns.map Tok.toSized) w := by
  induction h with
  | here n ns hmem hterm =>
    rw [← toSized_value]
    exact ContainsWord.here (Tok.toSized n) _ (List.mem_map_of_mem Tok.toSized hmem)
      (by rw [toSized_terminal]; exact hterm)
  | there n ns rest hmem hne _hrec ih =>
    rw [← toSized_value]
    refine ContainsWord.there (Tok.toSized n) _ rest
      (List.mem_map_of_mem Tok.toSized hmem) hne ?_
    rw [toSized_childs, toSizedList_eq_map]
    exact ih

theorem mem_set_self {α : Type} {l : List α} {i : Nat} (a : α) (h : i < l.length) :
    a ∈ l.set i a := by
  induction l generalizing i with
  | nil => simp at h
  | cons x t ih =>
    cases i with
    | zero => simp
    | succ j =>
      simp only [List.set_cons_succ, List.mem_cons]
      right
      exact ih (by simpa using h)

theorem mem_set_of_ne {α : Type} {l : List α} {i : Nat} {n node : α} (x : α)
    (hmem : n ∈ l) (hget : l.get? i = some node) (hne : n ≠ node) :
    n ∈ l.set i x := by
  induction l generalizing i with
  | nil => cases hmem
  | cons y t ih =>
    cases i with
    | zero =>
      simp only [List.get?_cons_zero] at hget
      cases hget
      rcases List.mem_cons.mp hmem with h1 | h1
      · exact absurd h1 hne
      · simp [h1]
    | succ j =>
      simp only [List.get?_cons_succ] at hget
      rcases List.mem_cons.mp hmem with h1 | h1
      · simp [h1]
      · simp only [List.set_cons_succ, List.mem_cons]
        right
        exact ih h1 hget

theorem mem_insertIdx_of_mem {α : Type} {l : List α} {n : α} (i : Nat) (x : α)
    (hmem : n ∈ l) : n ∈ l.insertIdx i x := by
  induction l generalizing i with
  | nil => cases hmem
  | cons y t ih =>
    cases i with
    | zero =>
      simp only [List.insertIdx_zero]
      exact List.mem_cons_of_mem x hmem
    | succ j =>
      simp only [List.insertIdx_succ_cons, List.mem_cons]
      rcases List.mem_cons.mp hmem with h1 | h1
      · left; exact h1
      · right; exact ih j h1

theorem flp_zero_index_le {nodes : List Node} {value : Str}
    (hlen : (findLongestPrefixLen nodes value).2 = 0) :
    (findLongestPrefixLen nodes value).1 ≤ nodes.length := by
  have hflp : findLongestPrefixLen nodes value =
      ((findLongestPrefixLen nodes value).1, 0) := by
    rw [← hlen]
  rcases findLongestGo_zero_decomp value nodes 0 nodes.length
      (findLongestPrefixLen nodes value).1 hflp with ⟨hr, _⟩ |
      ⟨pre, n0, post, hns, hr, _, _⟩
  · omega
  · subst hns
    simp only [List.length_append, List.length_cons]
    omega

theorem addNode_split (nodes : List Node) (value : Str)
    (hlen : (findLongestPrefixLen nodes value).2 ≠ 0) :
    ∃ node p nrem vrem,
      nodes.get? (findLongestPrefixLen nodes value).1 = some node ∧
      node.value = p ++ nrem ∧ value = p ++ vrem ∧ p ≠ [] ∧
      byteLen p = (findLongestPrefixLen nodes value).2 ∧
      ((nrem = [] ∧ vrem = [] ∧
         addNode nodes value = nodes.set (findLongestPrefixLen nodes value).1
           (Node.mk node.childs true node.value)) ∨
       (nrem = [] ∧ vrem ≠ [] ∧
         addNode nodes value = nodes.set (findLongestPrefixLen nodes value).1
           (Node.mk (addNode node.childs vrem) node.terminal node.value)) ∨
       (nrem ≠ [] ∧ vrem = [] ∧
         addNode nodes value = nodes.set (findLongestPrefixLen nodes value).1
           (Node.mk [Node.mk node.childs node.terminal nrem] true p)) ∨
       (nrem ≠ [] ∧ vrem ≠ [] ∧
         addNode nodes value = nodes.set (findLongestPrefixLen nodes value).1
           (Node.mk (addNode [Node.mk node.childs node.terminal nrem] vrem) false p))) := by
  obtain ⟨node, hget, hcp⟩ := @flp_pos_node nodes value
    (findLongestPrefixLen nodes value).1
    (findLongestPrefixLen nodes value).2 rfl hlen
  obtain ⟨p, nrem, vrem, hnv, hvv, hplen, _hhd⟩ := commonPreB_decomp node.value value
  have hlenp : (findLongestPrefixLen nodes value).2 = byteLen p := by
    rw [← hcp, hplen]
  have hppos : 0 < byteLen p := by
    rw [← hlenp]
    exact Nat.pos_of_ne_zero hlen
  have hpne : p ≠ [] := by
    intro hnil
    rw [hnil] at hppos
    simp [byteLen] at hppos
  have hdv : dropB value (findLongestPrefixLen nodes value).2 = vrem := by
    rw [hlenp, hvv]
    exact dropB_append p vrem
  have hdn : dropB node.value (findLongestPrefixLen nodes value).2 = nrem := by
    rw [hlenp, hnv]
    exact dropB_append p nrem
  have htn : takeB node.value (findLongestPrefixLen nodes value).2 = p := by
    rw [hlenp, hnv]
    exact takeB_append p nrem
  have hbn : byteLen node.value = byteLen p + byteLen nrem := by
    rw [hnv, byteLen_append]
  have hbv : byteLen value = byteLen p + byteLen vrem := by
    rw [hvv, byteLen_append]
  refine ⟨node, p, nrem, vrem, hget, hnv, hvv, hpne, hlenp.symm, ?_⟩
  rw [addNode_eq, if_neg hlen, hget]
  dsimp only
  by_cases heq1 : (findLongestPrefixLen nodes value).2 = byteLen node.value
  · have hnrem : nrem = [] := byteLen_eq_zero (by omega)
    rw [if_pos heq1]
    by_cases heq2 : (findLongestPrefixLen nodes value).2 = byteLen value
    · have hvrem : vrem = [] := byteLen_eq_zero (by omega)
      rw [if_pos heq2]
      exact Or.inl ⟨hnrem, hvrem, rfl⟩
    · have hvrem : vrem ≠ [] := by
        intro hnil
        rw [hnil] at hbv
        simp only [byteLen] at hbv
        omega
      rw [if_neg heq2, hdv]
      exact Or.inr (Or.inl ⟨hnrem, hvrem, rfl⟩)
  · have hnrem : nrem ≠ [] := by
      intro hnil
      rw [hnil] at hbn
      simp only [byteLen] at hbn
      omega
    rw [if_neg heq1]
    by_cases heq2 : (findLongestPrefixLen nodes value).2 ≥ byteLen value
    · have hvrem : vrem = [] := byteLen_eq_zero (by omega)
      rw [if_pos heq2, hdn, htn]
      exact Or.inr (Or.inr (Or.inl ⟨hnrem, hvrem, rfl⟩))
    · have hvrem : vrem ≠ [] := by
        intro hnil
        rw [hnil] at hbv
        simp only [byteLen] at hbv
        omega
      rw [if_neg heq2, hdn, hdv, htn]
      exact Or.inr (Or.inr (Or.inr ⟨hnrem, hvrem, rfl⟩))

theorem addNode_contains : ∀ (b : Nat) (nodes : List Node) (value : Str),
    byteLen value ≤ b → value ≠ [] → MContains (addNode nodes value) value := by
  intro b
  induction b with
  | zero =>
    intro nodes value hb hval
    have := byteLen_pos hval
    omega
  | succ b ih =>
    intro nodes value hb hval
    by_cases hlen : (findLongestPrefixLen nodes value).2 = 0
    · rw [addNode_eq, if_pos hlen]
      have hi := flp_zero_index_le hlen
      have hmem : Node.mk [] true value ∈
          nodes.insertIdx (findLongestPrefixLen nodes value).1 (Node.mk [] true value) :=
        (List.mem_insertIdx hi).mpr (Or.inl rfl)
      exact MContains.here (Node.mk [] true value) _ hmem rfl
    · obtain ⟨node, p, nrem, vrem, hget, hnv, hvv, hpne, hplen, hcases⟩ :=
        addNode_split nodes value hlen
      have hilt : (findLongestPrefixLen nodes value).1 < nodes.length := by
        rcases List.get?_eq_some.mp hget with ⟨hw, _⟩
        exact hw
      have hvb : byteLen vrem ≤ b := by
        have h1 : byteLen value = byteLen p + byteLen vrem := by
          rw [hvv, byteLen_append]
        have h2 := byteLen_pos hpne
        omega
      rcases hcases with ⟨hn0, hv0, heq⟩ | ⟨hn0, hv0, heq⟩ | ⟨hn0, hv0, heq⟩ |
        ⟨hn0, hv0, heq⟩
      · rw [heq]
        have hval_eq : value = node.value := by
          rw [hvv, hnv, hn0, hv0]
        have hm : MContains
            (nodes.set (findLongestPrefixLen nodes value).1
              (Node.mk node.childs true node.value)) node.value :=
          MContains.here (Node.mk node.childs true node.value) _
            (mem_set_self _ hilt) rfl
        exact (congrArg (MContains _) hval_eq).mpr hm
      · rw [heq]
        have hval_eq : value = node.value ++ vrem := by
          rw [hvv, hnv, hn0]
          simp
        have hm : MContains
            (nodes.set (findLongestPrefixLen nodes value).1
              (Node.mk (addNode node.childs vrem) node.terminal node.value))
            (node.value ++ vrem) :=
          MContains.there (Node.mk (addNode node.childs vrem) node.terminal node.value)
            _ vrem (mem_set_self _ hilt) hv0 (ih node.childs vrem hvb hv0)
        exact (congrArg (MContains _) hval_eq).mpr hm
      · rw [heq]
        have hval_eq : value = p := by
          rw [hvv, hv0]
          simp
        have hm : MContains
            (nodes.set (findLongestPrefixLen nodes value).1
              (Node.mk [Node.mk node.childs node.terminal nrem] true p)) p :=
          MContains.here
            (Node.mk [Node.mk node.childs node.terminal nrem] true p) _
            (mem_set_self _ hilt) rfl
        exact (congrArg (MContains _) hval_eq).mpr hm
      · rw [heq]
        have hval_eq : value = p ++ vrem := hvv
        have hm : MContains
            (nodes.set (findLongestPrefixLen nodes value).1
              (Node.mk (addNode [Node.mk node.childs node.terminal nrem] vrem) false p))
            (p ++ vrem) :=
          MContains.there
            (Node.mk (addNode [Node.mk node.childs node.terminal nrem] vrem) false p)
            _ vrem (mem_set_self _ hilt) hv0
            (ih [Node.mk node.childs node.terminal nrem] vrem hvb hv0)
        exact (congrArg (MContains _) hval_eq).mpr hm

theorem MContains_insertIdx {nodes : List Node} {w : Str} (i : Nat) (x : Node)
    (h : MContains nodes w) : MContains (nodes.insertIdx i x) w := by
  cases h with
  | here n _ hmem hterm =>
    exact MContains.here n _ (mem_insertIdx_of_mem i x hmem) hterm
  | there n _ rest hmem hne hrec =>
    exact MContains.there n _ rest (mem_insertIdx_of_mem i x hmem) hne hrec

theorem addNode_preserves : ∀ (b : Nat) (nodes : List Node) (v w : Str),
    byteLen v ≤ b → MContains nodes w → MContains (addNode nodes v) w := by
  intro b
  induction b with
  | zero =>
    intro nodes v w hb h
    have hv : v = [] := byteLen_eq_zero (by omega)
    subst hv
    rw [addNode_eq, if_pos (findLongestPrefixLen_nil nodes)]
    exact MContains_insertIdx _ _ h
  | succ b ih =>
    intro nodes v w hb h
    by_cases hlen : (findLongestPrefixLen nodes v).2 = 0
    · rw [addNode_eq, if_pos hlen]
      exact MContains_insertIdx _ _ h
    · obtain ⟨node, p, nrem, vrem, hget, hnv, hvv, hpne, hplen, hcases⟩ :=
        addNode_split nodes v hlen
      have hilt : (findLongestPrefixLen nodes v).1 < nodes.length := by
        rcases List.get?_eq_some.mp hget with ⟨hw, _⟩
        exact hw
      have hvb : byteLen vrem ≤ b := by
        have h1 : byteLen v = byteLen p + byteLen vrem := by
          rw [hvv, byteLen_append]
        have h2 := byteLen_pos hpne
        omega
      have hsetform : ∃ x, addNode nodes v =
          nodes.set (findLongestPrefixLen nodes v).1 x := by
        rcases hcases with ⟨_, _, h1⟩ | ⟨_, _, h1⟩ | ⟨_, _, h1⟩ | ⟨_, _, h1⟩ <;>
          exact ⟨_, h1⟩
      cases h with
      | here n _ hmem hterm =>
        by_cases hne : n = node
        · subst hne
          rcases hcases with ⟨hn0, hv0, heq⟩ | ⟨hn0, hv0, heq⟩ | ⟨hn0, hv0, heq⟩ |
            ⟨hn0, hv0, heq⟩
          · rw [heq]
            exact MContains.here (Node.mk n.childs true n.value) _
              (mem_set_self _ hilt) rfl
          · rw [heq]
            exact MContains.here (Node.mk (addNode n.childs vrem) n.terminal n.value) _
              (mem_set_self _ hilt) hterm
          · rw [heq]
            have hm : MContains
                (nodes.set (findLongestPrefixLen nodes v).1
                  (Node.mk [Node.mk n.childs n.terminal nrem] true p)) (p ++ nrem) :=
              MContains.there (Node.mk [Node.mk n.childs n.terminal nrem] true p) _
                nrem (mem_set_self _ hilt) hn0
                (MContains.here (Node.mk n.childs n.terminal nrem) _
                  (List.mem_singleton.mpr rfl) hterm)
            exact (congrArg (MContains _) hnv).mpr hm
          · rw [heq]
            have hinner : MContains [Node.mk n.childs n.terminal nrem] nrem :=
              MContains.here (Node.mk n.childs n.terminal nrem) _
                (List.mem_singleton.mpr rfl) hterm
            have hm : MContains
                (nodes.set (findLongestPrefixLen nodes v).1
                  (Node.mk (addNode [Node.mk n.childs n.terminal nrem] vrem) false p))
                (p ++ nrem) :=
              MContains.there
                (Node.mk (addNode [Node.mk n.childs n.terminal nrem] vrem) false p) _
                nrem (mem_set_self _ hilt) hn0
                (ih [Node.mk n.childs n.terminal nrem] vrem nrem hvb hinner)
            exact (congrArg (MContains _) hnv).mpr hm
        · obtain ⟨x, heq⟩ := hsetform
          rw [heq]
          exact MContains.here n _ (mem_set_of_ne x hmem hget hne) hterm
      | there n _ rest hmem hrestne hrec =>
        by_cases hne : n = node
        · subst hne
          rcases hcases with ⟨hn0, hv0, heq⟩ | ⟨hn0, hv0, heq⟩ | ⟨hn0, hv0, heq⟩ |
            ⟨hn0, hv0, heq⟩
          · rw [heq]
            exact MContains.there (Node.mk n.childs true n.value) _ rest
              (mem_set_self _ hilt) hrestne hrec
          · rw [heq]
            exact MContains.there (Node.mk (addNode n.childs vrem) n.terminal n.value)
              _ rest (mem_set_self _ hilt) hrestne
              (ih n.childs vrem rest hvb hrec)
          · rw [heq]
            have hinner : MContains [Node.mk n.childs n.terminal nrem] (nrem ++ rest) :=
              MContains.there (Node.mk n.childs n.terminal nrem) _ rest
                (List.mem_singleton.mpr rfl) hrestne hrec
            have hm : MContains
                (nodes.set (findLongestPrefixLen nodes v).1
                  (Node.mk [Node.mk n.childs n.terminal nrem] true p))
                (p ++ (nrem ++ rest)) :=
              MContains.there (Node.mk [Node.mk n.childs n.terminal nrem] true p) _
                (nrem ++ rest) (mem_set_self _ hilt) (by simp [hn0]) hinner
            have hweq : n.value ++ rest = p ++ (nrem ++ rest) := by
              rw [hnv, List.append_assoc]
            exact (congrArg (MContains _) hweq).mpr hm
          · rw [heq]
            have hinner : MContains [Node.mk n.childs n.terminal nrem] (nrem ++ rest) :=
              MContains.there (Node.mk n.childs n.terminal nrem) _ rest
                (List.mem_singleton.mpr rfl) hrestne hrec
            have hm : MContains
                (nodes.set (findLongestPrefixLen nodes v).1
                  (Node.mk (addNode [Node.mk n.childs n.terminal nrem] vrem) false p))
                (p ++ (nrem ++ rest)) :=
              MContains.there
                (Node.mk (addNode [Node.mk n.childs n.terminal nrem] vrem) false p) _
                (nrem ++ rest) (mem_set_self _ hilt) (by simp [hn0])
                (ih [Node.mk n.childs n.terminal nrem] vrem (nrem ++ rest) hvb hinner)
            have hweq : n.value ++ rest = p ++ (nrem ++ rest) := by
              rw [hnv, List.append_assoc]
            exact (congrArg (MContains _) hweq).mpr hm
        · obtain ⟨x, heq⟩ := hsetform
          rw [heq]
          exact MContains.there n _ rest (mem_set_of_ne x hmem hget hne) hrestne hrec

/-- Every inserted non-empty word is contained in the mutable trie. -/
theorem buildRoot_contains (words : List Str) :
    ∀ w ∈ words, MContains (buildRoot words) w ∨ w = [] := by
  suffices hgen : ∀ (ws : List Str) (acc : List Node) (w : Str),
      (w ∈ ws ∨ MContains acc w) → MContains (ws.foldl addNode acc) w ∨ w = [] by
    intro w hw
    exact hgen words [] w (Or.inl hw)
  intro ws
  induction ws with
  | nil =>
    intro acc w hw
    rcases hw with h1 | h1
    · cases h1
    · exact Or.inl h1
  | cons x rest ih =>
    intro acc w hw
    simp only [List.foldl_cons]
    rcases hw with h1 | h1
    · rcases List.mem_cons.mp h1 with h2 | h2
      · subst h2
        by_cases hwnil : w = []
        · exact Or.inr hwnil
        · exact ih (addNode acc w) w
            (Or.inr (addNode_contains (byteLen w) acc w (Nat.le_refl _) hwnil))
      · exact ih (addNode acc x) w (Or.inl h2)
    · exact ih (addNode acc x) w
        (Or.inr (addNode_preserves (byteLen x) acc x w (Nat.le_refl _) h1))

theorem isPrefixOf_append_self (l r : Str) : l.isPrefixOf (l ++ r) = true :=
  List.isPrefixOf_iff_prefix.mpr ⟨r, rfl⟩

theorem matches_head {n : SizedNode} {vc : Char} {vt : Str} (hnv : n.value ≠ [])
    (hpre : n.value.isPrefixOf (vc :: vt) = true) : n.value.head? = some vc := by
  obtain ⟨t, ht⟩ := List.isPrefixOf_iff_prefix.mp hpre
  calc n.value.head? = (n.value ++ t).head? := (head?_append_of_ne_nil t hnv).symm
    _ = some vc := by rw [ht]; rfl

theorem ContainsWord_pos {ns : List SizedNode} {w : Str} (h : ContainsWord ns w) :
    0 < ns.length := by
  cases h with
  | here n _ hmem _ => exact List.length_pos.mpr (List.ne_nil_of_mem hmem)
  | there n _ rest hmem _ _ => exact List.length_pos.mpr (List.ne_nil_of_mem hmem)

theorem childsMatched_unique {val : Str} (hval : val ≠ []) :
    ∀ {nodes : List SizedNode}, WfSForest nodes →
    ∀ n ∈ nodes, n.value.isPrefixOf val = true →
    childsMatched nodes val = [(n, dropB val (byteLen n.value))] := by
  cases val with
  | nil => exact absurd rfl hval
  | cons vc vt =>
    intro nodes
    induction nodes with
    | nil =>
      intro _ n hn
      cases hn
    | cons m rest ih =>
      intro hwf n hn hpre
      have hnwf := hwf.smem_wf n hn
      have hnhd : n.value.head? = some vc := matches_head hnwf.sval_ne_nil hpre
      rcases List.mem_cons.mp hn with h1 | h2
      · subst h1
        unfold childsMatched
        rw [List.filterMap_cons]
        rw [if_pos hpre]
        have hrest : (rest.filterMap fun x =>
            if x.value.isPrefixOf (vc :: vt) then
              some (x, dropB (vc :: vt) (byteLen x.value)) else none) = [] := by
          rw [List.filterMap_eq_nil_iff]
          intro y hy
          have hlt := hwf.shead_lt y hy
          have hywf := hwf.smem_wf y (List.mem_cons_of_mem n hy)
          rw [if_neg ?_]
          intro hyp
          have hyhd : y.value.head? = some vc := matches_head hywf.sval_ne_nil hyp
          unfold firstLtS at hlt
          rw [hyhd, hnhd] at hlt
          simp only [optCharGt] at hlt
          have : vc < vc := of_decide_eq_true hlt
          exact absurd this (lt_irrefl vc)
        rw [hrest]
      · have hmnomatch : m.value.isPrefixOf (vc :: vt) = false := by
          cases hmp : m.value.isPrefixOf (vc :: vt) with
          | false => rfl
          | true =>
            exfalso
            have hmwf := hwf.shead_wf
            have hmhd : m.value.head? = some vc := matches_head hmwf.sval_ne_nil hmp
            have hlt := hwf.shead_lt n h2
            unfold firstLtS at hlt
            rw [hnhd, hmhd] at hlt
            simp only [optCharGt] at hlt
            have : vc < vc := of_decide_eq_true hlt
            exact absurd this (lt_irrefl vc)
        unfold childsMatched
        rw [List.filterMap_cons, if_neg (by rw [hmnomatch]; exact fun h => by cases h)]
        exact ih hwf.stail_wf n h2 hpre

theorem tpGo_complete : ∀ {nodes : List SizedNode} {val : Str},
    ContainsWord nodes val → WfSForest nodes →
    ∀ off, (off + byteLen val) ∈ tpGo [(nodes, val, off)] := by
  intro nodes val h
  induction h with
  | here n ns hmem hterm =>
    intro _hwf off
    rw [tpGo_cons]
    apply List.mem_append_left
    apply List.mem_filterMap.mpr
    refine ⟨(n, dropB n.value (byteLen n.value)), ?_, ?_⟩
    · apply List.mem_filterMap.mpr
      refine ⟨n, hmem, ?_⟩
      rw [if_pos ?_]
      have : n.value.isPrefixOf (n.value ++ []) = true := isPrefixOf_append_self n.value []
      rw [List.append_nil] at this
      exact this
    · rw [if_pos hterm]
  | there n ns rest hmem hne hrec ih =>
    intro hwf off
    have hnwf := hwf.smem_wf n hmem
    have hval_ne : n.value ++ rest ≠ [] := by
      intro hnil
      exact hnwf.sval_ne_nil (List.append_eq_nil.mp hnil).1
    rw [tpGo_cons]
    apply List.mem_append_right
    have hmatch := childsMatched_unique hval_ne hwf n hmem
      (isPrefixOf_append_self n.value rest)
    have hdrop : dropB (n.value ++ rest) (byteLen n.value) = rest :=
      dropB_append _ _
    have hcpos : 0 < n.childs.length := ContainsWord_pos hrec
    have henq : tpEnq off (childsMatched ns (n.value ++ rest)) =
        [(n.childs, rest, off + byteLen n.value)] := by
      rw [hmatch, hdrop]
      unfold tpEnq
      rw [List.filterMap_cons]
      rw [if_pos ⟨hcpos, List.length_pos.mpr hne⟩]
      rfl
    rw [List.nil_append, henq]
    have hres := ih hnwf.schilds_wf (off + byteLen n.value)
    rw [byteLen_append, ← Nat.add_assoc]
    exact hres

/-- C6: every word inserted into the trie is, after sealing, reachable as a
root-to-node path of concatenated labels ending in a terminal node, and the
prefix-terminal query on the word itself at offset 0 reports the full byte
length of the word among its end offsets. -/
theorem c6_inserted_word_contained (words : List Str) (h : ∀ w ∈ words, w ≠ [])
    (w : Str) (hw : w ∈ words) :
    ContainsWord (sealRoot (buildRoot words)) w ∧
    ∃ rs, terminalsPrefixAt (sealRoot (buildRoot words)) w 0 = some rs ∧
      byteLen w ∈ rs := by
  have hmc : MContains (buildRoot words) w := by
    rcases buildRoot_contains words w hw with h1 | h1
    · exact h1
    · exact absurd h1 (h w hw)
  have hc : ContainsWord (sealRoot (buildRoot words)) w := hmc.toSized
  have hwf := sealRoot_wf words h
  refine ⟨hc, tpGo [(sealRoot (buildRoot words), w, 0)], ?_, ?_⟩
  · rw [terminalsPrefixAt_of_boundary (isBoundary_zero w), dropB_zero]
  · have := tpGo_complete hc hwf 0
    rw [Nat.zero_add] at this
    exact this

/-- Witness for C6 at the dictionary a, ab and the word ab. -/
theorem c6_inserted_word_contained_witness :
    (∀ w ∈ ([['a'], ['a', 'b']] : List Str), w ≠ []) ∧
    (['a', 'b'] ∈ ([['a'], ['a', 'b']] : List Str)) ∧
    (ContainsWord (sealRoot (buildRoot [['a'], ['a', 'b']])) ['a', 'b'] ∧
     ∃ rs, terminalsPrefixAt (sealRoot (buildRoot [['a'], ['a', 'b']]))
        ['a', 'b'] 0 = some rs ∧ byteLen ['a', 'b'] ∈ rs) :=
  ⟨by decide, by simp,
    c6_inserted_word_contained [['a'], ['a', 'b']] (by decide) ['a', 'b'] (by simp)⟩

theorem snSize_le_of_mem {n : SizedNode} {ns : List SizedNode} (h : n ∈ ns) :
    snSize n ≤ snListSize ns := by
  induction ns with
  | nil => cases h
  | cons m rest ih =>
    rcases List.mem_cons.mp h with h1 | h1
    · subst h1
      simp only [snListSize]
      omega
    · have := ih h1
      simp only [snListSize]
      omega

theorem childsMatched_cases {nodes : List SizedNode} {val : Str}
    (hwf : WfSForest nodes) :
    childsMatched nodes val = [] ∨
    ∃ n, n ∈ nodes ∧ n.value.isPrefixOf val = true ∧
      childsMatched nodes val = [(n, dropB val (byteLen n.value))] := by
  cases hcm : childsMatched nodes val with
  | nil => exact Or.inl rfl
  | cons e rest0 =>
    right
    have he : e ∈ childsMatched nodes val := by
      rw [hcm]
      exact List.mem_cons_self e rest0
    obtain ⟨n, hn, hfn⟩ := List.mem_filterMap.mp he
    by_cases hp : n.value.isPrefixOf val = true
    · have hvne : val ≠ [] := by
        intro hnil
        subst hnil
        have hnv := (hwf.smem_wf n hn).sval_ne_nil
        cases hnv2 : n.value with
        | nil => exact hnv hnv2
        | cons c t =>
          rw [hnv2] at hp
          simp [List.isPrefixOf] at hp
      refine ⟨n, hn, hp, ?_⟩
      rw [← hcm]
      exact childsMatched_unique hvne hwf n hn hp
    · rw [if_neg hp] at hfn
      cases hfn

theorem tpGo_sorted : ∀ (sz : Nat) (nodes : List SizedNode) (val : Str) (off : Nat),
    snListSize nodes ≤ sz → WfSForest nodes →
    List.Chain' (fun a b => a < b) (tpGo [(nodes, val, off)]) ∧
    (∀ x ∈ tpGo [(nodes, val, off)], off < x) := by
  intro sz
  induction sz with
  | zero =>
    intro nodes val off hsz hwf
    cases nodes with
    | nil =>
      constructor
      · rw [tpGo_cons]
        simp [childsMatched, tpEnq, tpGo_nil]
      · intro x hx
        rw [tpGo_cons] at hx
        simp [childsMatched, tpEnq, tpGo_nil] at hx
    | cons m rest =>
      exfalso
      have h1 : 1 ≤ snSize m := by
        cases m with
        | mk cs t v =>
          simp only [snSize]
          omega
      simp only [snListSize] at hsz
      omega
  | succ sz ih =>
    intro nodes val off hsz hwf
    rcases @childsMatched_cases nodes val hwf with hcm | ⟨n, hn, hp, hcm⟩
    · constructor
      · rw [tpGo_cons, hcm]
        simp [tpEnq, tpGo_nil]
      · intro x hx
        rw [tpGo_cons, hcm] at hx
        simp [tpEnq, tpGo_nil] at hx
    · have hnwf := hwf.smem_wf n hn
      have hblpos : 0 < byteLen n.value := byteLen_pos hnwf.sval_ne_nil
      have hszc : snListSize n.childs ≤ sz := by
        have h1 := snSize_le_of_mem hn
        have h2 := snSize_eq n
        omega
      have hrs : ((childsMatched nodes val).filterMap fun m =>
          if m.1.terminal then some (off + byteLen m.1.value) else none) =
          if n.terminal then [off + byteLen n.value] else [] := by
        rw [hcm, List.filterMap_cons]
        by_cases ht : n.terminal
        · simp [ht]
        · simp [ht]
      have henq : tpEnq off (childsMatched nodes val) =
          if 0 < n.childs.length ∧ 0 < (dropB val (byteLen n.value)).length then
            [(n.childs, dropB val (byteLen n.value), off + byteLen n.value)]
          else [] := by
        rw [hcm]
        unfold tpEnq
        rw [List.filterMap_cons]
        by_cases hc : 0 < n.childs.length ∧ 0 < (dropB val (byteLen n.value)).length
        · simp only [List.filterMap_nil]
          rw [if_pos hc, if_pos hc]
        · simp only [List.filterMap_nil]
          rw [if_neg hc, if_neg hc]
      have htail : List.Chain' (fun a b => a < b)
            (tpGo (tpEnq off (childsMatched nodes val))) ∧
          ∀ x ∈ tpGo (tpEnq off (childsMatched nodes val)),
            off + byteLen n.value < x := by
        rw [henq]
        by_cases hc : 0 < n.childs.length ∧ 0 < (dropB val (byteLen n.value)).length
        · rw [if_pos hc]
          exact ih n.childs (dropB val (byteLen n.value)) (off + byteLen n.value)
            hszc hnwf.schilds_wf
        · rw [if_neg hc]
          constructor
          · rw [tpGo_nil]
            exact List.chain'_nil
          · intro x hx
            rw [tpGo_nil] at hx
            cases hx
      constructor
      · rw [tpGo_cons, hrs, List.nil_append]
        by_cases ht : n.terminal
        · rw [if_pos ht]
          rw [List.singleton_append, List.chain'_cons']
          refine ⟨?_, htail.1⟩
          intro b hb
          have hbmem : b ∈ tpGo (tpEnq off (childsMatched nodes val)) :=
            List.mem_of_mem_head? hb
          exact htail.2 b hbmem
        · rw [if_neg ht, List.nil_append]
          exact htail.1
      · intro x hx
        rw [tpGo_cons, hrs, List.nil_append] at hx
        by_cases ht : n.terminal
        · rw [if_pos ht, List.singleton_append] at hx
          rcases List.mem_cons.mp hx with h1 | h1
          · omega
          · have := htail.2 x h1
            omega
        · rw [if_neg ht, List.nil_append] at hx
          have := htail.2 x hx
          omega

/-- C9: on a trie built by inserting non-empty words, the end offsets that a
single prefix-terminal query appends are strictly increasing, hence pairwise
distinct, and all lie strictly beyond the query offset. -/
theorem c9_terminals_strictly_increasing (words : List Str)
    (h : ∀ w ∈ words, w ≠ []) (value : Str) (offset : Nat)
    (hb : isBoundary value offset = true) :
    ∃ rs, terminalsPrefixAt (sealRoot (buildRoot words)) value offset = some rs ∧
      List.Chain' (fun a b => a < b) rs ∧ ∀ x ∈ rs, offset < x := by
  refine ⟨tpGo [(sealRoot (buildRoot words), dropB value offset, offset)],
    terminalsPrefixAt_of_boundary hb, ?_, ?_⟩
  · exact (tpGo_sorted (snListSize (sealRoot (buildRoot words)))
      (sealRoot (buildRoot words)) (dropB value offset) offset (Nat.le_refl _)
      (sealRoot_wf words h)).1
  · exact (tpGo_sorted (snListSize (sealRoot (buildRoot words)))
      (sealRoot (buildRoot words)) (dropB value offset) offset (Nat.le_refl _)
      (sealRoot_wf words h)).2

/-- Witness for C9 at the dictionary a, ab on input abb at offset 0, where
the query returns the offsets 1 and 2. -/
theorem c9_terminals_strictly_increasing_witness :
    (∀ w ∈ ([['a'], ['a', 'b']] : List Str), w ≠ []) ∧
    isBoundary (['a', 'b', 'b'] : Str) 0 = true ∧
    (∃ rs, terminalsPrefixAt (sealRoot (buildRoot [['a'], ['a', 'b']]))
        ['a', 'b', 'b'] 0 = some rs ∧
      List.Chain' (fun a b => a < b) rs ∧ ∀ x ∈ rs, 0 < x) :=
  ⟨by decide, rfl,
    c9_terminals_strictly_increasing [['a'], ['a', 'b']] (by decide)
      ['a', 'b', 'b'] 0 rfl⟩

theorem commonPreB_append_self (p rest : Str) : commonPreB p (p ++ rest) = byteLen p := by
  induction p with
  | nil => cases rest <;> rfl
  | cons c t ih =>
    simp [List.cons_append, commonPreB, byteLen, ih]

theorem optCharGt_irrefl (x : Option Char) : optCharGt x x = false := by
  cases x with
  | none => rfl
  | some c =>
    simp only [optCharGt]
    exact decide_eq_false (lt_irrefl c)

theorem optCharGt_asymm {x y : Option Char} (h1 : optCharGt x y = true)
    (h2 : optCharGt y x = true) : False := by
  cases x with
  | none => simp [optCharGt] at h1
  | some a =>
    cases y with
    | none => simp [optCharGt] at h2
    | some b =>
      simp only [optCharGt, decide_eq_true_eq] at h1 h2
      exact absurd h1 (lt_asymm h2)

theorem firstLt_head_ne {a b : Node} (h : firstLt a b) :
    a.value.head? ≠ b.value.head? := by
  intro heq
  unfold firstLt at h
  rw [heq] at h
  rw [optCharGt_irrefl] at h
  cases h

theorem Wf_head_unique {ns : List Node} (hwf : WfForest ns) {n m : Node}
    (hn : n ∈ ns) (hm : m ∈ ns) (hh : n.value.head? = m.value.head?) : n = m := by
  induction ns with
  | nil => cases hn
  | cons x t ih =>
    rcases List.mem_cons.mp hn with h1 | h1 <;> rcases List.mem_cons.mp hm with h2 | h2
    · rw [h1, h2]
    · subst h1
      exact absurd hh (firstLt_head_ne (hwf.head_lt m h2))
    · subst h2
      exact absurd hh.symm (firstLt_head_ne (hwf.head_lt n h1))
    · exact ih hwf.tail_wf h1 h2

theorem set_get_self {α : Type} : ∀ {l : List α} {i : Nat} {a : α},
    l.get? i = some a → l.set i a = l := by
  intro l
  induction l with
  | nil =>
    intro i a h
    simp at h
  | cons x t ih =>
    intro i a h
    cases i with
    | zero =>
      simp only [List.get?_cons_zero] at h
      cases h
      rfl
    | succ j =>
      simp only [List.get?_cons_succ] at h
      simp only [List.set_cons_succ]
      rw [ih h]

theorem node_eta (n : Node) : Node.mk n.childs n.terminal n.value = n := by
  cases n with
  | mk c t v => rfl

/-- On a well-formed forest, find_longest_prefix locates the unique sibling
whose label starts the value, and the reported length is that whole label. -/
theorem flp_mem_self_append {ns : List Node} {n : Node} (rest : Str)
    (hwf : WfForest ns) (hmem : n ∈ ns) :
    (findLongestPrefixLen ns (n.value ++ rest)).2 = byteLen n.value ∧
    ns.get? (findLongestPrefixLen ns (n.value ++ rest)).1 = some n := by
  have hnwf := hwf.mem_wf n hmem
  have hnv : n.value ≠ [] := hnwf.value_ne_nil
  have hhd : (n.value ++ rest).head? = n.value.head? := head?_append_of_ne_nil rest hnv
  have hcpn : commonPreB n.value (n.value ++ rest) = byteLen n.value :=
    commonPreB_append_self n.value rest
  have hpos : 0 < byteLen n.value := byteLen_pos hnv
  have hlen_ne : (findLongestPrefixLen ns (n.value ++ rest)).2 ≠ 0 := by
    intro h0
    have hflp : findLongestPrefixLen ns (n.value ++ rest) =
        ((findLongestPrefixLen ns (n.value ++ rest)).1, 0) := by
      rw [← h0]
    rcases findLongestGo_zero_decomp (n.value ++ rest) ns 0 ns.length _ hflp with
      ⟨_, hall⟩ | ⟨pre, n0, post, hns, _, hpref, hgt⟩
    · have := (hall n hmem).1
      rw [hcpn] at this
      omega
    · subst hns
      rcases List.mem_append.mp hmem with h1 | h1
      · have := (hpref n h1).1
        rw [hcpn] at this
        omega
      · rcases List.mem_cons.mp h1 with h2 | h2
        · subst h2
          rw [hhd] at hgt
          rw [optCharGt_irrefl] at hgt
          cases hgt
        · have hlt := WfForest_append_lt hwf n h2
          unfold firstLt at hlt
          rw [hhd] at hgt
          exact optCharGt_asymm hgt hlt
  obtain ⟨m, hget, hcp⟩ := @flp_pos_node ns (n.value ++ rest)
    (findLongestPrefixLen ns (n.value ++ rest)).1
    (findLongestPrefixLen ns (n.value ++ rest)).2 rfl hlen_ne
  have hmmem : m ∈ ns := List.get?_mem hget
  have hcp_pos : 0 < commonPreB m.value (n.value ++ rest) := by
    rw [hcp]
    exact Nat.pos_of_ne_zero hlen_ne
  obtain ⟨c, ta, tb, hma, hwb⟩ := commonPreB_pos_head hcp_pos
  have hheads : m.value.head? = n.value.head? := by
    rw [← hhd, hma, hwb]
    rfl
  have hmn : m = n := Wf_head_unique hwf hmmem hmem hheads
  subst hmn
  rw [hcpn] at hcp
  exact ⟨hcp.symm, hget⟩

/-- Re-inserting a word the well-formed trie already contains is a no-op. -/
theorem addNode_noop {ns : List Node} {w : Str} (hm : MContains ns w) :
    WfForest ns → addNode ns w = ns := by
  induction hm with
  | here n ns hmem hterm =>
    intro hwf
    have h := flp_mem_self_append [] hwf hmem
    rw [List.append_nil] at h
    have hlen_ne : (findLongestPrefixLen ns n.value).2 ≠ 0 := by
      rw [h.1]
      have := byteLen_pos (hwf.mem_wf n hmem).value_ne_nil
      omega
    obtain ⟨node, p, nrem, vrem, hget, hnv, hvv, hpne, hplen, hcases⟩ :=
      addNode_split ns n.value hlen_ne
    have hnode : node = n := Option.some.inj (hget.symm.trans h.2)
    subst hnode
    have hbp : byteLen p = byteLen node.value := by
      rw [hplen, h.1]
    have hnrem : nrem = [] := by
      apply byteLen_eq_zero
      have := byteLen_append p nrem
      rw [← hnv] at this
      omega
    have hvrem : vrem = [] := by
      apply byteLen_eq_zero
      have := byteLen_append p vrem
      rw [← hvv] at this
      omega
    rcases hcases with ⟨_, _, heq⟩ | ⟨_, h2, _⟩ | ⟨h1, _, _⟩ | ⟨h1, _, _⟩
    · rw [heq, ← hterm, node_eta]
      exact set_get_self h.2
    · exact absurd hvrem h2
    · exact absurd hnrem h1
    · exact absurd hnrem h1
  | there n ns rest hmem hne hrec ih =>
    intro hwf
    have h := flp_mem_self_append rest hwf hmem
    have hlen_ne : (findLongestPrefixLen ns (n.value ++ rest)).2 ≠ 0 := by
      rw [h.1]
      have := byteLen_pos (hwf.mem_wf n hmem).value_ne_nil
      omega
    obtain ⟨node, p, nrem, vrem, hget, hnv, hvv, hpne, hplen, hcases⟩ :=
      addNode_split ns (n.value ++ rest) hlen_ne
    have hnode : node = n := Option.some.inj (hget.symm.trans h.2)
    subst hnode
    have hbp : byteLen p = byteLen node.value := by
      rw [hplen, h.1]
    have hnrem : nrem = [] := by
      apply byteLen_eq_zero
      have := byteLen_append p nrem
      rw [← hnv] at this
      omega
    have hp : p = node.value := by
      rw [hnv, hnrem, List.append_nil]
    have hvrem : vrem = rest := by
      rw [hp] at hvv
      exact (List.append_cancel_left hvv).symm
    rcases hcases with ⟨_, h2, _⟩ | ⟨_, _, heq⟩ | ⟨h1, _, _⟩ | ⟨h1, _, _⟩
    · rw [hvrem] at h2
      exact absurd h2 hne
    · rw [heq, hvrem, ih (hwf.mem_wf node hmem).childs_wf, node_eta]
      exact set_get_self h.2
    · exact absurd hnrem h1
    · exact absurd hnrem h1

/-- C8: insertion is idempotent on a trie built from non-empty words:
re-inserting any word the trie already contains leaves the mutable trie
unchanged, hence the sealed trie produced afterwards is structurally
identical to the one produced without the re-insertion. -/
theorem c8_reinsert_idempotent (words : List Str) (h : ∀ w ∈ words, w ≠ [])
    (w : Str) (hw : MContains (buildRoot words) w) :
    addNode (buildRoot words) w = buildRoot words ∧
    sealRoot (addNode (buildRoot words) w) = sealRoot (buildRoot words) := by
  have hnoop := addNode_noop hw (buildRoot_wf words h)
  exact ⟨hnoop, by rw [hnoop]⟩

/-- Witness for C8 at the dictionary a, ab and the word ab. -/
theorem c8_reinsert_idempotent_witness :
    (∀ w ∈ ([['a'], ['a', 'b']] : List Str), w ≠ []) ∧
    MContains (buildRoot [['a'], ['a', 'b']]) ['a', 'b'] ∧
    (addNode (buildRoot [['a'], ['a', 'b']]) ['a', 'b'] =
       buildRoot [['a'], ['a', 'b']] ∧
     sealRoot (addNode (buildRoot [['a'], ['a', 'b']]) ['a', 'b']) =
       sealRoot (buildRoot [['a'], ['a', 'b']])) := by
  have hroot : buildRoot [['a'], ['a', 'b']] =
      [Node.mk [Node.mk [] true ['b']] true ['a']] := rfl
  have hmc : MContains (buildRoot [['a'], ['a', 'b']]) ['a', 'b'] := by
    rw [hroot]
    exact MContains.there (Node.mk [Node.mk [] true ['b']] true ['a']) _ ['b']
      (List.mem_singleton.mpr rfl) (by simp)
      (MContains.here (Node.mk [] true ['b']) _ (List.mem_singleton.mpr rfl) rfl)
  exact ⟨by decide, hmc,
    c8_reinsert_idempotent [['a'], ['a', 'b']] (by decide) ['a', 'b'] hmc⟩

theorem boundary_along {s : Str} : ∀ (p : Str) {u : Nat} {q : Str},
    isBoundary s u = true → dropB s u = p ++ q →
    isBoundary s (u + byteLen p) = true ∧ dropB s (u + byteLen p) = q := by
  intro p
  induction p with
  | nil =>
    intro u q hb hd
    simp only [List.nil_append] at hd
    simpa [byteLen] using And.intro hb hd
  | cons c t ih =>
    intro u q hb hd
    rw [List.cons_append] at hd
    obtain ⟨h1, h2⟩ := boundary_step hb hd
    obtain ⟨h3, h4⟩ := ih h1 h2
    have harith : u + byteLen (c :: t) = u + charLen c + byteLen t := by
      simp only [byteLen]
      omega
    rw [harith]
    exact ⟨h3, h4⟩

theorem tpGo_results_decomp : ∀ (sz : Nat) (nodes : List SizedNode) (val : Str) (off : Nat),
    snListSize nodes ≤ sz → WfSForest nodes →
    ∀ x ∈ tpGo [(nodes, val, off)],
      ∃ p q, val = p ++ q ∧ p ≠ [] ∧ x = off + byteLen p := by
  intro sz
  induction sz with
  | zero =>
    intro nodes val off hsz hwf x hx
    cases nodes with
    | nil =>
      rw [tpGo_cons] at hx
      simp [childsMatched, tpEnq, tpGo_nil] at hx
    | cons m rest =>
      exfalso
      have h1 : 1 ≤ snSize m := by
        cases m with
        | mk cs t v =>
          simp only [snSize]
          omega
      simp only [snListSize] at hsz
      omega
  | succ sz ih =>
    intro nodes val off hsz hwf x hx
    rcases @childsMatched_cases nodes val hwf with hcm | ⟨n, hn, hp, hcm⟩
    · rw [tpGo_cons, hcm] at hx
      simp [tpEnq, tpGo_nil] at hx
    · have hnwf := hwf.smem_wf n hn
      have hnval : n.value ≠ [] := hnwf.sval_ne_nil
      have hszc : snListSize n.childs ≤ sz := by
        have h1 := snSize_le_of_mem hn
        have h2 := snSize_eq n
        omega
      obtain ⟨tl, htl⟩ := List.isPrefixOf_iff_prefix.mp hp
      have hrs : ((childsMatched nodes val).filterMap fun m =>
          if m.1.terminal then some (off + byteLen m.1.value) else none) =
          if n.terminal then [off + byteLen n.value] else [] := by
        rw [hcm, List.filterMap_cons]
        by_cases ht : n.terminal
        · simp [ht]
        · simp [ht]
      have henq : tpEnq off (childsMatched nodes val) =
          if 0 < n.childs.length ∧ 0 < (dropB val (byteLen n.value)).length then
            [(n.childs, dropB val (byteLen n.value), off + byteLen n.value)]
          else [] := by
        rw [hcm]
        unfold tpEnq
        rw [List.filterMap_cons]
        by_cases hc : 0 < n.childs.length ∧ 0 < (dropB val (byteLen n.value)).length
        · simp only [List.filterMap_nil]
          rw [if_pos hc, if_pos hc]
        · simp only [List.filterMap_nil]
          rw [if_neg hc, if_neg hc]
      rw [tpGo_cons, hrs, List.nil_append, henq] at hx
      have hdrop : dropB val (byteLen n.value) = tl := by
        rw [← htl]
        exact dropB_append n.value tl
      have hterm_case : x = off + byteLen n.value →
          ∃ p q, val = p ++ q ∧ p ≠ [] ∧ x = off + byteLen p := by
        intro hxe
        exact ⟨n.value, tl, htl.symm, hnval, hxe⟩
      by_cases hc : 0 < n.childs.length ∧ 0 < (dropB val (byteLen n.value)).length
      · rw [if_pos hc] at hx
        have hmem2 : x ∈ (if n.terminal = true then [off + byteLen n.value] else []) ++
            tpGo [(n.childs, dropB val (byteLen n.value), off + byteLen n.value)] := hx
        rcases List.mem_append.mp hmem2 with h1 | h1
        · by_cases ht : n.terminal
          · rw [if_pos ht] at h1
            rcases List.mem_singleton.mp h1 with h2
            exact hterm_case h2
          · rw [if_neg ht] at h1
            cases h1
        · obtain ⟨p2, q2, hval2, hp2, hx2⟩ :=
            ih n.childs (dropB val (byteLen n.value)) (off + byteLen n.value)
              hszc hnwf.schilds_wf x h1
          refine ⟨n.value ++ p2, q2, ?_, ?_, ?_⟩
          · rw [List.append_assoc, ← hval2, hdrop, htl]
          · intro hnil
            exact hnval (List.append_eq_nil.mp hnil).1
          · rw [hx2, byteLen_append]
            omega
      · rw [if_neg hc] at hx
        have hmem2 : x ∈ (if n.terminal = true then [off + byteLen n.value] else []) ++
            tpGo [] := hx
        rw [tpGo_nil, List.append_nil] at hmem2
        by_cases ht : n.terminal
        · rw [if_pos ht] at hmem2
          exact hterm_case (List.mem_singleton.mp hmem2)
        · rw [if_neg ht] at hmem2
          cases hmem2

/-- Full specification of one prefix-terminal query at a boundary offset of
the text: it succeeds, and its results are strictly increasing boundary
offsets strictly beyond the query offset and at most the text length. -/
theorem tpAt_spec {dict : List SizedNode} (hwf : WfSForest dict) {text : Str}
    {off : Nat} (hb : isBoundary text off = true) :
    ∃ rs, terminalsPrefixAt dict text off = some rs ∧
      List.Chain' (fun a b => a < b) rs ∧
      ∀ x ∈ rs, off < x ∧ x ≤ byteLen text ∧ isBoundary text x = true := by
  refine ⟨tpGo [(dict, dropB text off, off)], terminalsPrefixAt_of_boundary hb, ?_, ?_⟩
  · exact (tpGo_sorted (snListSize dict) dict (dropB text off) off (Nat.le_refl _) hwf).1
  · intro x hx
    have hgt := (tpGo_sorted (snListSize dict) dict (dropB text off) off
      (Nat.le_refl _) hwf).2 x hx
    obtain ⟨p, q, hval, hpne, hxe⟩ := tpGo_results_decomp (snListSize dict) dict
      (dropB text off) off (Nat.le_refl _) hwf x hx
    obtain ⟨hbx, _⟩ := boundary_along p hb hval
    rw [← hxe] at hbx
    exact ⟨hgt, isBoundary_le hbx, hbx⟩

theorem chain_lt_rel : ∀ (t : List Nat) (x : Nat),
    List.Chain' (fun a b => a < b) (x :: t) → ∀ y ∈ t, x < y := by
  intro t
  induction t with
  | nil =>
    intro x _ y hy
    cases hy
  | cons z t2 ih =>
    intro x hch y hy
    have h1 := List.chain'_cons.mp hch
    rcases List.mem_cons.mp hy with h2 | h2
    · subst h2
      exact h1.1
    · exact Nat.lt_trans h1.1 (ih z h1.2 y h2)

theorem chain_lt_length_le : ∀ (l : List Nat) (lo hi : Nat),
    List.Chain' (fun a b => a < b) l → (∀ x ∈ l, lo < x) → (∀ x ∈ l, x ≤ hi) →
    l.length ≤ hi - lo := by
  intro l
  induction l with
  | nil =>
    intro lo hi _ _ _
    simp
  | cons x t ih =>
    intro lo hi hch hlo hhi
    have hxlo : lo < x := hlo x (List.mem_cons_self x t)
    have hxhi : x ≤ hi := hhi x (List.mem_cons_self x t)
    have htch : List.Chain' (fun a b => a < b) t := (List.chain'_cons'.mp hch).2
    have htlo : ∀ y ∈ t, x < y := chain_lt_rel t x hch
    have hrec := ih x hi htch htlo fun y hy => hhi y (List.mem_cons_of_mem x hy)
    simp only [List.length_cons]
    omega

theorem takeUntilGe_sub (n : Nat) : ∀ (l : List Nat), ∀ x ∈ (takeUntilGe n l).1, x ∈ l := by
  intro l
  induction l with
  | nil =>
    intro x hx
    simp [takeUntilGe] at hx
  | cons v t ih =>
    intro x hx
    simp only [takeUntilGe] at hx
    by_cases hv : v ≥ n
    · rw [if_pos hv] at hx
      rcases List.mem_singleton.mp hx with h
      subst h
      exact List.mem_cons_self x t
    · rw [if_neg hv] at hx
      rcases List.mem_cons.mp hx with h | h
      · subst h
        exact List.mem_cons_self x t
      · exact List.mem_cons_of_mem v (ih x h)

theorem takeUntilGe_true (n : Nat) : ∀ (l : List Nat), (takeUntilGe n l).2 = true →
    ∃ init v, (takeUntilGe n l).1 = init ++ [v] ∧ n ≤ v ∧ ∀ x ∈ init, x < n := by
  intro l
  induction l with
  | nil =>
    intro hfl
    simp [takeUntilGe] at hfl
  | cons v t ih =>
    intro hfl
    simp only [takeUntilGe] at hfl ⊢
    by_cases hv : v ≥ n
    · rw [if_pos hv]
      rw [if_pos hv] at hfl
      exact ⟨[], v, rfl, hv, fun x hx => absurd hx (List.not_mem_nil x)⟩
    · rw [if_neg hv]
      rw [if_neg hv] at hfl
      obtain ⟨init, w, h1, h2, h3⟩ := ih hfl
      refine ⟨v :: init, w, ?_, h2, ?_⟩
      · simp only [List.cons_append]
        rw [h1]
      · intro x hx
        rcases List.mem_cons.mp hx with h4 | h4
        · subst h4
          omega
        · exact h3 x h4

theorem takeUntilGe_false (n : Nat) : ∀ (l : List Nat), (takeUntilGe n l).2 = false →
    (takeUntilGe n l).1 = l ∧ ∀ x ∈ l, x < n := by
  intro l
  induction l with
  | nil =>
    intro _
    exact ⟨rfl, fun x hx => absurd hx (List.not_mem_nil x)⟩
  | cons v t ih =>
    intro hfl
    simp only [takeUntilGe] at hfl ⊢
    by_cases hv : v ≥ n
    · rw [if_pos hv] at hfl
      cases hfl
    · rw [if_neg hv] at hfl ⊢
      obtain ⟨h1, h2⟩ := ih hfl
      refine ⟨by rw [h1], ?_⟩
      intro x hx
      rcases List.mem_cons.mp hx with h3 | h3
      · subst h3
        omega
      · exact h2 x h3

theorem takeUntilGe_ne_nil (n : Nat) {l : List Nat} (h : l ≠ []) :
    (takeUntilGe n l).1 ≠ [] := by
  cases l with
  | nil => exact absurd rfl h
  | cons v t =>
    simp only [takeUntilGe]
    by_cases hv : v ≥ n
    · rw [if_pos hv]
      simp
    · rw [if_neg hv]
      simp

theorem takeUntilGe_len (n : Nat) : ∀ (l : List Nat),
    (takeUntilGe n l).1.length ≤ l.length := by
  intro l
  induction l with
  | nil => simp [takeUntilGe]
  | cons v t ih =>
    simp only [takeUntilGe]
    by_cases hv : v ≥ n
    · rw [if_pos hv]
      simp
    · rw [if_neg hv]
      simp only [List.length_cons]
      omega

theorem list_max_exists : ∀ (l : List Nat), l ≠ [] → ∃ m, m ∈ l ∧ ∀ x ∈ l, x ≤ m := by
  intro l
  induction l with
  | nil =>
    intro h
    exact absurd rfl h
  | cons v t ih =>
    intro _
    cases t with
    | nil =>
      refine ⟨v, List.mem_cons_self v [], ?_⟩
      intro x hx
      rcases List.mem_cons.mp hx with h | h
      · omega
      · cases h
    | cons w t2 =>
      obtain ⟨m, hm, hmax⟩ := ih (by simp)
      by_cases hv : v ≤ m
      · refine ⟨m, List.mem_cons_of_mem v hm, ?_⟩
        intro x hx
        rcases List.mem_cons.mp hx with h | h
        · omega
        · exact hmax x h
      · refine ⟨v, List.mem_cons_self v _, ?_⟩
        intro x hx
        rcases List.mem_cons.mp hx with h | h
        · omega
        · have := hmax x h
          omega

theorem cN_set : ∀ (l : List VertexState) (k : Nat) (x y : VertexState),
    l.get? k = some x → cN (l.set k y) + vstNone x = cN l + vstNone y := by
  intro l
  induction l with
  | nil =>
    intro k x y h
    simp at h
  | cons z t ih =>
    intro k x y h
    cases k with
    | zero =>
      simp only [List.get?_cons_zero] at h
      cases h
      simp only [List.set_cons_zero, cN, List.map_cons, List.sum_cons]
      omega
    | succ j =>
      simp only [List.get?_cons_succ] at h
      simp only [List.set_cons_succ, cN, List.map_cons, List.sum_cons]
      have := ih j x y h
      simp only [cN] at this
      omega

theorem cC_set : ∀ (l : List VertexState) (k : Nat) (x y : VertexState),
    l.get? k = some x → cC (l.set k y) + vstCache x = cC l + vstCache y := by
  intro l
  induction l with
  | nil =>
    intro k x y h
    simp at h
  | cons z t ih =>
    intro k x y h
    cases k with
    | zero =>
      simp only [List.get?_cons_zero] at h
      cases h
      simp only [List.set_cons_zero, cC, List.map_cons, List.sum_cons]
      omega
    | succ j =>
      simp only [List.get?_cons_succ] at h
      simp only [List.set_cons_succ, cC, List.map_cons, List.sum_cons]
      have := ih j x y h
      simp only [cC] at this
      omega

theorem vstNone_le (v : VertexState) : vstNone v ≤ 1 := by
  cases v <;> simp [vstNone]

theorem vstCache_le (v : VertexState) : vstCache v ≤ 1 := by
  cases v <;> simp [vstCache]

theorem cN_le_length (l : List VertexState) : cN l ≤ l.length := by
  induction l with
  | nil => simp [cN]
  | cons v t ih =>
    simp only [cN, List.map_cons, List.sum_cons, List.length_cons]
    have := vstNone_le v
    simp only [cN] at ih
    omega

theorem cC_le_length (l : List VertexState) : cC l ≤ l.length := by
  induction l with
  | nil => simp [cC]
  | cons v t ih =>
    simp only [cC, List.map_cons, List.sum_cons, List.length_cons]
    have := vstCache_le v
    simp only [cC] at ih
    omega

theorem cN_replicate (n : Nat) : cN (List.replicate n .None) = n := by
  induction n with
  | zero => rfl
  | succ m ih =>
    simp only [List.replicate, cN, List.map_cons, List.sum_cons]
    simp only [cN] at ih
    simp [vstNone, ih]
    omega

theorem cC_replicate (n : Nat) : cC (List.replicate n .None) = 0 := by
  induction n with
  | zero => rfl
  | succ m ih =>
    simp only [List.replicate, cC, List.map_cons, List.sum_cons]
    simp only [cC] at ih
    simp [vstCache, ih]

theorem takeB_dropB_boundary {s : Str} : ∀ {k : Nat}, isBoundary s k = true →
    takeB s k ++ dropB s k = s ∧ byteLen (takeB s k) = k := by
  induction s with
  | nil =>
    intro k h
    cases k with
    | zero => exact ⟨rfl, rfl⟩
    | succ m => simp [isBoundary] at h
  | cons c t ih =>
    intro k h
    cases k with
    | zero =>
      rw [takeB_zero, dropB_zero]
      exact ⟨rfl, rfl⟩
    | succ m =>
      rw [isBoundary_cons_pos c t (Nat.succ_pos m)] at h
      by_cases hlt : m + 1 < charLen c
      · rw [if_pos hlt] at h
        cases h
      · rw [if_neg hlt] at h
        obtain ⟨h1, h2⟩ := ih h
        rw [takeB_cons_pos c t (Nat.succ_pos m), if_neg hlt,
          dropB_cons_pos c t (Nat.succ_pos m)]
        constructor
        · rw [List.cons_append, h1]
        · simp only [byteLen, h2]
          have := charLen_pos c
          omega

theorem boundary_append (A R : Str) (k : Nat) :
    isBoundary (A ++ R) (byteLen A + k) = isBoundary R k := by
  induction A with
  | nil => simp [byteLen]
  | cons c t ih =>
    have hc := charLen_pos c
    have hpos : 0 < byteLen (c :: t) + k := by
      simp only [byteLen]
      omega
    rw [List.cons_append, isBoundary_cons_pos c (t ++ R) hpos]
    have h1 : ¬ byteLen (c :: t) + k < charLen c := by
      simp only [byteLen]
      omega
    rw [if_neg h1]
    have h2 : byteLen (c :: t) + k - charLen c = byteLen t + k := by
      simp only [byteLen]
      omega
    rw [h2]
    exact ih

theorem takeB_append_add (A R : Str) (k : Nat) :
    takeB (A ++ R) (byteLen A + k) = A ++ takeB R k := by
  induction A with
  | nil => simp [byteLen]
  | cons c t ih =>
    have hc := charLen_pos c
    have hpos : 0 < byteLen (c :: t) + k := by
      simp only [byteLen]
      omega
    rw [List.cons_append, takeB_cons_pos c (t ++ R) hpos]
    have h1 : ¬ byteLen (c :: t) + k < charLen c := by
      simp only [byteLen]
      omega
    rw [if_neg h1]
    have h2 : byteLen (c :: t) + k - charLen c = byteLen t + k := by
      simp only [byteLen]
      omega
    rw [h2, ih, List.cons_append]

theorem dropB_append_add (A R : Str) (k : Nat) :
    dropB (A ++ R) (byteLen A + k) = dropB R k := by
  induction A with
  | nil => simp [byteLen]
  | cons c t ih =>
    have hc := charLen_pos c
    have hpos : 0 < byteLen (c :: t) + k := by
      simp only [byteLen]
      omega
    rw [List.cons_append, dropB_cons_pos c (t ++ R) hpos]
    have h2 : byteLen (c :: t) + k - charLen c = byteLen t + k := by
      simp only [byteLen]
      omega
    rw [h2]
    exact ih

theorem boundary_sub {s : Str} {a b : Nat} (ha : isBoundary s a = true)
    (hb : isBoundary s b = true) (hab : a ≤ b) :
    isBoundary (dropB s a) (b - a) = true := by
  obtain ⟨hsplit, hlenA⟩ := takeB_dropB_boundary ha
  have h1 : isBoundary (takeB s a ++ dropB s a) (byteLen (takeB s a) + (b - a)) =
      isBoundary (dropB s a) (b - a) := boundary_append _ _ _
  rw [hsplit, hlenA] at h1
  have h2 : a + (b - a) = b := by omega
  rw [h2] at h1
  rw [← h1]
  exact hb

theorem byteLen_sliceB {s : Str} {a b : Nat} (ha : isBoundary s a = true)
    (hb : isBoundary s b = true) (hab : a ≤ b) :
    byteLen (sliceB s a b) = b - a := by
  unfold sliceB
  exact (takeB_dropB_boundary (boundary_sub ha hb hab)).2

theorem sliceB_ne_nil {s : Str} {a b : Nat} (ha : isBoundary s a = true)
    (hb : isBoundary s b = true) (hab : a < b) : sliceB s a b ≠ [] := by
  intro hnil
  have := byteLen_sliceB ha hb (Nat.le_of_lt hab)
  rw [hnil] at this
  simp only [byteLen] at this
  omega

theorem sliceChk_ok {s : Str} {a b : Nat} (ha : isBoundary s a = true)
    (hb : isBoundary s b = true) (hab : a ≤ b) :
    sliceChk s a b = some (sliceB s a b) := by
  unfold sliceChk
  rw [if_pos ⟨hab, ha, hb⟩]

theorem sliceB_append_adj {s : Str} {a b c : Nat} (ha : isBoundary s a = true)
    (hb : isBoundary s b = true) (hc : isBoundary s c = true)
    (hab : a ≤ b) (hbc : b ≤ c) :
    sliceB s a b ++ sliceB s b c = sliceB s a c := by
  obtain ⟨hsplit, hlenA⟩ := takeB_dropB_boundary ha
  have hbR : isBoundary (dropB s a) (b - a) = true := boundary_sub ha hb hab
  obtain ⟨hsplitR, hlenB⟩ := takeB_dropB_boundary hbR
  have hdb : dropB s b = dropB (dropB s a) (b - a) := by
    have h1 : b = byteLen (takeB s a) + (b - a) := by
      rw [hlenA]
      omega
    conv =>
      lhs
      rw [← hsplit, h1, dropB_append_add]
  have hslab : sliceB s a b = takeB (dropB s a) (b - a) := rfl
  have hslac : sliceB s a c = takeB (dropB s a) (c - a) := rfl
  have hslbc : sliceB s b c = takeB (dropB s b) (c - b) := rfl
  rw [hslab, hslac, hslbc, hdb]
  conv =>
    rhs
    rw [← hsplitR]
  have h2 : c - a = byteLen (takeB (dropB s a) (b - a)) + (c - b) := by
    rw [hlenB]
    omega
  rw [h2, takeB_append_add]

theorem takeB_all (s : Str) : takeB s (byteLen s) = s := by
  have := takeB_append s []
  simpa using this

theorem sliceB_zero_all (s : Str) : sliceB s 0 (byteLen s) = s := by
  unfold sliceB
  rw [dropB_zero, Nat.sub_zero, takeB_all]

theorem get?_lt_length {α : Type} {l : List α} {j : Nat} {e : α}
    (h : l.get? j = some e) : j < l.length := by
  by_contra hle
  rw [List.get?_eq_none.mpr (by omega)] at h
  cases h

theorem get?_set_ne {α : Type} : ∀ {l : List α} {k o : Nat} (y : α), k ≠ o →
    (l.set k y).get? o = l.get? o := by
  intro l
  induction l with
  | nil =>
    intro k o y _
    simp
  | cons x t ih =>
    intro k o y hne
    cases k with
    | zero =>
      cases o with
      | zero => exact absurd rfl hne
      | succ j => simp
    | succ m =>
      cases o with
      | zero => simp
      | succ j =>
        simp only [List.set_cons_succ, List.get?_cons_succ]
        exact ih y (by omega)

theorem get?_set_self {α : Type} : ∀ {l : List α} {k : Nat} (y : α), k < l.length →
    (l.set k y).get? k = some y := by
  intro l
  induction l with
  | nil =>
    intro k y h
    simp at h
  | cons x t ih =>
    intro k y h
    cases k with
    | zero => rfl
    | succ m =>
      simp only [List.set_cons_succ, List.get?_cons_succ]
      exact ih y (by simpa using h)

theorem QChain_append {text : Str} {queue : List QE} {i0 : Nat} {q : QE}
    (news : List QE) (hq : queue.get? i0 = some q) (hc : QChain text queue)
    (hnew : ∀ e ∈ news, e.back = i0 ∧ q.off < e.off ∧
      isBoundary text e.off = true ∧ e.off ≤ byteLen text) :
    QChain text (queue ++ news) := by
  have hi0 : i0 < queue.length := get?_lt_length hq
  intro j e hj
  by_cases hjl : j < queue.length
  · rw [List.get?_append hjl] at hj
    obtain ⟨h1, h2, h3, h4⟩ := hc j e hj
    refine ⟨h1, h2, h3, ?_⟩
    intro hjpos
    obtain ⟨h5, pe, h6, h7⟩ := h4 hjpos
    exact ⟨h5, pe, by rw [List.get?_append (by omega)]; exact h6, h7⟩
  · rw [List.get?_append_right (by omega)] at hj
    have hmem : e ∈ news := List.get?_mem hj
    obtain ⟨h1, h2, h3, h4⟩ := hnew e hmem
    refine ⟨h3, h4, by omega, ?_⟩
    intro _
    exact ⟨by omega, q, by rw [h1, List.get?_append hi0]; exact hq, h2⟩

/-- Specification of the checked consume_unknown at an interior boundary:
it succeeds, lands strictly forward on a boundary at most the text length,
and the cached branch list is a strictly increasing list of boundary offsets
beyond the landing point which is non-empty whenever the landing point is
interior. -/
theorem consumeUnknown_spec {dict : List SizedNode} (hwf : WfSForest dict)
    {text : Str} {u : Nat} (hb : isBoundary text u = true)
    (hu : u < byteLen text) :
    ∃ p rs, consumeUnknownChk dict text u = some (p, rs) ∧ u < p ∧
      p ≤ byteLen text ∧ isBoundary text p = true ∧
      List.Chain' (fun a b => a < b) rs ∧
      (∀ v ∈ rs, p < v ∧ v ≤ byteLen text ∧ isBoundary text v = true) ∧
      (p < byteLen text → rs ≠ []) := by
  obtain ⟨p, rs, hcu, hle, hbp, hne2, hrs1, hrs2, hmin⟩ :=
    cuGo_spec dict text (dropB text u) u hb rfl
  have hsufne : dropB text u ≠ [] := dropB_ne_nil_of_lt hb hu
  have hcu2 : consumeUnknownChk dict text u = some (p, rs) := by
    unfold consumeUnknownChk suffixChk
    rw [hb]
    exact hcu
  have hup : u < p := hne2 hsufne
  by_cases hrse : rs = []
  · subst hrse
    refine ⟨p, [], hcu2, hup, isBoundary_le hbp, hbp, List.chain'_nil, ?_, ?_⟩
    · intro v hv
      cases hv
    · intro hpn
      have := hrs2 rfl
      omega
  · obtain ⟨rs', htp', hch', hprops'⟩ := tpAt_spec hwf hbp
    have hre : rs' = rs := Option.some.inj (htp'.symm.trans (hrs1 hrse))
    subst hre
    exact ⟨p, rs', hcu2, hup, isBoundary_le hbp, hbp, hch', hprops', fun _ => hrse⟩

theorem MMInv.i_lt {text : Str} {s : MMState} (inv : MMInv text s)
    (hne : s.notEnded = true) : s.i < s.queue.length := by
  by_contra hge
  have hqne : s.queue.map QE.off ≠ [] := by
    intro hnil
    have h1 := List.map_eq_nil.mp hnil
    have h2 := inv.qne
    rw [h1] at h2
    simp at h2
  obtain ⟨m, hmem, hmax⟩ := list_max_exists (s.queue.map QE.off) hqne
  obtain ⟨e, hemem, hoff⟩ := List.mem_map.mp hmem
  obtain ⟨j, hj⟩ := List.get?_of_mem hemem
  have hjlt : j < s.queue.length := get?_lt_length hj
  obtain ⟨k, e2, hk, hlt⟩ := inv.gen hne j (by omega) e hj
  have hmem2 : e2.off ∈ s.queue.map QE.off :=
    List.mem_map_of_mem QE.off (List.get?_mem hk)
  have := hmax e2.off hmem2
  omega

theorem get?_concat_last {α : Type} : ∀ (l : List α) (x : α),
    (l ++ [x]).get? l.length = some x := by
  intro l
  induction l with
  | nil => intro x; rfl
  | cons y t ih =>
    intro x
    simp only [List.cons_append, List.length_cons, List.get?_cons_succ]
    exact ih x

/-- Queue-side facts common to the two branch-pushing arms of the search
loop: pushing the takeUntilGe clamp of a strictly forward branch list keeps
every worklist invariant, yields a witness record beyond the expanded
vertex, and produces the exit shape when the end of the text was reached. -/
theorem queue_push_facts {text : Str} {s : MMState} {q : QE} (inv : MMInv text s)
    (hne : s.notEnded = true) (hq : s.queue.get? s.i = some q) (cs : List Nat)
    (hcsne : cs ≠ [])
    (hcsp : ∀ v ∈ cs, q.off < v ∧ v ≤ byteLen text ∧ isBoundary text v = true) :
    0 < (s.queue ++ (takeUntilGe (byteLen text) cs).1.map fun v =>
        QE.mk s.i v q.unk).length ∧
    (s.queue ++ (takeUntilGe (byteLen text) cs).1.map fun v =>
        QE.mk s.i v q.unk).get? 0 = some ⟨0, 0, 0⟩ ∧
    s.i + 1 ≤ (s.queue ++ (takeUntilGe (byteLen text) cs).1.map fun v =>
        QE.mk s.i v q.unk).length ∧
    QChain text (s.queue ++ (takeUntilGe (byteLen text) cs).1.map fun v =>
        QE.mk s.i v q.unk) ∧
    ((takeUntilGe (byteLen text) cs).2 = false → ∀ j e,
      (s.queue ++ (takeUntilGe (byteLen text) cs).1.map fun v =>
        QE.mk s.i v q.unk).get? j = some e → e.off < byteLen text) ∧
    (∃ e0, (s.queue ++ (takeUntilGe (byteLen text) cs).1.map fun v =>
        QE.mk s.i v q.unk).get? s.queue.length = some e0 ∧ q.off < e0.off) ∧
    (∀ j, j < s.i + 1 → ∀ e,
      (s.queue ++ (takeUntilGe (byteLen text) cs).1.map fun v =>
        QE.mk s.i v q.unk).get? j = some e →
      ∃ k e2, (s.queue ++ (takeUntilGe (byteLen text) cs).1.map fun v =>
        QE.mk s.i v q.unk).get? k = some e2 ∧ e.off < e2.off) ∧
    ((takeUntilGe (byteLen text) cs).2 = true →
      (∃ lastE, (s.queue ++ (takeUntilGe (byteLen text) cs).1.map fun v =>
          QE.mk s.i v q.unk).get?
          ((s.queue ++ (takeUntilGe (byteLen text) cs).1.map fun v =>
            QE.mk s.i v q.unk).length - 1) = some lastE ∧
          lastE.off = byteLen text) ∧
      (∀ j e, j < (s.queue ++ (takeUntilGe (byteLen text) cs).1.map fun v =>
          QE.mk s.i v q.unk).length - 1 →
        (s.queue ++ (takeUntilGe (byteLen text) cs).1.map fun v =>
          QE.mk s.i v q.unk).get? j = some e → e.off < byteLen text)) ∧
    (s.queue ++ (takeUntilGe (byteLen text) cs).1.map fun v =>
        QE.mk s.i v q.unk).length =
      s.queue.length + (takeUntilGe (byteLen text) cs).1.length := by
  have hi := inv.i_lt hne
  have htu_sub := takeUntilGe_sub (byteLen text) cs
  have htu_ne := takeUntilGe_ne_nil (byteLen text) hcsne
  have hnews : ∀ e ∈ (takeUntilGe (byteLen text) cs).1.map fun v =>
      QE.mk s.i v q.unk, e.back = s.i ∧ q.off < e.off ∧
      isBoundary text e.off = true ∧ e.off ≤ byteLen text := by
    intro e he
    obtain ⟨v, hv, hev⟩ := List.mem_map.mp he
    have hvc := hcsp v (htu_sub v hv)
    rw [← hev]
    exact ⟨rfl, hvc.1, hvc.2.2, hvc.2.1⟩
  have hlen2 : (s.queue ++ (takeUntilGe (byteLen text) cs).1.map fun v =>
      QE.mk s.i v q.unk).length =
      s.queue.length + (takeUntilGe (byteLen text) cs).1.length := by
    simp
  have hfirst : ∃ e0, (s.queue ++ (takeUntilGe (byteLen text) cs).1.map fun v =>
      QE.mk s.i v q.unk).get? s.queue.length = some e0 ∧ q.off < e0.off := by
    cases htu1 : (takeUntilGe (byteLen text) cs).1 with
    | nil => exact absurd htu1 htu_ne
    | cons v0 t0 =>
      refine ⟨QE.mk s.i v0 q.unk, ?_, ?_⟩
      · rw [List.get?_append_right (Nat.le_refl _), Nat.sub_self]
        rfl
      · have hv0 : v0 ∈ cs := htu_sub v0 (by rw [htu1]; exact List.mem_cons_self v0 t0)
        exact (hcsp v0 hv0).1
  refine ⟨?_, ?_, ?_, ?_, ?_, hfirst, ?_, ?_, hlen2⟩
  · rw [hlen2]
    have := inv.qne
    omega
  · rw [List.get?_append inv.qne]
    exact inv.q0
  · rw [hlen2]
    omega
  · exact QChain_append _ hq inv.chain hnews
  · intro hfl j e hj
    obtain ⟨heq, hall⟩ := takeUntilGe_false (byteLen text) cs hfl
    by_cases hjl : j < s.queue.length
    · rw [List.get?_append hjl] at hj
      exact inv.offlt hne j e hj
    · rw [List.get?_append_right (by omega)] at hj
      have hmem : e ∈ (takeUntilGe (byteLen text) cs).1.map fun v =>
          QE.mk s.i v q.unk := List.get?_mem hj
      obtain ⟨v, hv, hev⟩ := List.mem_map.mp hmem
      rw [← hev]
      rw [heq] at hv
      exact hall v hv
  · intro j hji e hj
    by_cases hjlt : j < s.i
    · rw [List.get?_append (by omega)] at hj
      obtain ⟨k, e2, hk, hlt⟩ := inv.gen hne j hjlt e hj
      have hkl := get?_lt_length hk
      exact ⟨k, e2, by rw [List.get?_append hkl]; exact hk, hlt⟩
    · have hjeq : j = s.i := by omega
      subst hjeq
      rw [List.get?_append hi] at hj
      have heq : e = q := Option.some.inj (hj.symm.trans hq)
      subst heq
      obtain ⟨e0, he0, hlt0⟩ := hfirst
      exact ⟨s.queue.length, e0, he0, hlt0⟩
  · intro hfl
    obtain ⟨init, v, htu1, hnv, hinit⟩ := takeUntilGe_true (byteLen text) cs hfl
    have hvmem : v ∈ cs := htu_sub v (by rw [htu1]; simp)
    have hveq : v = byteLen text := by
      have := (hcsp v hvmem).2.1
      omega
    have hmap : ((takeUntilGe (byteLen text) cs).1.map fun w => QE.mk s.i w q.unk) =
        (init.map fun w => QE.mk s.i w q.unk) ++ [QE.mk s.i v q.unk] := by
      rw [htu1, List.map_append]
      rfl
    have hassoc : s.queue ++ ((takeUntilGe (byteLen text) cs).1.map fun w =>
        QE.mk s.i w q.unk) =
        (s.queue ++ init.map fun w => QE.mk s.i w q.unk) ++ [QE.mk s.i v q.unk] := by
      rw [hmap, List.append_assoc]
    have hplen : (s.queue ++ init.map fun w => QE.mk s.i w q.unk).length =
        s.queue.length + init.length := by
      simp
    have hlast_idx : (s.queue ++ (takeUntilGe (byteLen text) cs).1.map fun w =>
        QE.mk s.i w q.unk).length - 1 = s.queue.length + init.length := by
      rw [hlen2, htu1]
      simp
    constructor
    · refine ⟨QE.mk s.i v q.unk, ?_, hveq⟩
      rw [hlast_idx, hassoc, ← hplen]
      exact get?_concat_last _ _
    · intro j e hjl hj
      rw [hlast_idx] at hjl
      rw [hassoc] at hj
      rw [List.get?_append (by rw [hplen]; omega)] at hj
      by_cases hjq : j < s.queue.length
      · rw [List.get?_append hjq] at hj
        exact inv.offlt hne j e hj
      · rw [List.get?_append_right (by omega)] at hj
        have hmem : e ∈ init.map fun w => QE.mk s.i w q.unk := List.get?_mem hj
        obtain ⟨w, hw, hew⟩ := List.mem_map.mp hmem
        rw [← hew]
        exact hinit w hw

theorem mmA_pos (text : Str) : 0 < mmA text := by
  unfold mmA
  omega

theorem mmA_gt_len (text : Str) : byteLen text < mmA text := by
  unfold mmA
  omega

theorem mmA_le_sq (text : Str) : mmA text ≤ mmA text * mmA text :=
  Nat.le_mul_of_pos_left (mmA text) (mmA_pos text)

theorem mmA_lt_sq (text : Str) : mmA text < mmA text * mmA text := by
  have h2 : 2 ≤ mmA text := by
    unfold mmA
    omega
  nlinarith

/-- Processing a record of an already expanded vertex only advances the
worklist cursor and keeps every invariant. -/
theorem preserve_expanded {dict : List SizedNode} {text : Str} {s : MMState}
    {q : QE} {vs : List Nat} (inv : MMInv text s) (hne : s.notEnded = true)
    (hq : s.queue.get? s.i = some q)
    (hv : s.vertices.get? q.off = some (VertexState.Some vs)) :
    step dict text s = .ok (.goOn { s with i := s.i + 1 }) ∧
    MMInv text { s with i := s.i + 1 } ∧
    mmMeasure text { s with i := s.i + 1 } < mmMeasure text s := by
  have hi := inv.i_lt hne
  refine ⟨step_expanded dict text s q vs hq hv, ?_, ?_⟩
  · refine ⟨inv.vlen, inv.qne, inv.q0, ?_, inv.chain, fun h => inv.offlt h, ?_,
      fun h => inv.expanded h, inv.cache⟩
    · show s.i + 1 ≤ s.queue.length
      omega
    · intro h j hji e hj
      have hji2 : j < s.i + 1 := hji
      by_cases hjlt : j < s.i
      · exact inv.gen h j hjlt e hj
      · have hjeq : j = s.i := by omega
        subst hjeq
        have heq : e = q := Option.some.inj (hj.symm.trans hq)
        subst heq
        exact inv.expanded h e.off vs hv
  · show cN s.vertices * (mmA text * mmA text) + cC s.vertices * mmA text +
      (s.queue.length - (s.i + 1)) <
      cN s.vertices * (mmA text * mmA text) + cC s.vertices * mmA text +
      (s.queue.length - s.i)
    have hr : s.queue.length - (s.i + 1) < s.queue.length - s.i := by omega
    omega

/-- Expanding an Unvisited vertex with a non-empty branch list pushes the
clamped branch records, keeps every invariant, strictly decreases the
measure, and yields the exit shape when the end of the text was reached. -/
theorem preserve_known {dict : List SizedNode} {text : Str} {s : MMState}
    {q : QE} {branches : List Nat} (inv : MMInv text s) (hne : s.notEnded = true)
    (hq : s.queue.get? s.i = some q)
    (hv : s.vertices.get? q.off = some VertexState.None)
    (htp : terminalsPrefixAt dict text q.off = some branches)
    (hbr : branches ≠ [])
    (hch : List.Chain' (fun a b => a < b) branches)
    (hprops : ∀ v ∈ branches, q.off < v ∧ v ≤ byteLen text ∧
      isBoundary text v = true) :
    ∃ s2, step dict text s = .ok (.goOn s2) ∧ MMInv text s2 ∧
      mmMeasure text s2 < mmMeasure text s ∧
      (s2.notEnded = false → MMEnd text s2) := by
  have hi := inv.i_lt hne
  have hqoff := inv.offlt hne s.i q hq
  obtain ⟨hp1, hp2, hp3, hp4, hp5, hp6, hp7, hp8, hp9⟩ :=
    queue_push_facts inv hne hq branches hbr hprops
  refine ⟨_, step_none_known dict text s q branches hq hv htp hbr, ?_, ?_, ?_⟩
  · refine ⟨?_, hp1, hp2, hp3, hp4, ?_, ?_, ?_, ?_⟩
    · show (s.vertices.set q.off _).length = byteLen text
      rw [List.length_set]
      exact inv.vlen
    · intro h
      have htf : (takeUntilGe (byteLen text) branches).2 = false := by
        have h2 : (!(takeUntilGe (byteLen text) branches).2) = true := h
        cases h3 : (takeUntilGe (byteLen text) branches).2
        · rfl
        · rw [h3] at h2
          simp at h2
      exact hp5 htf
    · intro _ j hji e hj
      exact hp7 j hji e hj
    · intro _ o vs2 hv2
      by_cases ho : o = q.off
      · subst ho
        obtain ⟨e0, he0, hlt0⟩ := hp6
        exact ⟨s.queue.length, e0, he0, hlt0⟩
      · have hv3 : s.vertices.get? o = some (VertexState.Some vs2) := by
          rw [← get?_set_ne (l := s.vertices)
            (k := q.off) (o := o) (VertexState.Some
              (takeUntilGe (byteLen text) branches).1) (fun hc => ho hc.symm)]
          exact hv2
        obtain ⟨k, e2, hk, hlt⟩ := inv.expanded hne o vs2 hv3
        exact ⟨k, e2, by rw [List.get?_append (get?_lt_length hk)]; exact hk, hlt⟩
    · intro o cs2 hc2
      by_cases ho : o = q.off
      · subst ho
        rw [get?_set_self _ (by rw [inv.vlen]; exact hqoff)] at hc2
        exact VertexState.noConfusion (Option.some.inj hc2)
      · have hv3 : s.vertices.get? o = some (VertexState.Cache cs2) := by
          rw [← get?_set_ne (l := s.vertices)
            (k := q.off) (o := o) (VertexState.Some
              (takeUntilGe (byteLen text) branches).1) (fun hc => ho hc.symm)]
          exact hc2
        exact inv.cache o cs2 hv3
  · have hkn1 : branches.length ≤ byteLen text - q.off :=
      chain_lt_length_le branches q.off (byteLen text) hch
        (fun v hv2 => (hprops v hv2).1) (fun v hv2 => (hprops v hv2).2.1)
    have hk : (takeUntilGe (byteLen text) branches).1.length ≤ byteLen text := by
      have := takeUntilGe_len (byteLen text) branches
      omega
    have hcn := cN_set s.vertices q.off VertexState.None
      (VertexState.Some (takeUntilGe (byteLen text) branches).1) hv
    have hcc := cC_set s.vertices q.off VertexState.None
      (VertexState.Some (takeUntilGe (byteLen text) branches).1) hv
    simp only [vstNone, vstCache] at hcn hcc
    show cN (s.vertices.set q.off _) * (mmA text * mmA text) +
      cC (s.vertices.set q.off _) * mmA text +
      ((s.queue ++ (takeUntilGe (byteLen text) branches).1.map fun v =>
        QE.mk s.i v q.unk).length - (s.i + 1)) <
      cN s.vertices * (mmA text * mmA text) + cC s.vertices * mmA text +
      (s.queue.length - s.i)
    rw [hp9]
    have hsum : cN s.vertices = cN (s.vertices.set q.off
        (VertexState.Some (takeUntilGe (byteLen text) branches).1)) + 1 := by
      omega
    have e1 : cN s.vertices * (mmA text * mmA text) =
        cN (s.vertices.set q.off
          (VertexState.Some (takeUntilGe (byteLen text) branches).1)) *
          (mmA text * mmA text) + mmA text * mmA text := by
      rw [hsum]
      ring
    have e2 : cC (s.vertices.set q.off
        (VertexState.Some (takeUntilGe (byteLen text) branches).1)) =
        cC s.vertices := by
      omega
    rw [e1, e2]
    have hnB : byteLen text < mmA text * mmA text :=
      Nat.lt_of_lt_of_le (mmA_gt_len text) (mmA_le_sq text)
    omega
  · intro hf
    have htf : (takeUntilGe (byteLen text) branches).2 = true := by
      have h2 : (!(takeUntilGe (byteLen text) branches).2) = false := hf
      cases h3 : (takeUntilGe (byteLen text) branches).2
      · rw [h3] at h2
        simp at h2
      · rfl
    obtain ⟨hlastE, hsmall⟩ := hp8 htf
    refine ⟨?_, ?_, hp2, hp4, hlastE, hsmall⟩
    · show (s.vertices.set q.off _).length = byteLen text
      rw [List.length_set]
      exact inv.vlen
    · show 2 ≤ (s.queue ++ (takeUntilGe (byteLen text) branches).1.map fun v =>
        QE.mk s.i v q.unk).length
      rw [hp9]
      have h1 : 0 < (takeUntilGe (byteLen text) branches).1.length :=
        List.length_pos.mpr (takeUntilGe_ne_nil _ hbr)
      have := inv.qne
      omega

/-- Expanding a Cached vertex pushes the clamped cached records, keeps every
invariant, strictly decreases the measure, and yields the exit shape when
the end of the text was reached. -/
theorem preserve_cached {dict : List SizedNode} {text : Str} {s : MMState}
    {q : QE} {cs : List Nat} (inv : MMInv text s) (hne : s.notEnded = true)
    (hq : s.queue.get? s.i = some q)
    (hv : s.vertices.get? q.off = some (VertexState.Cache cs)) :
    ∃ s2, step dict text s = .ok (.goOn s2) ∧ MMInv text s2 ∧
      mmMeasure text s2 < mmMeasure text s ∧
      (s2.notEnded = false → MMEnd text s2) := by
  have hi := inv.i_lt hne
  have hqoff := inv.offlt hne s.i q hq
  obtain ⟨hcsne, hcsch, hcsp⟩ := inv.cache q.off cs hv
  obtain ⟨hp1, hp2, hp3, hp4, hp5, hp6, hp7, hp8, hp9⟩ :=
    queue_push_facts inv hne hq cs hcsne hcsp
  refine ⟨_, step_cache dict text s q cs hq hv, ?_, ?_, ?_⟩
  · refine ⟨?_, hp1, hp2, hp3, hp4, ?_, ?_, ?_, ?_⟩
    · show (s.vertices.set q.off _).length = byteLen text
      rw [List.length_set]
      exact inv.vlen
    · intro h
      have htf : (takeUntilGe (byteLen text) cs).2 = false := by
        have h2 : (!(takeUntilGe (byteLen text) cs).2) = true := h
        cases h3 : (takeUntilGe (byteLen text) cs).2
        · rfl
        · rw [h3] at h2
          simp at h2
      exact hp5 htf
    · intro _ j hji e hj
      exact hp7 j hji e hj
    · intro _ o vs2 hv2
      by_cases ho : o = q.off
      · subst ho
        obtain ⟨e0, he0, hlt0⟩ := hp6
        exact ⟨s.queue.length, e0, he0, hlt0⟩
      · have hv3 : s.vertices.get? o = some (VertexState.Some vs2) := by
          rw [← get?_set_ne (l := s.vertices)
            (k := q.off) (o := o) (VertexState.Some cs) (fun hc => ho hc.symm)]
          exact hv2
        obtain ⟨k, e2, hk, hlt⟩ := inv.expanded hne o vs2 hv3
        exact ⟨k, e2, by rw [List.get?_append (get?_lt_length hk)]; exact hk, hlt⟩
    · intro o cs2 hc2
      by_cases ho : o = q.off
      · subst ho
        rw [get?_set_self _ (by rw [inv.vlen]; exact hqoff)] at hc2
        exact VertexState.noConfusion (Option.some.inj hc2)
      · have hv3 : s.vertices.get? o = some (VertexState.Cache cs2) := by
          rw [← get?_set_ne (l := s.vertices)
            (k := q.off) (o := o) (VertexState.Some cs) (fun hc => ho hc.symm)]
          exact hc2
        exact inv.cache o cs2 hv3
  · have hkn1 : cs.length ≤ byteLen text - q.off :=
      chain_lt_length_le cs q.off (byteLen text) hcsch
        (fun v hv2 => (hcsp v hv2).1) (fun v hv2 => (hcsp v hv2).2.1)
    have hk : (takeUntilGe (byteLen text) cs).1.length ≤ byteLen text := by
      have := takeUntilGe_len (byteLen text) cs
      omega
    have hcn := cN_set s.vertices q.off (VertexState.Cache cs)
      (VertexState.Some cs) hv
    have hcc := cC_set s.vertices q.off (VertexState.Cache cs)
      (VertexState.Some cs) hv
    simp only [vstNone, vstCache] at hcn hcc
    show cN (s.vertices.set q.off _) * (mmA text * mmA text) +
      cC (s.vertices.set q.off _) * mmA text +
      ((s.queue ++ (takeUntilGe (byteLen text) cs).1.map fun v =>
        QE.mk s.i v q.unk).length - (s.i + 1)) <
      cN s.vertices * (mmA text * mmA text) + cC s.vertices * mmA text +
      (s.queue.length - s.i)
    rw [hp9]
    have e1 : cN (s.vertices.set q.off (VertexState.Some cs)) = cN s.vertices := by
      omega
    have hsum : cC s.vertices = cC (s.vertices.set q.off (VertexState.Some cs)) + 1 := by
      omega
    have e2 : cC s.vertices * mmA text =
        cC (s.vertices.set q.off (VertexState.Some cs)) * mmA text + mmA text := by
      rw [hsum]
      ring
    rw [e1, e2]
    have hnA : byteLen text < mmA text := mmA_gt_len text
    omega
  · intro hf
    have htf : (takeUntilGe (byteLen text) cs).2 = true := by
      have h2 : (!(takeUntilGe (byteLen text) cs).2) = false := hf
      cases h3 : (takeUntilGe (byteLen text) cs).2
      · rw [h3] at h2
        simp at h2
      · rfl
    obtain ⟨hlastE, hsmall⟩ := hp8 htf
    refine ⟨?_, ?_, hp2, hp4, hlastE, hsmall⟩
    · show (s.vertices.set q.off _).length = byteLen text
      rw [List.length_set]
      exact inv.vlen
    · show 2 ≤ (s.queue ++ (takeUntilGe (byteLen text) cs).1.map fun v =>
        QE.mk s.i v q.unk).length
      rw [hp9]
      have h1 : 0 < (takeUntilGe (byteLen text) cs).1.length :=
        List.length_pos.mpr (takeUntilGe_ne_nil _ hcsne)
      have := inv.qne
      omega

theorem vstNone_none : vstNone VertexState.None = 1 := rfl

theorem vstNone_some (v : List Nat) : vstNone (VertexState.Some v) = 0 := rfl

theorem vstNone_cache (v : List Nat) : vstNone (VertexState.Cache v) = 0 := rfl

theorem vstCache_none : vstCache VertexState.None = 0 := rfl

theorem vstCache_some (v : List Nat) : vstCache (VertexState.Some v) = 0 := rfl

theorem vstCache_cache (v : List Nat) : vstCache (VertexState.Cache v) = 1 := rfl

/-- Expanding an Unvisited vertex with an empty branch list runs the unknown
isolation: the single forward record keeps every invariant; an interior
landing caches the collected branches and decreases the measure, a landing
at the end yields the exit shape through the trailing break. -/
theorem preserve_unknown {dict : List SizedNode} (hwf : WfSForest dict)
    {text : Str} {s : MMState} {q : QE} (inv : MMInv text s)
    (hne : s.notEnded = true) (hq : s.queue.get? s.i = some q)
    (hv : s.vertices.get? q.off = some VertexState.None)
    (htp : terminalsPrefixAt dict text q.off = some []) :
    (∃ s2, step dict text s = .ok (.goOn s2) ∧ MMInv text s2 ∧
      mmMeasure text s2 < mmMeasure text s ∧
      (s2.notEnded = false → MMEnd text s2)) ∨
    (∃ s2, step dict text s = .ok (.stopped s2) ∧ MMEnd text s2) := by
  have hi := inv.i_lt hne
  have hqoff := inv.offlt hne s.i q hq
  have hqb := (inv.chain s.i q hq).1
  obtain ⟨p, rs, hcu, hup, hpn, hbp, hch, hprops, hrsne⟩ :=
    consumeUnknown_spec hwf hqb hqoff
  have hstep := step_none_unknown dict text s q p rs hq hv htp hcu
  have hchain2 : QChain text
      (s.queue ++ [QE.mk s.i p (q.unk + (p - q.off))]) := by
    refine QChain_append _ hq inv.chain ?_
    intro e he
    rcases List.mem_singleton.mp he with he2
    rw [he2]
    exact ⟨rfl, hup, hbp, hpn⟩
  have hq02 : (s.queue ++ [QE.mk s.i p (q.unk + (p - q.off))]).get? 0 =
      some ⟨0, 0, 0⟩ := by
    rw [List.get?_append inv.qne]
    exact inv.q0
  have hlen2 : (s.queue ++ [QE.mk s.i p (q.unk + (p - q.off))]).length =
      s.queue.length + 1 := by
    simp
  have hlast2 : (s.queue ++ [QE.mk s.i p (q.unk + (p - q.off))]).get?
      s.queue.length = some (QE.mk s.i p (q.unk + (p - q.off))) :=
    get?_concat_last _ _
  by_cases hpge : p ≥ byteLen text
  · rw [if_pos hpge] at hstep
    right
    have hpeq : p = byteLen text := by omega
    refine ⟨_, hstep, ?_, ?_, hq02, hchain2, ?_, ?_⟩
    · show (s.vertices.set q.off _).length = byteLen text
      rw [List.length_set]
      exact inv.vlen
    · show 2 ≤ (s.queue ++ [QE.mk s.i p (q.unk + (p - q.off))]).length
      rw [hlen2]
      have := inv.qne
      omega
    · show ∃ lastE, (s.queue ++ [QE.mk s.i p (q.unk + (p - q.off))]).get?
        ((s.queue ++ [QE.mk s.i p (q.unk + (p - q.off))]).length - 1) =
          some lastE ∧ lastE.off = byteLen text
      rw [hlen2]
      have hsub : s.queue.length + 1 - 1 = s.queue.length := by omega
      rw [hsub]
      exact ⟨QE.mk s.i p (q.unk + (p - q.off)), hlast2, hpeq⟩
    · intro j e hjl hj
      rw [hlen2] at hjl
      have hjq : j < s.queue.length := by omega
      rw [List.get?_append hjq] at hj
      exact inv.offlt hne j e hj
  · rw [if_neg hpge] at hstep
    left
    have hplt : p < byteLen text := by omega
    have hrs2 := hrsne hplt
    have hpql : p < s.vertices.length := by
      rw [inv.vlen]
      exact hplt
    have hqne2 : q.off ≠ p := by omega
    refine ⟨_, hstep, ?_, ?_, ?_⟩
    · refine ⟨?_, ?_, hq02, ?_, hchain2, ?_, ?_, ?_, ?_⟩
      · show ((s.vertices.set q.off _).set p _).length = byteLen text
        rw [List.length_set, List.length_set]
        exact inv.vlen
      · show 0 < (s.queue ++ [QE.mk s.i p (q.unk + (p - q.off))]).length
        rw [hlen2]
        omega
      · show s.i + 1 ≤ (s.queue ++ [QE.mk s.i p (q.unk + (p - q.off))]).length
        rw [hlen2]
        omega
      · intro _ j e hj
        by_cases hjq : j < s.queue.length
        · rw [List.get?_append hjq] at hj
          exact inv.offlt hne j e hj
        · have hjlen := get?_lt_length hj
          rw [hlen2] at hjlen
          have hje : j = s.queue.length := by omega
          subst hje
          have heq : e = QE.mk s.i p (q.unk + (p - q.off)) :=
            Option.some.inj (hj.symm.trans hlast2)
          rw [heq]
          exact hplt
      · intro _ j hji e hj
        have hji2 : j < s.i + 1 := hji
        by_cases hjlt : j < s.i
        · rw [List.get?_append (by omega)] at hj
          obtain ⟨k, e2, hk, hlt⟩ := inv.gen hne j hjlt e hj
          exact ⟨k, e2, by rw [List.get?_append (get?_lt_length hk)]; exact hk, hlt⟩
        · have hjeq : j = s.i := by omega
          subst hjeq
          rw [List.get?_append hi] at hj
          have heq : e = q := Option.some.inj (hj.symm.trans hq)
          subst heq
          exact ⟨s.queue.length, QE.mk s.i p (e.unk + (p - e.off)), hlast2, hup⟩
      · intro _ o vs2 hv2
        by_cases hop : o = p
        · subst hop
          rw [get?_set_self _ (by rw [List.length_set]; exact hpql)] at hv2
          exact VertexState.noConfusion (Option.some.inj hv2)
        · by_cases hoq : o = q.off
          · subst hoq
            exact ⟨s.queue.length, QE.mk s.i p (q.unk + (p - q.off)), hlast2, hup⟩
          · have hv3 : s.vertices.get? o = some (VertexState.Some vs2) := by
              rw [← get?_set_ne (l := s.vertices) (k := q.off) (o := o)
                (VertexState.Some [p]) (fun hc => hoq hc.symm),
                ← get?_set_ne (l := s.vertices.set q.off (VertexState.Some [p]))
                  (k := p) (o := o) (VertexState.Cache rs) (fun hc => hop hc.symm)]
              exact hv2
            obtain ⟨k, e2, hk, hlt⟩ := inv.expanded hne o vs2 hv3
            exact ⟨k, e2, by rw [List.get?_append (get?_lt_length hk)]; exact hk, hlt⟩
      · intro o cs2 hc2
        by_cases hop : o = p
        · subst hop
          rw [get?_set_self _ (by rw [List.length_set]; exact hpql)] at hc2
          have h1 := Option.some.inj hc2
          injection h1 with h2
          subst h2
          refine ⟨hrs2, hch, ?_⟩
          intro v hvm
          exact hprops v hvm
        · by_cases hoq : o = q.off
          · subst hoq
            rw [get?_set_ne (l := s.vertices.set q.off (VertexState.Some [p]))
                (k := p) (o := q.off) (VertexState.Cache rs) (fun hc => hop hc.symm),
              get?_set_self _ (by rw [inv.vlen]; exact hqoff)] at hc2
            exact VertexState.noConfusion (Option.some.inj hc2)
          · have hv3 : s.vertices.get? o = some (VertexState.Cache cs2) := by
              rw [← get?_set_ne (l := s.vertices) (k := q.off) (o := o)
                (VertexState.Some [p]) (fun hc => hoq hc.symm),
                ← get?_set_ne (l := s.vertices.set q.off (VertexState.Some [p]))
                  (k := p) (o := o) (VertexState.Cache rs) (fun hc => hop hc.symm)]
              exact hc2
            exact inv.cache o cs2 hv3
    · obtain ⟨x0, hx0⟩ : ∃ x0, s.vertices.get? p = some x0 := by
        cases hx : s.vertices.get? p with
        | none =>
          have := List.get?_eq_none.mp hx
          omega
        | some x0 => exact ⟨x0, rfl⟩
      have hmid : (s.vertices.set q.off (VertexState.Some [p])).get? p = some x0 := by
        rw [get?_set_ne (l := s.vertices) (k := q.off) (o := p)
          (VertexState.Some [p]) hqne2]
        exact hx0
      have hcn1 := cN_set s.vertices q.off VertexState.None
        (VertexState.Some [p]) hv
      have hcc1 := cC_set s.vertices q.off VertexState.None
        (VertexState.Some [p]) hv
      have hcn2 := cN_set (s.vertices.set q.off (VertexState.Some [p])) p x0
        (VertexState.Cache rs) hmid
      have hcc2 := cC_set (s.vertices.set q.off (VertexState.Some [p])) p x0
        (VertexState.Cache rs) hmid
      simp only [vstNone_none, vstNone_some, vstNone_cache, vstCache_none,
        vstCache_some, vstCache_cache] at hcn1 hcc1 hcn2 hcc2
      show cN ((s.vertices.set q.off (VertexState.Some [p])).set p
          (VertexState.Cache rs)) * (mmA text * mmA text) +
        cC ((s.vertices.set q.off (VertexState.Some [p])).set p
          (VertexState.Cache rs)) * mmA text +
        ((s.queue ++ [QE.mk s.i p (q.unk + (p - q.off))]).length - (s.i + 1)) <
        cN s.vertices * (mmA text * mmA text) + cC s.vertices * mmA text +
        (s.queue.length - s.i)
      rw [hlen2]
      have hsum1 : cN s.vertices = cN ((s.vertices.set q.off
          (VertexState.Some [p])).set p (VertexState.Cache rs)) + vstNone x0 + 1 := by
        omega
      have e1 : cN s.vertices * (mmA text * mmA text) =
          cN ((s.vertices.set q.off (VertexState.Some [p])).set p
            (VertexState.Cache rs)) * (mmA text * mmA text) +
          vstNone x0 * (mmA text * mmA text) + mmA text * mmA text := by
        rw [hsum1]
        ring
      have hsum2 : cC ((s.vertices.set q.off (VertexState.Some [p])).set p
          (VertexState.Cache rs)) + vstCache x0 = cC s.vertices + 1 := by
        omega
      have e2 : cC ((s.vertices.set q.off (VertexState.Some [p])).set p
          (VertexState.Cache rs)) * mmA text + vstCache x0 * mmA text =
          cC s.vertices * mmA text + mmA text := by
        rw [← Nat.add_mul, hsum2, Nat.add_mul, Nat.one_mul]
      have hvb : vstCache x0 * mmA text ≤ mmA text := by
        have h1 : vstCache x0 * mmA text ≤ 1 * mmA text :=
          Nat.mul_le_mul_right _ (vstCache_le x0)
        rw [Nat.one_mul] at h1
        exact h1
      have hAB : mmA text < mmA text * mmA text := mmA_lt_sq text
      rw [e1]
      omega
    · intro hf
      have h2 : s.notEnded = false := hf
      rw [hne] at h2
      cases h2

/-- One iteration of the search loop from an invariant state with the search
still open never fails: it either continues with the invariant restored and
the measure strictly decreased, or leaves the loop in the exit shape. -/
theorem step_preserve {dict : List SizedNode} (hwf : WfSForest dict)
    {text : Str} {s : MMState} (inv : MMInv text s) (hne : s.notEnded = true) :
    (∃ s2, step dict text s = .ok (.goOn s2) ∧ MMInv text s2 ∧
      mmMeasure text s2 < mmMeasure text s ∧
      (s2.notEnded = false → MMEnd text s2)) ∨
    (∃ s2, step dict text s = .ok (.stopped s2) ∧ MMEnd text s2) := by
  have hi := inv.i_lt hne
  obtain ⟨q, hq⟩ : ∃ q, s.queue.get? s.i = some q := by
    cases hget : s.queue.get? s.i with
    | none =>
      have := List.get?_eq_none.mp hget
      omega
    | some q => exact ⟨q, rfl⟩
  have hqoff := inv.offlt hne s.i q hq
  obtain ⟨vst, hv⟩ : ∃ vst, s.vertices.get? q.off = some vst := by
    cases hget : s.vertices.get? q.off with
    | none =>
      have h1 := List.get?_eq_none.mp hget
      have h2 := inv.vlen
      omega
    | some vst => exact ⟨vst, rfl⟩
  cases vst with
  | None =>
    have hqb := (inv.chain s.i q hq).1
    obtain ⟨branches, htp, hch, hprops⟩ := tpAt_spec hwf hqb
    by_cases hbr : branches = []
    · subst hbr
      exact preserve_unknown hwf inv hne hq hv htp
    · left
      exact preserve_known inv hne hq hv htp hbr hch
        (fun v hvm => hprops v hvm)
  | Cache cs =>
    left
    exact preserve_cached inv hne hq hv
  | Some vs =>
    left
    obtain ⟨h1, h2, h3⟩ := @preserve_expanded dict text s q vs inv hne hq hv
    refine ⟨_, h1, h2, h3, ?_⟩
    intro hf
    have h4 : s.notEnded = false := hf
    rw [hne] at h4
    cases h4

/-- The search loop runs to completion from any open invariant state given
fuel above the measure, ending in the exit shape. -/
theorem runLoop_ok {dict : List SizedNode} (hwf : WfSForest dict) {text : Str} :
    ∀ (fuel : Nat) (s : MMState), MMInv text s → s.notEnded = true →
    mmMeasure text s < fuel →
    ∃ s1, runLoop dict text fuel s = .ok s1 ∧ MMEnd text s1 := by
  intro fuel
  induction fuel with
  | zero =>
    intro s _ _ hm
    omega
  | succ f ih =>
    intro s inv hne hm
    unfold runLoop
    rw [hne]
    simp only [Bool.true_eq_false, if_false]
    rcases step_preserve hwf inv hne with ⟨s2, hstep, inv2, hdec, hexit⟩ |
      ⟨s2, hstep, hend⟩
    · rw [hstep]
      cases hne2 : s2.notEnded with
      | false =>
        have hend2 := hexit hne2
        refine ⟨s2, ?_, hend2⟩
        unfold runLoop
        rw [hne2]
        rfl
      | true =>
        exact ih s2 inv2 hne2 (by omega)
    · rw [hstep]
      exact ⟨s2, rfl, hend⟩

/-- The finalization scan never fails and only ever selects an index of a
non-final worklist record. -/
theorem finGo_ok {n : Nat} {vertices : List VertexState} {queue : List QE}
    (lastUnk : Nat) (hvlen : vertices.length = n)
    (hsmall : ∀ j e, j < queue.length - 1 → queue.get? j = some e → e.off < n) :
    ∀ (rem j : Nat) (best : Option Nat),
    (∀ jb, best = some jb → jb < queue.length - 1) →
    ∃ b, finGo n vertices queue lastUnk rem j best = .ok b ∧
      (∀ jb, b = some jb → jb < queue.length - 1) := by
  intro rem
  induction rem with
  | zero =>
    intro j best hbest
    exact ⟨best, rfl, hbest⟩
  | succ r ih =>
    intro j best hbest
    simp only [finGo]
    by_cases hj : j < queue.length - 1
    · rw [if_pos hj]
      obtain ⟨e, he⟩ : ∃ e, queue.get? j = some e := by
        cases hg : queue.get? j with
        | none =>
          have := List.get?_eq_none.mp hg
          omega
        | some e => exact ⟨e, rfl⟩
      rw [he]
      dsimp only
      obtain ⟨vst, hvst⟩ : ∃ vst, vertices.get? e.off = some vst := by
        cases hg : vertices.get? e.off with
        | none =>
          have h1 := List.get?_eq_none.mp hg
          have h2 := hsmall j e hj he
          omega
        | some v => exact ⟨v, rfl⟩
      rw [hvst]
      dsimp only
      cases vst with
      | None => exact ih (j + 1) best hbest
      | Cache cs => exact ih (j + 1) best hbest
      | Some vs =>
        dsimp only
        apply ih
        intro jb hjb
        by_cases hcond : ((vs.any fun v => n ≤ v) && decide (e.unk < lastUnk)) = true
        · rw [if_pos hcond] at hjb
          have : j = jb := Option.some.inj hjb
          omega
        · rw [if_neg hcond] at hjb
          exact hbest jb hjb
    · rw [if_neg hj]
      exact ⟨best, rfl, hbest⟩

theorem walkBack_eq (text : Str) (queue : List QE) (fuel i lastOff : Nat)
    (acc : List Str) :
    walkBack text queue fuel i lastOff acc =
      if i = 0 then
        match sliceChk text 0 lastOff with
        | Option.none => .error .sliceFail
        | Option.some t => .ok (t :: acc)
      else
        match fuel with
        | 0 => .error .walkFuel
        | fuel' + 1 =>
          match queue.get? i with
          | Option.none => .error .queueIdx
          | Option.some e =>
            match sliceChk text e.off lastOff with
            | Option.none => .error .sliceFail
            | Option.some t => walkBack text queue fuel' e.back e.off (t :: acc) := by
  cases fuel <;> rfl

/-- The back-pointer walk emits the non-empty slices of a chain of strictly
increasing boundary offsets whose concatenation is the prefix of the text up
to the starting offset. -/
theorem walkBack_spec {text : Str} {queue : List QE} (hch : QChain text queue) :
    ∀ (fuel i lastOff : Nat) (acc : List Str),
    i < queue.length → i ≤ fuel →
    isBoundary text lastOff = true → lastOff ≤ byteLen text → 0 < lastOff →
    (∀ e, queue.get? i = some e → e.off < lastOff) →
    ∃ ts, walkBack text queue fuel i lastOff acc = .ok (ts ++ acc) ∧
      ts.flatten = sliceB text 0 lastOff ∧ ∀ t ∈ ts, t ≠ [] := by
  intro fuel
  induction fuel with
  | zero =>
    intro i lastOff acc hilen hif hb hle hpos hoff
    have hi0 : i = 0 := by omega
    subst hi0
    rw [walkBack_eq]
    rw [if_pos rfl, sliceChk_ok (isBoundary_zero text) hb (by omega)]
    refine ⟨[sliceB text 0 lastOff], rfl, by simp, ?_⟩
    intro t ht
    rcases List.mem_singleton.mp ht with h
    subst h
    exact sliceB_ne_nil (isBoundary_zero text) hb hpos
  | succ f ih =>
    intro i lastOff acc hilen hif hb hle hpos hoff
    by_cases hi0 : i = 0
    · subst hi0
      rw [walkBack_eq]
      rw [if_pos rfl, sliceChk_ok (isBoundary_zero text) hb (by omega)]
      refine ⟨[sliceB text 0 lastOff], rfl, by simp, ?_⟩
      intro t ht
      rcases List.mem_singleton.mp ht with h
      subst h
      exact sliceB_ne_nil (isBoundary_zero text) hb hpos
    · rw [walkBack_eq]
      rw [if_neg hi0]
      obtain ⟨e, he⟩ : ∃ e, queue.get? i = some e := by
        cases hg : queue.get? i with
        | none =>
          have := List.get?_eq_none.mp hg
          omega
        | some e => exact ⟨e, rfl⟩
      rw [he]
      dsimp only
      have hoffe := hoff e he
      obtain ⟨hbnd, hble, _hbk, himp⟩ := hch i e he
      obtain ⟨hback, pe, hpe, hpelt⟩ := himp (by omega)
      rw [sliceChk_ok hbnd hb (Nat.le_of_lt hoffe)]
      dsimp only
      have h0lt : 0 < e.off := by omega
      obtain ⟨ts', hwb, hfl, hnn⟩ := ih e.back e.off
        (sliceB text e.off lastOff :: acc) (by omega) (by omega) hbnd hble h0lt
        (by
          intro e2 he2
          have he2p : e2 = pe := Option.some.inj (he2.symm.trans hpe)
          rw [he2p]
          exact hpelt)
      refine ⟨ts' ++ [sliceB text e.off lastOff], ?_, ?_, ?_⟩
      · rw [hwb, List.append_assoc, List.singleton_append]
      · rw [List.flatten_append, hfl]
        simp only [List.flatten, List.append_nil]
        exact sliceB_append_adj (isBoundary_zero text) hbnd hb (Nat.zero_le _)
          (Nat.le_of_lt hoffe)
      · intro t ht
        rcases List.mem_append.mp ht with h1 | h1
        · exact hnn t h1
        · rcases List.mem_singleton.mp h1 with h
          subst h
          exact sliceB_ne_nil hbnd hb hoffe

theorem replicate_get?_none {n o : Nat} {vst : VertexState}
    (h : (List.replicate n VertexState.None).get? o = some vst) :
    vst = VertexState.None := by
  induction n generalizing o with
  | zero => cases h
  | succ m ih =>
    cases o with
    | zero =>
      simp only [List.replicate, List.get?_cons_zero] at h
      exact (Option.some.inj h).symm
    | succ k =>
      simp only [List.replicate, List.get?_cons_succ] at h
      exact ih h

/-- The initial search state satisfies the loop invariant. -/
theorem mmInit_inv (text : Str) (hne : text ≠ []) : MMInv text (mmInit text) := by
  have hn := byteLen_pos hne
  refine ⟨?_, ?_, rfl, ?_, ?_, ?_, ?_, ?_, ?_⟩
  · show (List.replicate (byteLen text) VertexState.None).length = byteLen text
    exact List.length_replicate _ _
  · show 0 < ([⟨0, 0, 0⟩] : List QE).length
    simp
  · show 0 ≤ ([⟨0, 0, 0⟩] : List QE).length
    simp
  · intro j e hj
    cases j with
    | zero =>
      have he : e = ⟨0, 0, 0⟩ := (Option.some.inj hj).symm
      subst he
      exact ⟨isBoundary_zero text, Nat.zero_le _, Nat.le_refl 0, by omega⟩
    | succ k => cases hj
  · intro _ j e hj
    cases j with
    | zero =>
      have he : e = ⟨0, 0, 0⟩ := (Option.some.inj hj).symm
      subst he
      exact hn
    | succ k => cases hj
  · intro _ j hj e _
    cases hj
  · intro _ o vs hv
    exact absurd (replicate_get?_none hv) (by simp)
  · intro o cs hv
    exact absurd (replicate_get?_none hv) (by simp)

/-- The fixed fuel dominates the measure of the initial state. -/
theorem mmInit_measure (text : Str) :
    mmMeasure text (mmInit text) < mmFuel (byteLen text) := by
  show cN (List.replicate (byteLen text) VertexState.None) *
      (mmA text * mmA text) +
    cC (List.replicate (byteLen text) VertexState.None) * mmA text +
    (([⟨0, 0, 0⟩] : List QE).length - 0) < mmFuel (byteLen text)
  rw [cN_replicate, cC_replicate]
  unfold mmFuel mmA
  simp

/-- Full specification of maximal_matching on a non-empty chunk over a
well-formed sealed dictionary: it returns normally, its tokens concatenate
back to the chunk byte-for-byte, and every token is non-empty. -/
theorem mm_spec {dict : List SizedNode} (hwf : WfSForest dict) {text : Str}
    (hne : text ≠ []) :
    ∃ ts, maximalMatching dict text = .ok ts ∧ ts.flatten = text ∧
      ∀ t ∈ ts, t ≠ [] := by
  have hn := byteLen_pos hne
  obtain ⟨s1, hrun, hend⟩ := runLoop_ok hwf (mmFuel (byteLen text)) (mmInit text)
    (mmInit_inv text hne) rfl (mmInit_measure text)
  obtain ⟨lastE, hlastE, hlastOff⟩ := hend.last
  have hgetLast : s1.queue.getLast? = some lastE := by
    rw [List.getLast?_eq_get?]
    exact hlastE
  obtain ⟨b, hfin, hb⟩ := finGo_ok lastE.unk hend.vlen hend.small
    s1.queue.length s1.i Option.none (fun jb hjb => by cases hjb)
  have hq2 := hend.q2
  cases hbv : b with
  | some j =>
    have hjlt := hb j hbv
    obtain ⟨ts, hwb, hfl, hnn⟩ := walkBack_spec hend.chain s1.queue.length j
      lastE.off [] (by omega) (by omega)
      (by rw [hlastOff]; exact isBoundary_byteLen text)
      (by rw [hlastOff]) (by rw [hlastOff]; exact hn)
      (fun e he => by
        rw [hlastOff]
        exact hend.small j e (by omega) he)
    refine ⟨ts, ?_, ?_, hnn⟩
    · unfold maximalMatching
      dsimp only
      rw [hrun]
      dsimp only
      rw [hgetLast]
      dsimp only
      rw [hfin]
      dsimp only
      rw [hbv]
      dsimp only
      rw [hwb, List.append_nil]
    · rw [hfl, hlastOff]
      exact sliceB_zero_all text
  | none =>
    obtain ⟨_, _, _, himp⟩ := hend.chain (s1.queue.length - 1) lastE hlastE
    obtain ⟨hback, pe, hpe, hpelt⟩ := himp (by omega)
    obtain ⟨ts, hwb, hfl, hnn⟩ := walkBack_spec hend.chain s1.queue.length
      lastE.back lastE.off [] (by omega) (by omega)
      (by rw [hlastOff]; exact isBoundary_byteLen text)
      (by rw [hlastOff]) (by rw [hlastOff]; exact hn)
      (fun e he => by
        have hepe : e = pe := Option.some.inj (he.symm.trans hpe)
        rw [hepe]
        omega)
    refine ⟨ts, ?_, ?_, hnn⟩
    · unfold maximalMatching
      dsimp only
      rw [hrun]
      dsimp only
      rw [hgetLast]
      dsimp only
      rw [hfin]
      dsimp only
      rw [hbv]
      dsimp only
      rw [hwb, List.append_nil]
    · rw [hfl, hlastOff]
      exact sliceB_zero_all text

theorem mapM_ok {f : Str → Except Panic (List Str)} : ∀ (l : List Str),
    (∀ ch ∈ l, ∃ r, f ch = .ok r) → ∃ rs, l.mapM f = .ok rs := by
  intro l
  induction l with
  | nil =>
    intro _
    exact ⟨[], rfl⟩
  | cons a t ih =>
    intro h
    obtain ⟨r, hr⟩ := h a (List.mem_cons_self a t)
    obtain ⟨rs, hrs⟩ := ih fun ch hch => h ch (List.mem_cons_of_mem a hch)
    refine ⟨r :: rs, ?_⟩
    rw [List.mapM_cons, hr]
    show (t.mapM f >>= fun xs => pure (r :: xs)) = .ok (r :: rs)
    rw [hrs]
    rfl

/-- C2: on every dictionary built from non-empty words and every non-empty
chunk, maximal_matching returns an ordered list of sub-slices of the chunk
whose concatenation equals the chunk byte-for-byte, with every returned
sub-slice non-empty. -/
theorem c2_segmentation_covers (words : List Str) (h : ∀ w ∈ words, w ≠ [])
    (text : Str) (hne : text ≠ []) :
    ∃ ts, maximalMatching (sealRoot (buildRoot words)) text = .ok ts ∧
      ts.flatten = text ∧ ∀ t ∈ ts, t ≠ [] :=
  mm_spec (sealRoot_wf words h) hne

/-- Witness for C2 at the dictionary a, ab and the chunk abb. -/
theorem c2_segmentation_covers_witness :
    (∀ w ∈ ([['a'], ['a', 'b']] : List Str), w ≠ []) ∧
    (['a', 'b', 'b'] : Str) ≠ [] ∧
    (∃ ts, maximalMatching (sealRoot (buildRoot [['a'], ['a', 'b']]))
        ['a', 'b', 'b'] = .ok ts ∧ ts.flatten = ['a', 'b', 'b'] ∧
      ∀ t ∈ ts, t ≠ []) :=
  ⟨by decide, by decide,
    c2_segmentation_covers [['a'], ['a', 'b']] (by decide) ['a', 'b', 'b']
      (by decide)⟩

/-- C3: on every dictionary built from non-empty words (the empty dictionary
included) and every input string, tokenize returns normally: no worklist
index, vertex index or byte-slice operation of the segmenter fails. -/
theorem c3_tokenize_no_panic (words : List Str) (h : ∀ w ∈ words, w ≠ [])
    (value : Str) :
    ∃ ts, tokenize (sealRoot (buildRoot words)) value = .ok ts := by
  obtain ⟨rs, hrs⟩ := mapM_ok (splitWS value) fun ch hch =>
    (fun ⟨ts, hts, _, _⟩ => ⟨ts, hts⟩)
      (mm_spec (sealRoot_wf words h) (splitWSGo_mem_ne_nil value [] ch hch))
  refine ⟨rs.flatten, ?_⟩
  unfold tokenize
  rw [hrs]

/-- Witness for C3 at the empty dictionary and the input a b. -/
theorem c3_tokenize_no_panic_witness :
    (∀ w ∈ ([] : List Str), w ≠ []) ∧
    (∃ ts, tokenize (sealRoot (buildRoot [])) ['a', ' ', 'b'] = .ok ts) :=
  ⟨by decide, c3_tokenize_no_panic [] (by decide) ['a', ' ', 'b']⟩

end Tok
